import Mathlib

/-!
# elf-strings: the vendored `zermelo` radix sorter

A shallow embedding of the Go sources under
`vendor/github.com/shawnsmithdev/zermelo` (the eight per-kind packages and the
dispatcher `zermelo.go`) and the properties of it that the specification states.

Conventions of the embedding

* A Go slice is a `List`.  `x` and `buffer` are distinct backing arrays (the
  two arguments of `SortBYOB` do not overlap), so a write through `to` never
  changes `from`.
* `uint32`, `uint64`, `uint` values are `Nat`s below `2 ^ bitSize`; `int32`,
  `int64`, `int` values are `Int`s in the two's-complement range.  Where Go
  wraps (the `keyMask` shift) the wrap is written out.
* `float32`, `float64` values are their IEEE-754 bit patterns (`Nat`s below
  `2 ^ bitSize`); the only float operations the sources use are `math.IsNaN`,
  `math.Float32bits`/`Float64bits` and the comparisons `<` and `>=`, all of
  which are functions of the bit pattern.
* The arrays `counts` and `offset` (`[256]int`) are lists of 256 numbers, read with
  `getD` and written with `set`; their indices are `uint8` values or loop counters below
  256, hence always in range.
* A Go panic is an `Except.error` carrying the message and the contents of the
  two arrays at that moment: either the explicit `"Buffer too small"` or the
  run-time `"index out of range"` of an indexed write.
-/

namespace zermelo

/-! ## The radix engine shared by the eight per-kind packages

The eight `SortBYOB` bodies differ only in the items collected in `Engine`. -/

/-- The constant `radix` of every package. -/
def radix : Nat := 8

/-- What distinguishes one per-kind `SortBYOB` from another. -/
structure Engine (α : Type) where
  /-- The constant `bitSize`. -/
  bitSize : Nat
  /-- The expression `uint8((elem & keyMask) >> keyOffset)` as a function of `keyOffset`
  and `elem` (for the float kinds `elem` is first sent through `floatFlip`). -/
  key : Nat → α → Nat
  /-- The comparison `elem >= prev`. -/
  ge : α → α → Bool
  /-- The initial value of `prev`. -/
  prev0 : α
  /-- The initial value of `sorted`. -/
  sorted0 : Bool
  /-- Whether the body has the `if keyOffset == bitSize-radix` branch of the signed kinds. -/
  signed : Bool

/-- The variables updated by the first `range from` loop of a pass. -/
structure Scan (α : Type) where
  counts : List Nat
  sorted : Bool
  prev : α

/-- One iteration of the first `range from` loop:
`key = ...; counts[key]++; if sorted { sorted = elem >= prev; prev = elem }`. -/
def scanStep {α : Type} (E : Engine α) (keyOffset : Nat) (s : Scan α) (elem : α) : Scan α :=
  let key := E.key keyOffset elem
  { counts := s.counts.set key (s.counts.getD key 0 + 1)
    sorted := if s.sorted then E.ge elem s.prev else s.sorted
    prev := if s.sorted then elem else s.prev }

/-- The first `range from` loop of a pass, from `var counts [256]int`, `sorted := ...`,
`prev := ...`. -/
def scan {α : Type} (E : Engine α) (keyOffset : Nat) (frm : List α) : Scan α :=
  frm.foldl (scanStep E keyOffset) { counts := List.replicate 256 0, sorted := E.sorted0, prev := E.prev0 }

/-- The loop `offset[0] = 0; for i := 1; i < len(offset); i++ { offset[i] = offset[i-1] + counts[i-1] }`. -/
def plainOffsets (counts offset : List Nat) : List Nat :=
  (List.range' 1 255).foldl
    (fun off i => off.set i (off.getD (i - 1) 0 + counts.getD (i - 1) 0))
    (offset.set 0 0)

/-- The last-pass branch of the signed kinds:
`negCnt` sums `counts[128..255]`, then `offset[0] = negCnt; offset[128] = 0` and
`for i := 1; i < 128; i++ { offset[i] = offset[i-1] + counts[i-1];
offset[i+128] = offset[i+127] + counts[i+127] }`. -/
def signedOffsets (counts offset : List Nat) : List Nat :=
  let negCnt := (List.range' 128 128).foldl (fun acc i => acc + counts.getD i 0) 0
  (List.range' 1 127).foldl
    (fun off i =>
      let off1 := off.set i (off.getD (i - 1) 0 + counts.getD (i - 1) 0)
      off1.set (i + 128) (off1.getD (i + 127) 0 + counts.getD (i + 127) 0))
    ((offset.set 0 negCnt).set 128 0)

/-- The second `range from` loop of a pass:
`key = ...; to[offset[key]] = elem; offset[key]++`.  The error is the index-out-of-range
panic of the write, with the contents of `to` at that moment. -/
def scatter {α : Type} (E : Engine α) (keyOffset : Nat) :
    List α → List Nat → List α → Except (List α) (List Nat × List α)
  | [], offset, dst => .ok (offset, dst)
  | elem :: rest, offset, dst =>
    let key := E.key keyOffset elem
    if offset.getD key 0 < dst.length then
      scatter E keyOffset rest (offset.set key (offset.getD key 0 + 1))
        (dst.set (offset.getD key 0) elem)
    else .error dst

/-- Go's builtin `copy(dst, src)`: the first `min(len(dst), len(src))` elements of `dst`
are overwritten. -/
def copy {α : Type} (dst src : List α) : List α :=
  src.take dst.length ++ dst.drop src.length

/-- The state in which the `for keyOffset` loop is left: the slices `from` and `to`, and the
number of passes that ran their scatter (each followed by `to, from = from, to`). -/
structure Loop (α : Type) where
  frm : List α
  dst : List α
  swaps : Nat

/-- The loop `for keyOffset := uint(0); keyOffset < bitSize; keyOffset += radix`, with `n` the
number of iterations still to run.  The error is a panic of `scatter`, with the state of the
loop at that moment. -/
def passes {α : Type} (E : Engine α) :
    Nat → Nat → List α → List α → List Nat → Except (Loop α) (Loop α)
  | 0, keyOffset, frm, dst, _ => .ok { frm := frm, dst := dst, swaps := keyOffset / radix }
  | n + 1, keyOffset, frm, dst, offset =>
    let s := scan E keyOffset frm
    if s.sorted then
      .ok { frm := frm
            dst := if (keyOffset / radix) % 2 = 1 then copy dst frm else dst
            swaps := keyOffset / radix }
    else
      let offset1 :=
        if E.signed && keyOffset == E.bitSize - radix then signedOffsets s.counts offset
        else plainOffsets s.counts offset
      match scatter E keyOffset frm offset1 dst with
      | .error dst1 => .error { frm := frm, dst := dst1, swaps := keyOffset / radix }
      | .ok (offset2, dst1) => passes E n (keyOffset + radix) dst1 frm offset2

/-- What a call leaves behind: the two backing arrays, and the number of scatter passes run
(a ghost value, not part of the Go state). -/
structure Outcome (α : Type) where
  x : List α
  buffer : List α
  scatters : Nat

/-- A panic: its message, and the two backing arrays as the panic leaves them. -/
structure Panic (α : Type) where
  msg : String
  x : List α
  buffer : List α

/-- The part of `SortBYOB` after the two guards, on the windows `from := x[nans:]` and
`to := buffer[:len(from)]`; `head` is `x[:nans]` (empty for the integer kinds).  After an even
number of swaps `from` is the window of `x`, after an odd number it is the window of
`buffer`.  The array `offset` is declared (zeroed) before the loop. -/
def radixSort {α : Type} (E : Engine α) (head frm buffer : List α) :
    Except (Panic α) (Outcome α) :=
  match passes E (E.bitSize / radix) 0 frm (buffer.take frm.length) (List.replicate 256 0) with
  | .error r =>
    .error { msg := "index out of range"
             x := head ++ (if r.swaps % 2 = 0 then r.frm else r.dst)
             buffer := (if r.swaps % 2 = 0 then r.dst else r.frm) ++ buffer.drop frm.length }
  | .ok r =>
    .ok { x := head ++ (if r.swaps % 2 = 0 then r.frm else r.dst)
          buffer := (if r.swaps % 2 = 0 then r.dst else r.frm) ++ buffer.drop frm.length
          scatters := r.swaps }

/-- The function `SortBYOB` of an integer kind. -/
def Engine.SortBYOB {α : Type} (E : Engine α) (x buffer : List α) :
    Except (Panic α) (Outcome α) :=
  if x.length > buffer.length then .error { msg := "Buffer too small", x := x, buffer := buffer }
  else if x.length < 2 then .ok { x := x, buffer := buffer, scatters := 0 }
  else radixSort E [] x buffer

/-! ## Unsigned kinds -/

/-- The key of an unsigned kind of width `w`:
`keyMask := uintW(0xFF << keyOffset)` and `uint8((elem & keyMask) >> keyOffset)`. -/
def unsignedKey (w keyOffset elem : Nat) : Nat :=
  let keyMask := (0xFF <<< keyOffset) % 2 ^ w
  ((elem &&& keyMask) >>> keyOffset) % 256

namespace zuint64

/-- The constant `MinSize`. -/
def MinSize : Nat := 256

/-- The constant `bitSize`. -/
def bitSize : Nat := 64

/-- The body of `zuint64.SortBYOB`: `sorted := true`, `prev := uint64(0)`, no signed branch. -/
def engine : Engine Nat :=
  { bitSize := bitSize, key := unsignedKey 64, ge := fun elem prev => decide (elem ≥ prev),
    prev0 := 0, sorted0 := true, signed := false }

/-- The function `zuint64.SortBYOB`. -/
def SortBYOB (x buffer : List Nat) : Except (Panic Nat) (Outcome Nat) := engine.SortBYOB x buffer

end zuint64

namespace zuint32

/-- The constant `MinSize`. -/
def MinSize : Nat := 128

/-- The constant `bitSize`. -/
def bitSize : Nat := 32

/-- The body of `zuint32.SortBYOB`: `sorted := false` (sic), `prev := uint32(0)`, no signed
branch. -/
def engine : Engine Nat :=
  { bitSize := bitSize, key := unsignedKey 32, ge := fun elem prev => decide (elem ≥ prev),
    prev0 := 0, sorted0 := false, signed := false }

/-- The function `zuint32.SortBYOB`. -/
def SortBYOB (x buffer : List Nat) : Except (Panic Nat) (Outcome Nat) := engine.SortBYOB x buffer

end zuint32

namespace zuint

/-- The constant `MinSize`. -/
def MinSize : Nat := 256

/-- The constant `bitSize = 1 << (5 + (^uint(0))>>32&1)`, where `uintSize` is the width of
the platform's `uint` (32 or 64), so that `^uint(0)` is `2 ^ uintSize - 1`.  In Go `>>` and `&`
bind tighter than `+`, and associate to the left. -/
def bitSize (uintSize : Nat) : Nat := 1 <<< (5 + (((2 ^ uintSize - 1) >>> 32) &&& 1))

/-- The body of `zuint.SortBYOB`: `sorted := true`, `prev := uint(0)`, no signed branch. -/
def engine (uintSize : Nat) : Engine Nat :=
  { bitSize := bitSize uintSize, key := unsignedKey uintSize,
    ge := fun elem prev => decide (elem ≥ prev), prev0 := 0, sorted0 := true, signed := false }

/-- The function `zuint.SortBYOB` on a platform whose `uint` has `uintSize` bits. -/
def SortBYOB (uintSize : Nat) (x buffer : List Nat) : Except (Panic Nat) (Outcome Nat) :=
  (engine uintSize).SortBYOB x buffer

end zuint

/-! ## Signed kinds -/

/-- Go's conversion of an integer to the signed type of `w` bits: the value is wrapped into
`[-2 ^ (w - 1), 2 ^ (w - 1))`. -/
def wrapInt (w : Nat) (v : Int) : Int := (v + 2 ^ (w - 1)) % 2 ^ w - 2 ^ (w - 1)

/-- The key of a signed kind of width `w`: `keyMask := intW(0xFF << keyOffset)` (which wraps
to a negative mask in the last pass) and `uint8((elem & keyMask) >> keyOffset)`, with `&` the
two's-complement conjunction, `>>` the arithmetic shift and `uint8` the low byte. -/
def signedKey (w keyOffset : Nat) (elem : Int) : Nat :=
  let keyMask : Int := wrapInt w ((0xFF <<< keyOffset : Nat) : Int)
  (((Int.land elem keyMask) >>> keyOffset) % 256).toNat

namespace zint32

/-- The constant `MinSize`. -/
def MinSize : Nat := 128

/-- The constant `bitSize`. -/
def bitSize : Nat := 32

/-- The constant `minInt32 = -1 << 31`. -/
def minInt32 : Int := (-1 : Int) <<< (31 : Int)

/-- The body of `zint32.SortBYOB`: `sorted := true`, `prev := minInt32`, and the signed branch
in the last pass. -/
def engine : Engine Int :=
  { bitSize := bitSize, key := signedKey 32, ge := fun elem prev => decide (elem ≥ prev),
    prev0 := minInt32, sorted0 := true, signed := true }

/-- The function `zint32.SortBYOB`. -/
def SortBYOB (x buffer : List Int) : Except (Panic Int) (Outcome Int) := engine.SortBYOB x buffer

end zint32

namespace zint64

/-- The constant `MinSize`. -/
def MinSize : Nat := 256

/-- The constant `bitSize`. -/
def bitSize : Nat := 64

/-- The constant `minInt64 = -1 << 63`. -/
def minInt64 : Int := (-1 : Int) <<< (63 : Int)

/-- The body of `zint64.SortBYOB`: `sorted := true`, `prev := minInt64`, and the signed branch
in the last pass. -/
def engine : Engine Int :=
  { bitSize := bitSize, key := signedKey 64, ge := fun elem prev => decide (elem ≥ prev),
    prev0 := minInt64, sorted0 := true, signed := true }

/-- The function `zint64.SortBYOB`. -/
def SortBYOB (x buffer : List Int) : Except (Panic Int) (Outcome Int) := engine.SortBYOB x buffer

end zint64

namespace zint

/-- The constant `MinSize`. -/
def MinSize : Nat := 256

/-- The constant `bitSize = 1 << (5 + (^uint(0))>>32&1)`, as in `zuint`. -/
def bitSize (uintSize : Nat) : Nat := 1 <<< (5 + (((2 ^ uintSize - 1) >>> 32) &&& 1))

/-- The constant `minInt = -1 >> (bitSize - 1)`: an arithmetic right shift of `-1`. -/
def minInt (uintSize : Nat) : Int := (-1 : Int) >>> (bitSize uintSize - 1)

/-- The body of `zint.SortBYOB`: `sorted := true`, `prev := minInt`, and the signed branch in
the last pass. -/
def engine (uintSize : Nat) : Engine Int :=
  { bitSize := bitSize uintSize, key := signedKey uintSize,
    ge := fun elem prev => decide (elem ≥ prev), prev0 := minInt uintSize, sorted0 := true,
    signed := true }

/-- The function `zint.SortBYOB` on a platform whose `int` has `uintSize` bits. -/
def SortBYOB (uintSize : Nat) (x buffer : List Int) : Except (Panic Int) (Outcome Int) :=
  (engine uintSize).SortBYOB x buffer

end zint

/-! ## Floating-point kinds

A `float32` or `float64` value is its IEEE-754 bit pattern: sign bit, exponent field, mantissa
field.  The sources use four float operations, all functions of the pattern: `math.IsNaN`,
`math.Float32bits`/`math.Float64bits` (the identity on patterns), and the comparisons `>=`
and `<`. -/

namespace ieee

/-- The function `math.IsNaN` on a pattern of `w` bits, `inf` being the pattern of `+Inf`
(exponent field all ones, mantissa zero): a NaN has the exponent field all ones and a
non-zero mantissa, that is, magnitude bits above those of `+Inf`. -/
def IsNaN (w inf val : Nat) : Bool := decide (val % 2 ^ (w - 1) > inf)

/-- The place of a non-NaN pattern in the numeric order: the magnitude bits, negated when
the sign bit is set (so `-0.0` and `+0.0` share the place 0).  For IEEE-754 formats the
magnitude bits of the finite values and of the infinities increase with the magnitude. -/
def ord (w val : Nat) : Int :=
  if val / 2 ^ (w - 1) % 2 = 1 then -((val % 2 ^ (w - 1) : Nat) : Int)
  else ((val % 2 ^ (w - 1) : Nat) : Int)

/-- The Go comparison `a >= b` of two floats: false when either is NaN. -/
def ge (w inf a b : Nat) : Bool :=
  !IsNaN w inf a && !IsNaN w inf b && decide (ord w a ≥ ord w b)

/-- The Go comparison `a < b` of two floats: false when either is NaN. -/
def lt (w inf a b : Nat) : Bool :=
  !IsNaN w inf a && !IsNaN w inf b && decide (ord w a < ord w b)

end ieee

/-- One iteration of the loop `for idx, val := range x { if math.IsNaN(val) { x[idx] = x[nans];
x[nans] = val; nans++ } }`; the state is `x` and `nans`. -/
def nanStep (isNaN : Nat → Bool) (s : List Nat × Nat) (idx : Nat) : List Nat × Nat :=
  let val := s.1.getD idx 0
  if isNaN val then ((s.1.set idx (s.1.getD s.2 0)).set s.2 val, s.2 + 1) else s

/-- The loop that puts the NaNs up front: `nans := 0` and one `nanStep` per index of `x`. -/
def nanFront (isNaN : Nat → Bool) (x : List Nat) : List Nat × Nat :=
  (List.range x.length).foldl (nanStep isNaN) (x, 0)

namespace zfloat32

/-- The constant `MinSize`. -/
def MinSize : Nat := 256

/-- The constant `bitSize`. -/
def bitSize : Nat := 32

/-- The test `math.IsNaN(float64(val))`. -/
def IsNaN (val : Nat) : Bool := ieee.IsNaN 32 0x7F800000 val

/-- The function `math.Float32bits`. -/
def Float32bits (val : Nat) : Nat := val

/-- The function `floatFlip`. -/
def floatFlip (x : Nat) : Nat :=
  if (x &&& 0x80000000) = 0x80000000 then x ^^^ 0xFFFFFFFF else x ^^^ 0x80000000

/-- The body of `zfloat32.SortBYOB` after the NaN loop: the key is taken from
`floatFlip(math.Float32bits(val))`, `sorted := true`, `prev := float32(0)`, no signed
branch. -/
def engine : Engine Nat :=
  { bitSize := bitSize
    key := fun keyOffset val => unsignedKey 32 keyOffset (floatFlip (Float32bits val))
    ge := fun val prev => ieee.ge 32 0x7F800000 val prev
    prev0 := 0, sorted0 := true, signed := false }

/-- The function `zfloat32.SortBYOB`. -/
def SortBYOB (x buffer : List Nat) : Except (Panic Nat) (Outcome Nat) :=
  if x.length > buffer.length then .error { msg := "Buffer too small", x := x, buffer := buffer }
  else if x.length < 2 then .ok { x := x, buffer := buffer, scatters := 0 }
  else
    let q := nanFront IsNaN x
    radixSort engine (q.1.take q.2) (q.1.drop q.2) buffer

end zfloat32

namespace zfloat64

/-- The constant `MinSize`. -/
def MinSize : Nat := 256

/-- The constant `bitSize`. -/
def bitSize : Nat := 64

/-- The test `math.IsNaN(val)`. -/
def IsNaN (val : Nat) : Bool := ieee.IsNaN 64 0x7FF0000000000000 val

/-- The function `math.Float64bits`. -/
def Float64bits (val : Nat) : Nat := val

/-- The function `floatFlip`. -/
def floatFlip (x : Nat) : Nat :=
  if (x &&& 0x8000000000000000) = 0x8000000000000000 then x ^^^ 0xFFFFFFFFFFFFFFFF
  else x ^^^ 0x8000000000000000

/-- The body of `zfloat64.SortBYOB` after the NaN loop: the key is taken from
`floatFlip(math.Float64bits(val))`, `sorted := true`, `prev := float64(0)`, no signed
branch. -/
def engine : Engine Nat :=
  { bitSize := bitSize
    key := fun keyOffset val => unsignedKey 64 keyOffset (floatFlip (Float64bits val))
    ge := fun val prev => ieee.ge 64 0x7FF0000000000000 val prev
    prev0 := 0, sorted0 := true, signed := false }

/-- The function `zfloat64.SortBYOB`. -/
def SortBYOB (x buffer : List Nat) : Except (Panic Nat) (Outcome Nat) :=
  if x.length > buffer.length then .error { msg := "Buffer too small", x := x, buffer := buffer }
  else if x.length < 2 then .ok { x := x, buffer := buffer, scatters := 0 }
  else
    let q := nanFront IsNaN x
    radixSort engine (q.1.take q.2) (q.1.drop q.2) buffer

end zfloat64

/-! ## The fallback for small slices, and the dispatcher

Go's standard library `sort` is not part of the repository.  `sort.Sort` is modelled by the
insertion sort that the library itself runs on short slices (twelve elements or fewer), driven
only by `Less` and `Swap`; on a strict total order, as for the integer kinds, every correct
comparison sort returns the same slice.  On a longer slice the library runs other algorithms;
under a comparison that is not a strict total order (floats with a NaN or with both zeros)
their result can differ from that of this model, which is exact only up to twelve elements
there. -/

namespace gosort

/-- The inner loop of the library's `insertionSort`,
`for j := i; j > a && data.Less(j, j-1); j-- { data.Swap(j, j-1) }`: the element `e` found at
index `i` is swapped leftwards past every element it is `Less` than.  The prefix `data[a:i]` is
given in reverse (nearest element first), and returned in reverse with `e` in place. -/
def sink {α : Type} (less : α → α → Bool) (e : α) : List α → List α
  | [] => [e]
  | y :: ys => if less e y then y :: sink less e ys else e :: y :: ys

/-- The library's `insertionSort(data, 0, n)`: `for i := a + 1; i < b; i++` runs the inner loop
on each element in turn. -/
def insertionSort {α : Type} (less : α → α → Bool) (data : List α) : List α :=
  (data.foldl (fun sortedRev e => sink less e sortedRev) []).reverse

/-- The function `sort.Sort`, for a `data` whose `Less(i, j)` is `less data[i] data[j]`. -/
def Sort_ {α : Type} (less : α → α → Bool) (data : List α) : List α :=
  insertionSort less data

/-- The function `sort.Float64s`: `sort.Sort` with the `Less` of `sort.Float64Slice`,
`x[i] < x[j] || (isNaN(x[i]) && !isNaN(x[j]))`. -/
def Float64s (x : List Nat) : List Nat :=
  Sort_ (fun a b => ieee.lt 64 0x7FF0000000000000 a b ||
    (ieee.IsNaN 64 0x7FF0000000000000 a && !ieee.IsNaN 64 0x7FF0000000000000 b)) x

/-- The function `sort.Strings`: `sort.Sort` with `Less(i, j) = x[i] < x[j]`. -/
def Strings (x : List String) : List String :=
  Sort_ (fun a b => decide (a < b)) x

end gosort

/-- The common shape of the per-kind functions `Sort`:
`if len(x) < MinSize { sort.Sort(kindSortable(x)) } else { buffer := make([]kind, len(x));
SortBYOB(x, buffer) }`.  The result is `x` after the call. -/
def sortWith {α : Type} (MinSize : Nat) (fallback : List α → List α)
    (SortBYOB : List α → List α → Except (Panic α) (Outcome α)) (zero : α) (x : List α) :
    Except (Panic α) (List α) :=
  if x.length < MinSize then .ok (fallback x)
  else
    match SortBYOB x (List.replicate x.length zero) with
    | .error p => .error p
    | .ok out => .ok out.x

/-- The common shape of the per-kind functions `SortCopy`:
`y := make([]kind, len(x)); copy(y, x); Sort(y); return y`.  The result is the pair of `x`
after the call (it is only read) and the returned `y`. -/
def sortCopyWith {α : Type} (sortFn : List α → Except (Panic α) (List α)) (zero : α)
    (x : List α) : Except (Panic α) (List α × List α) :=
  match sortFn (copy (List.replicate x.length zero) x) with
  | .error p => .error p
  | .ok y => .ok (x, y)

/-- The function `zuint64.Sort`; `uint64Sortable.Less(i, j)` is `r[i] < r[j]`. -/
def zuint64.Sort_ (x : List Nat) : Except (Panic Nat) (List Nat) :=
  sortWith zuint64.MinSize (gosort.Sort_ (fun a b => decide (a < b))) zuint64.SortBYOB 0 x

/-- The function `zuint64.SortCopy`. -/
def zuint64.SortCopy (x : List Nat) : Except (Panic Nat) (List Nat × List Nat) :=
  sortCopyWith zuint64.Sort_ 0 x

/-- The function `zuint32.Sort`; `uint32Sortable.Less(i, j)` is `r[i] < r[j]`. -/
def zuint32.Sort_ (x : List Nat) : Except (Panic Nat) (List Nat) :=
  sortWith zuint32.MinSize (gosort.Sort_ (fun a b => decide (a < b))) zuint32.SortBYOB 0 x

/-- The function `zuint32.SortCopy`. -/
def zuint32.SortCopy (x : List Nat) : Except (Panic Nat) (List Nat × List Nat) :=
  sortCopyWith zuint32.Sort_ 0 x

/-- The function `zuint.Sort`; `uintSortable.Less(i, j)` is `r[i] < r[j]`. -/
def zuint.Sort_ (uintSize : Nat) (x : List Nat) : Except (Panic Nat) (List Nat) :=
  sortWith zuint.MinSize (gosort.Sort_ (fun a b => decide (a < b))) (zuint.SortBYOB uintSize) 0 x

/-- The function `zuint.SortCopy`. -/
def zuint.SortCopy (uintSize : Nat) (x : List Nat) : Except (Panic Nat) (List Nat × List Nat) :=
  sortCopyWith (zuint.Sort_ uintSize) 0 x

/-- The function `zint32.Sort`; `int32Sortable.Less(i, j)` is `r[i] < r[j]`. -/
def zint32.Sort_ (x : List Int) : Except (Panic Int) (List Int) :=
  sortWith zint32.MinSize (gosort.Sort_ (fun a b => decide (a < b))) zint32.SortBYOB 0 x

/-- The function `zint32.SortCopy`. -/
def zint32.SortCopy (x : List Int) : Except (Panic Int) (List Int × List Int) :=
  sortCopyWith zint32.Sort_ 0 x

/-- The function `zint64.Sort`; `int64Sortable.Less(i, j)` is `r[i] < r[j]`. -/
def zint64.Sort_ (x : List Int) : Except (Panic Int) (List Int) :=
  sortWith zint64.MinSize (gosort.Sort_ (fun a b => decide (a < b))) zint64.SortBYOB 0 x

/-- The function `zint64.SortCopy`. -/
def zint64.SortCopy (x : List Int) : Except (Panic Int) (List Int × List Int) :=
  sortCopyWith zint64.Sort_ 0 x

/-- The function `zint.Sort`; `intSortable.Less(i, j)` is `r[i] < r[j]`. -/
def zint.Sort_ (uintSize : Nat) (x : List Int) : Except (Panic Int) (List Int) :=
  sortWith zint.MinSize (gosort.Sort_ (fun a b => decide (a < b))) (zint.SortBYOB uintSize) 0 x

/-- The function `zint.SortCopy`. -/
def zint.SortCopy (uintSize : Nat) (x : List Int) : Except (Panic Int) (List Int × List Int) :=
  sortCopyWith (zint.Sort_ uintSize) 0 x

/-- The function `zfloat32.Sort`; `float32Sortable.Less(i, j)` is the float comparison
`r[i] < r[j]`. -/
def zfloat32.Sort_ (x : List Nat) : Except (Panic Nat) (List Nat) :=
  sortWith zfloat32.MinSize (gosort.Sort_ (fun a b => ieee.lt 32 0x7F800000 a b))
    zfloat32.SortBYOB 0 x

/-- The function `zfloat32.SortCopy`. -/
def zfloat32.SortCopy (x : List Nat) : Except (Panic Nat) (List Nat × List Nat) :=
  sortCopyWith zfloat32.Sort_ 0 x

/-- The function `zfloat64.Sort`, whose fallback is `sort.Float64s(x)`. -/
def zfloat64.Sort_ (x : List Nat) : Except (Panic Nat) (List Nat) :=
  sortWith zfloat64.MinSize gosort.Float64s zfloat64.SortBYOB 0 x

/-- The function `zfloat64.SortCopy`. -/
def zfloat64.SortCopy (x : List Nat) : Except (Panic Nat) (List Nat × List Nat) :=
  sortCopyWith zfloat64.Sort_ 0 x

/-- The dynamic values that `zermelo.Sort(x interface{})` tells apart: the eight numeric slice
kinds, `[]string`, a value implementing `sort.Interface` (given by its sequence of elements and
the comparison behind `Less`), and any other value (given by the name of its type). -/
inductive Value where
  | float32s (x : List Nat)
  | float64s (x : List Nat)
  | ints (x : List Int)
  | int32s (x : List Int)
  | int64s (x : List Int)
  | strings (x : List String)
  | uints (x : List Nat)
  | uint32s (x : List Nat)
  | uint64s (x : List Nat)
  | sortable (data : List Nat) (less : Nat → Nat → Bool)
  | other (typeName : String)

/-- Run a per-kind `Sort` inside the dispatcher: a panic propagates with its message, a normal
return is followed by `return nil`. -/
def dispatch {α : Type} (wrap : List α → Value) (r : Except (Panic α) (List α)) :
    Except String (Value × Option String) :=
  match r with
  | .error p => .error p.msg
  | .ok y => .ok (wrap y, none)

/-- The function `zermelo.Sort`, on a platform whose `int` and `uint` have `uintSize` bits.
The result is `x` after the call and the returned `error` (`none` for `nil`); the outer error
is a panic. -/
def Sort_ (uintSize : Nat) (x : Value) : Except String (Value × Option String) :=
  match x with
  | .float32s xs => dispatch .float32s (zfloat32.Sort_ xs)
  | .float64s xs => dispatch .float64s (zfloat64.Sort_ xs)
  | .ints xs => dispatch .ints (zint.Sort_ uintSize xs)
  | .int32s xs => dispatch .int32s (zint32.Sort_ xs)
  | .int64s xs => dispatch .int64s (zint64.Sort_ xs)
  | .strings xs => .ok (.strings (gosort.Strings xs), none)
  | .uints xs => dispatch .uints (zuint.Sort_ uintSize xs)
  | .uint32s xs => dispatch .uint32s (zuint32.Sort_ xs)
  | .uint64s xs => dispatch .uint64s (zuint64.Sort_ xs)
  | .sortable data less => .ok (.sortable (gosort.Sort_ less data) less, none)
  | .other typeName => .ok (.other typeName, some "type not supported")

/-- Whether the value is a slice of one of the eight numeric kinds. -/
def Value.isNumeric : Value → Bool
  | .float32s _ | .float64s _ | .ints _ | .int32s _ | .int64s _ => true
  | .uints _ | .uint32s _ | .uint64s _ => true
  | _ => false

/-- Whether the value is a `[]string`. -/
def Value.isStrings : Value → Bool
  | .strings _ => true
  | _ => false

/-- Whether the value implements `sort.Interface` (length, less, swap). -/
def Value.isSortable : Value → Bool
  | .sortable _ _ => true
  | _ => false

/-! ## The stateful sorter of `zermelo.go` -/

/-- The fields of `zSorter`.  Every buffer is created by `make([]kind, n)`, so its length is
its capacity; the nil slice of a fresh sorter is the empty list.  `allocs` counts the calls
of `make` in `prepBuffers` (a ghost value, not part of the Go state). -/
structure zSorter where
  bufFloat32 : List Nat
  bufFloat64 : List Nat
  bufInt : List Int
  bufInt32 : List Int
  bufInt64 : List Int
  bufUint : List Nat
  bufUint32 : List Nat
  bufUint64 : List Nat
  allocs : Nat

/-- The function `New`: `new(zSorter)`, every buffer nil. -/
def New : zSorter :=
  { bufFloat32 := [], bufFloat64 := [], bufInt := [], bufInt32 := [], bufInt64 := [],
    bufUint := [], bufUint32 := [], bufUint64 := [], allocs := 0 }

/-- The function `allocSize(bufCap, reqLen int) int` on a platform whose `int` has `uintSize`
bits: the product `5 * reqLen` wraps, and `/` rounds toward zero. -/
def allocSize (uintSize : Nat) (bufCap reqLen : Int) : Int :=
  if bufCap = 0 then reqLen else Int.tdiv (wrapInt uintSize (5 * reqLen)) 4

/-- Go's builtin `make([]kind, n)`: a zeroed slice of length and capacity `n`; a negative `n`
panics. -/
def make {α : Type} (zero : α) (n : Int) : Except String (List α) :=
  if n < 0 then .error "makeslice: len out of range" else .ok (List.replicate n.toNat zero)

/-- One case of `prepBuffers`:
`if cap(buf) < len(x) { buf = make([]kind, allocSize(cap(buf), len(x))) }`.  The result is the
buffer and the number of `make` calls (0 or 1). -/
def prepBuffer {α : Type} (uintSize : Nat) (zero : α) (buf x : List α) :
    Except String (List α × Nat) :=
  if buf.length < x.length then
    match make zero (allocSize uintSize (buf.length : Int) (x.length : Int)) with
    | .error e => .error e
    | .ok b => .ok (b, 1)
  else .ok (buf, 0)

/-- The method `prepBuffers`. -/
def zSorter.prepBuffers (uintSize : Nat) (z : zSorter) (x : Value) : Except String zSorter :=
  match x with
  | .float32s xs =>
    (prepBuffer uintSize 0 z.bufFloat32 xs).map
      (fun r => { z with bufFloat32 := r.1, allocs := z.allocs + r.2 })
  | .float64s xs =>
    (prepBuffer uintSize 0 z.bufFloat64 xs).map
      (fun r => { z with bufFloat64 := r.1, allocs := z.allocs + r.2 })
  | .ints xs =>
    (prepBuffer uintSize 0 z.bufInt xs).map
      (fun r => { z with bufInt := r.1, allocs := z.allocs + r.2 })
  | .int32s xs =>
    (prepBuffer uintSize 0 z.bufInt32 xs).map
      (fun r => { z with bufInt32 := r.1, allocs := z.allocs + r.2 })
  | .int64s xs =>
    (prepBuffer uintSize 0 z.bufInt64 xs).map
      (fun r => { z with bufInt64 := r.1, allocs := z.allocs + r.2 })
  | .uints xs =>
    (prepBuffer uintSize 0 z.bufUint xs).map
      (fun r => { z with bufUint := r.1, allocs := z.allocs + r.2 })
  | .uint32s xs =>
    (prepBuffer uintSize 0 z.bufUint32 xs).map
      (fun r => { z with bufUint32 := r.1, allocs := z.allocs + r.2 })
  | .uint64s xs =>
    (prepBuffer uintSize 0 z.bufUint64 xs).map
      (fun r => { z with bufUint64 := r.1, allocs := z.allocs + r.2 })
  | _ => .ok z

/-- One case of `zSorter.Sort`: `kind.SortBYOB(x, buf[:len(x)])`.  The slice expression panics
when `len(x)` exceeds the capacity of `buf`; the sort writes through to the first `len(x)`
elements of the retained buffer.  The result is `x` and the retained buffer after the call. -/
def sortInto {α : Type} (SortBYOB : List α → List α → Except (Panic α) (Outcome α))
    (x buf : List α) : Except String (List α × List α) :=
  if x.length > buf.length then .error "slice bounds out of range"
  else
    match SortBYOB x (buf.take x.length) with
    | .error p => .error p.msg
    | .ok out => .ok (out.x, out.buffer ++ buf.drop x.length)

/-- The switch of `zSorter.Sort`, after `z.prepBuffers(x)`. -/
def zSorter.sortSwitch (uintSize : Nat) (z : zSorter) (x : Value) :
    Except String (zSorter × Value × Option String) :=
  match x with
  | .float32s xs =>
    (sortInto zfloat32.SortBYOB xs z.bufFloat32).map
      (fun r => ({ z with bufFloat32 := r.2 }, .float32s r.1, none))
  | .float64s xs =>
    (sortInto zfloat64.SortBYOB xs z.bufFloat64).map
      (fun r => ({ z with bufFloat64 := r.2 }, .float64s r.1, none))
  | .ints xs =>
    (sortInto (zint.SortBYOB uintSize) xs z.bufInt).map
      (fun r => ({ z with bufInt := r.2 }, .ints r.1, none))
  | .int32s xs =>
    (sortInto zint32.SortBYOB xs z.bufInt32).map
      (fun r => ({ z with bufInt32 := r.2 }, .int32s r.1, none))
  | .int64s xs =>
    (sortInto zint64.SortBYOB xs z.bufInt64).map
      (fun r => ({ z with bufInt64 := r.2 }, .int64s r.1, none))
  | .strings xs => .ok (z, .strings (gosort.Strings xs), none)
  | .uints xs =>
    (sortInto (zuint.SortBYOB uintSize) xs z.bufUint).map
      (fun r => ({ z with bufUint := r.2 }, .uints r.1, none))
  | .uint32s xs =>
    (sortInto zuint32.SortBYOB xs z.bufUint32).map
      (fun r => ({ z with bufUint32 := r.2 }, .uint32s r.1, none))
  | .uint64s xs =>
    (sortInto zuint64.SortBYOB xs z.bufUint64).map
      (fun r => ({ z with bufUint64 := r.2 }, .uint64s r.1, none))
  | .sortable data less => .ok (z, .sortable (gosort.Sort_ less data) less, none)
  | .other typeName => .ok (z, .other typeName, some "type not supported")

/-- The method `zSorter.Sort`.  The result is the sorter and `x` after the call, and the
returned `error`; the outer error is a panic. -/
def zSorter.Sort_ (uintSize : Nat) (z : zSorter) (x : Value) :
    Except String (zSorter × Value × Option String) :=
  match z.prepBuffers uintSize x with
  | .error e => .error e
  | .ok z1 => z1.sortSwitch uintSize x

/-- The assignment `strings[offset] = piece` on a map. -/
def mapSet (m : List (Nat × List Nat)) (k : Nat) (v : List Nat) : List (Nat × List Nat) :=
  m.filter (fun e => e.1 != k) ++ [(k, v)]

/-- One iteration of the loop of `ReaderParseStrings`; the state is the map `strings` and
`offset`:
`if len(slice[i]) == 0 { continue }; strings[offset] = slice[i];
offset += uint64(len(slice[i])) + 1`. -/
def parseStep (s : List (Nat × List Nat) × Nat) (piece : List Nat) :
    List (Nat × List Nat) × Nat :=
  if piece.length = 0 then s
  else (mapSet s.1 s.2 piece, (s.2 + (piece.length + 1)) % 2 ^ 64)

/-- The method `ElfReader.ReaderParseStrings`. -/
def ReaderParseStrings (buf : List Nat) : List (Nat × List Nat) :=
  ((buf.splitOn 0).foldl parseStep ([], 0)).1

/-- The state of the loop of `UtilUniqueSlice`: the slice `s`, the set `seen` and `j`. -/
structure Unique where
  s : List Nat
  seen : List Nat
  j : Nat

/-- One iteration of the loop `for _, v := range s` of `UtilUniqueSlice`, at index `i`:
`if _, ok := seen[v]; ok { continue }; seen[v] = struct{}{}; s[j] = v; j++`. -/
def uniqueStep (u : Unique) (i : Nat) : Unique :=
  let v := u.s.getD i 0
  if v ∈ u.seen then u else { s := u.s.set u.j v, seen := v :: u.seen, j := u.j + 1 }

/-- The function `UtilUniqueSlice`: the loop over the indices of `s`, then `return s[:j]`. -/
def UtilUniqueSlice (s : List Nat) : List Nat :=
  let u := (List.range s.length).foldl uniqueStep { s := s, seen := [], j := 0 }
  u.s.take u.j

/-- The digit table `udigits = "0123456789ABCDEFX"` of Go's package `fmt`, as character
codes.  The package `fmt` is not part of the repository; the verb `%X` on an unsigned integer
without flags is modelled by the loop of its `fmtInteger`. -/
def udigits : List Nat := [48, 49, 50, 51, 52, 53, 54, 55, 56, 57, 65, 66, 67, 68, 69, 70, 88]

/-- The base-16 loop of `fmtInteger`, which fills the buffer from its end:
`for u >= 16 { i--; buf[i] = digits[u&0xF]; u >>= 4 }` and then `i--; buf[i] = digits[u]`.
`acc` is the part of the buffer already written; `fuel` bounds the iterations (a byte needs
one). -/
def fmtHex : Nat → Nat → List Nat → List Nat
  | 0, u, acc => udigits.getD u 0 :: acc
  | fuel + 1, u, acc =>
    if u ≥ 16 then fmtHex fuel (u >>> 4) (udigits.getD (u &&& 0xF) 0 :: acc)
    else udigits.getD u 0 :: acc

/-- The call `fmt.Sprintf("\\x%X", b)` on a byte `b`: a backslash, the letter `x`, and the
digits of `b`. -/
def sprintfHex (b : Nat) : List Nat := [92, 120] ++ fmtHex 1 b []

/-- The function `UtilConvHex`:
`for i := 0; i < len(buf); i++ { hexBuf += fmt.Sprintf("\\x%X", buf[i]) }`. -/
def UtilConvHex (buf : List Nat) : List Nat :=
  buf.foldl (fun hexBuf b => hexBuf ++ sprintfHex b) []

/-- The loop of `UtilIsNice`, with `spaces` so far; `none` is the `return false` inside the
loop: `if str[i] == 32 { spaces++ }`, then
`if str[i] < 32 && !(str[i] == 13 || str[i] == 10) { return false }` (the byte literals of the
source are the space, carriage return and newline characters). -/
def isNiceLoop : List Nat → Nat → Option Nat
  | [], spaces => some spaces
  | c :: rest, spaces =>
    let spaces1 := if c = 32 then spaces + 1 else spaces
    if c < 32 ∧ ¬ (c = 13 ∨ c = 10) then none else isNiceLoop rest spaces1

/-- The function `UtilIsNice`: the loop, then `if spaces == length { return false }` and
`return true`. -/
def UtilIsNice (str : List Nat) : Bool :=
  match isNiceLoop str 0 with
  | none => false
  | some spaces => if spaces = str.length then false else true

/-- The offsets that `ReadSection` iterates for output, from `nodes` (the result of
`ReaderParseStrings`) on: `keys := make([]uint64, len(nodes))`, one `append(keys, k)` per entry
of the map, `zermelo.Sort(keys)` (with `return` on an error) and
`keys = UtilUniqueSlice(keys)`.  A Go map is ranged over in an unspecified order: `iter` is the
sequence of keys in the order in which the `range` loop yields them.  The outer error is a
panic. -/
def ReadSectionKeys (uintSize : Nat) (nodes : List (Nat × List Nat)) (iter : List Nat) :
    Except String (List Nat) :=
  let keys := iter.foldl (fun keys k => keys ++ [k]) (List.replicate nodes.length 0)
  match Sort_ uintSize (.uint64s keys) with
  | .error e => .error e
  | .ok (.uint64s sorted, none) => .ok (UtilUniqueSlice sorted)
  | .ok _ => .ok []

/-! ## Specification vocabulary -/

/-- The place of bucket `d` in the order in which a pass lays the buckets out in `to`:
`0, 1, ..., 255` in general, and `128, ..., 255, 0, ..., 127` in the last pass of a signed
kind. -/
def Engine.rank {α : Type} (E : Engine α) (keyOffset d : Nat) : Nat :=
  if E.signed && keyOffset == E.bitSize - radix then (d + 128) % 256 else d

/-- The index at which a stable counting sort by `rk` puts the element `e` found at index `j`
of `l`: after every element of smaller rank, and after the elements of equal rank that precede
it in `l`. -/
def landing {α : Type} (rk : α → Nat) (l : List α) (j : Nat) (e : α) : Nat :=
  l.countP (fun a => decide (rk a < rk e)) + (l.take j).countP (fun a => decide (rk a = rk e))

/-- The list `dst` is the stable counting sort of `frm` by `rk`. -/
def StableBy {α : Type} (rk : α → Nat) (frm dst : List α) : Prop :=
  dst.length = frm.length ∧
    ∀ (j : Nat) (h : j < frm.length), dst[landing rk frm j frm[j]]? = some frm[j]

/-- What makes an engine sort the values satisfying `ok` into the order `R`: the loop runs an
even number of passes, the keys are bytes, and there is a numeric code `u` of the values, below
`2 ^ bitSize`, whose base-256 digit `i` is the bucket rank of the key of pass `i`; the test
`>=` is transitive and implies `R`, and `R` holds between values whose codes are ordered. -/
structure Engine.Sound {α : Type} (E : Engine α) (ok : α → Prop) (u : α → Nat)
    (R : α → α → Prop) : Prop where
  bits : ∃ P, E.bitSize = radix * (2 * P)
  key_lt : ∀ k e, E.key k e < 256
  u_lt : ∀ e, ok e → u e < 2 ^ E.bitSize
  digit : ∀ i, i < E.bitSize / radix → ∀ e, ok e →
    E.rank (radix * i) (E.key (radix * i) e) = u e / 2 ^ (radix * i) % 256
  ge_trans : ∀ a b c, E.ge b a = true → E.ge c b = true → E.ge c a = true
  ge_sound : ∀ a b, ok a → ok b → E.ge b a = true → R a b
  u_sound : ∀ a b, ok a → ok b → u a ≤ u b → R a b

/-- The eight numeric kinds. -/
inductive Kind where
  | float32 | float64 | int | int32 | int64 | uint | uint32 | uint64
  deriving DecidableEq

/-- The numeric kind of a value, if it is a slice of one of the eight. -/
def Value.kind : Value → Option Kind
  | .float32s _ => some .float32
  | .float64s _ => some .float64
  | .ints _ => some .int
  | .int32s _ => some .int32
  | .int64s _ => some .int64
  | .uints _ => some .uint
  | .uint32s _ => some .uint32
  | .uint64s _ => some .uint64
  | _ => none

/-- The length `len(x)` of a slice value (0 for a value that is not a slice). -/
def Value.len : Value → Nat
  | .float32s xs | .float64s xs | .uints xs | .uint32s xs | .uint64s xs => xs.length
  | .ints xs | .int32s xs | .int64s xs => xs.length
  | .strings xs => xs.length
  | _ => 0

/-- The elements of a numeric slice are values of its kind (bit patterns of the width of the
kind, or integers in its range). -/
def Value.inRange (uintSize : Nat) : Value → Prop
  | .float32s xs => ∀ e ∈ xs, e < 2 ^ 32
  | .float64s xs => ∀ e ∈ xs, e < 2 ^ 64
  | .ints xs => ∀ e ∈ xs, -2 ^ (uintSize - 1) ≤ e ∧ e < 2 ^ (uintSize - 1)
  | .int32s xs => ∀ e ∈ xs, -2 ^ 31 ≤ e ∧ e < 2 ^ 31
  | .int64s xs => ∀ e ∈ xs, -2 ^ 63 ≤ e ∧ e < 2 ^ 63
  | .uints xs => ∀ e ∈ xs, e < 2 ^ uintSize
  | .uint32s xs => ∀ e ∈ xs, e < 2 ^ 32
  | .uint64s xs => ∀ e ∈ xs, e < 2 ^ 64
  | _ => True

/-- The capacity of the retained buffer of a kind. -/
def zSorter.cap (z : zSorter) : Kind → Nat
  | .float32 => z.bufFloat32.length
  | .float64 => z.bufFloat64.length
  | .int => z.bufInt.length
  | .int32 => z.bufInt32.length
  | .int64 => z.bufInt64.length
  | .uint => z.bufUint.length
  | .uint32 => z.bufUint32.length
  | .uint64 => z.bufUint64.length

/-- The values of a list once each, in the order of their first occurrence. -/
def firstOccurrences : List Nat → List Nat
  | [] => []
  | a :: l => a :: (firstOccurrences l).filter (fun b => b != a)

/-- The place of a bit pattern in the sign-magnitude order of IEEE-754 (the total order):
the magnitude bits for a clear sign bit, and minus the magnitude bits minus one for a set sign
bit, so that `-0.0` comes just before `+0.0`. -/
def ieee.total (w val : Nat) : Int :=
  if val / 2 ^ (w - 1) % 2 = 1 then -((val % 2 ^ (w - 1) : Nat) : Int) - 1
  else ((val % 2 ^ (w - 1) : Nat) : Int)

/-- The buffers of the kinds other than `k` are the same in `z1` as in `z`. -/
def zSorter.sameExcept (k : Kind) (z z1 : zSorter) : Prop :=
  (k ≠ .float32 → z1.bufFloat32 = z.bufFloat32) ∧ (k ≠ .float64 → z1.bufFloat64 = z.bufFloat64) ∧
    (k ≠ .int → z1.bufInt = z.bufInt) ∧ (k ≠ .int32 → z1.bufInt32 = z.bufInt32) ∧
    (k ≠ .int64 → z1.bufInt64 = z.bufInt64) ∧ (k ≠ .uint → z1.bufUint = z.bufUint) ∧
    (k ≠ .uint32 → z1.bufUint32 = z.bufUint32) ∧ (k ≠ .uint64 → z1.bufUint64 = z.bufUint64)

/-- All eight buffers are the same in `z1` as in `z`. -/
def zSorter.sameBuffers (z z1 : zSorter) : Prop :=
  z1.bufFloat32 = z.bufFloat32 ∧ z1.bufFloat64 = z.bufFloat64 ∧ z1.bufInt = z.bufInt ∧
    z1.bufInt32 = z.bufInt32 ∧ z1.bufInt64 = z.bufInt64 ∧ z1.bufUint = z.bufUint ∧
    z1.bufUint32 = z.bufUint32 ∧ z1.bufUint64 = z.bufUint64

end zermelo
namespace zermelo

/-! ## Reading and writing the arrays `counts` and `offset` -/

theorem getD_set_same (a : List Nat) (i v : Nat) (h : i < a.length) :
    (a.set i v).getD i 0 = v := by
  simp [List.getD_eq_getElem?_getD, h]

theorem getD_set_ne (a : List Nat) (i j v : Nat) (h : j ≠ i) :
    (a.set i v).getD j 0 = a.getD j 0 := by
  simp [List.getD_eq_getElem?_getD, List.getElem?_set_ne (Ne.symm h)]

theorem getD_replicate_zero (n d : Nat) : (List.replicate n 0).getD d 0 = 0 := by
  simp only [List.getD_eq_getElem?_getD, List.getElem?_replicate]
  split <;> rfl

/-! ## The first loop of a pass: histogram and sortedness test -/

theorem scan_foldl_length {α : Type} (E : Engine α) (k : Nat) (l : List α) (s : Scan α) :
    (l.foldl (scanStep E k) s).counts.length = s.counts.length := by
  induction l generalizing s with
  | nil => rfl
  | cons a l ih => rw [List.foldl_cons, ih]; simp [scanStep]

theorem scan_foldl_counts {α : Type} (E : Engine α) (k : Nat) (hkey : ∀ e, E.key k e < 256)
    (l : List α) (s : Scan α) (hs : s.counts.length = 256) (d : Nat) :
    (l.foldl (scanStep E k) s).counts.getD d 0 =
      s.counts.getD d 0 + l.countP (fun e => E.key k e == d) := by
  induction l generalizing s with
  | nil => simp
  | cons a l ih =>
    rw [List.foldl_cons, ih _ (by simp only [scanStep, List.length_set]; exact hs),
      List.countP_cons]
    by_cases h : E.key k a = d
    · subst h
      have hlt : E.key k a < s.counts.length := by rw [hs]; exact hkey a
      simp only [scanStep, getD_set_same _ _ _ hlt, beq_self_eq_true, if_true]
      omega
    · have h' : d ≠ E.key k a := fun h'' => h h''.symm
      simp only [scanStep, getD_set_ne _ _ _ _ h', beq_iff_eq, h, if_false, Nat.add_zero]

/-- After the first loop `counts[d]` is the number of elements whose key is `d`. -/
theorem scan_counts {α : Type} (E : Engine α) (k : Nat) (hkey : ∀ e, E.key k e < 256)
    (l : List α) (d : Nat) :
    (scan E k l).counts.getD d 0 = l.countP (fun e => E.key k e == d) := by
  unfold scan
  rw [scan_foldl_counts E k hkey l _ (List.length_replicate _ _), getD_replicate_zero,
    Nat.zero_add]

theorem scan_foldl_sorted {α : Type} (E : Engine α) (k : Nat) (l : List α) (s : Scan α) :
    (l.foldl (scanStep E k) s).sorted = true ↔
      s.sorted = true ∧ List.Chain (fun a b => E.ge b a = true) s.prev l := by
  induction l generalizing s with
  | nil => simp
  | cons a l ih =>
    rw [List.foldl_cons, ih, List.chain_cons]
    cases hs : s.sorted <;> simp [scanStep, hs]

/-- After the first loop `sorted` holds exactly when it held initially and every element is
`>=` its predecessor, the first one being compared with the initial `prev`. -/
theorem scan_sorted {α : Type} (E : Engine α) (k : Nat) (l : List α) :
    (scan E k l).sorted = true ↔
      E.sorted0 = true ∧ List.Chain (fun a b => E.ge b a = true) E.prev0 l := by
  unfold scan
  rw [scan_foldl_sorted]

/-! ## The bucket offsets of a pass -/

theorem foldl_add_rangeFrom (c : Nat → Nat) (s n a : Nat) :
    (List.range' s n).foldl (fun acc i => acc + c i) a = a + ∑ t ∈ Finset.Ico s (s + n), c t := by
  induction n generalizing a with
  | zero => simp
  | succ n ih =>
    rw [List.range'_1_concat, List.foldl_append, ih]
    simp only [List.foldl_cons, List.foldl_nil]
    rw [← Nat.add_assoc s n 1, Finset.sum_Ico_succ_top (by omega)]
    omega

theorem signedOffsets_loop (counts init : List Nat) (neg : Nat) (hlen : init.length = 256)
    (h0 : init.getD 0 0 = neg) (h128 : init.getD 128 0 = 0) (m : Nat) (hm : m ≤ 127) :
    ((List.range' 1 m).foldl
      (fun off i =>
        let off1 := off.set i (off.getD (i - 1) 0 + counts.getD (i - 1) 0)
        off1.set (i + 128) (off1.getD (i + 127) 0 + counts.getD (i + 127) 0)) init).length = 256 ∧
    ∀ j, ((List.range' 1 m).foldl
      (fun off i =>
        let off1 := off.set i (off.getD (i - 1) 0 + counts.getD (i - 1) 0)
        off1.set (i + 128) (off1.getD (i + 127) 0 + counts.getD (i + 127) 0)) init).getD j 0 =
      if j ≤ m then neg + ∑ t ∈ Finset.Ico 0 j, counts.getD t 0
      else if 128 ≤ j ∧ j ≤ 128 + m then ∑ t ∈ Finset.Ico 128 j, counts.getD t 0
      else init.getD j 0 := by
  induction m with
  | zero =>
    refine ⟨hlen, fun j => ?_⟩
    simp only [List.range'_zero, List.foldl_nil]
    by_cases h : j = 0
    · subst h
      rw [if_pos (Nat.le_refl 0), h0, Finset.Ico_self, Finset.sum_empty, Nat.add_zero]
    · by_cases h' : j = 128
      · subst h'
        rw [if_neg (by omega), if_pos (by omega), h128, Finset.Ico_self, Finset.sum_empty]
      · rw [if_neg (by omega), if_neg (by omega)]
  | succ m ih =>
    obtain ⟨ihl, ihm⟩ := ih (by omega)
    have s1 : ∑ t ∈ Finset.Ico 0 (m + 1), counts.getD t 0 =
        ∑ t ∈ Finset.Ico 0 m, counts.getD t 0 + counts.getD m 0 :=
      Finset.sum_Ico_succ_top (by omega) _
    have s2 : ∑ t ∈ Finset.Ico 128 (m + 128 + 1), counts.getD t 0 =
        ∑ t ∈ Finset.Ico 128 (m + 128), counts.getD t 0 + counts.getD (m + 128) 0 :=
      Finset.sum_Ico_succ_top (by omega) _
    have e4 : 1 + m = m + 1 := by omega
    have e5 : m + 1 - 1 = m := by omega
    have e6 : m + 1 + 127 = m + 128 := by omega
    have e7 : m + 1 + 128 = m + 128 + 1 := by omega
    rw [List.range'_1_concat, List.foldl_append]
    simp only [List.foldl_cons, List.foldl_nil, e4, e5, e6, e7]
    refine ⟨by rw [List.length_set, List.length_set]; exact ihl, fun j => ?_⟩
    by_cases h : j = m + 128 + 1
    · subst h
      rw [getD_set_same _ _ _ (by rw [List.length_set, ihl]; omega),
        getD_set_ne _ _ _ _ (by omega), ihm]
      rw [if_neg (show ¬ m + 128 ≤ m by omega), if_pos (show 128 ≤ m + 128 ∧ m + 128 ≤ 128 + m by omega),
        if_neg (show ¬ m + 128 + 1 ≤ m + 1 by omega),
        if_pos (show 128 ≤ m + 128 + 1 ∧ m + 128 + 1 ≤ 128 + (m + 1) by omega), s2]
    · rw [getD_set_ne _ _ _ _ h]
      by_cases h' : j = m + 1
      · subst h'
        rw [getD_set_same _ _ _ (by rw [ihl]; omega), ihm, if_pos (show m ≤ m by omega),
          if_pos (show m + 1 ≤ m + 1 by omega), s1]
        omega
      · rw [getD_set_ne _ _ _ _ h', ihm]
        by_cases h1 : j ≤ m
        · rw [if_pos h1, if_pos (show j ≤ m + 1 by omega)]
        · rw [if_neg h1, if_neg (show ¬ j ≤ m + 1 by omega)]
          by_cases h2 : 128 ≤ j ∧ j ≤ 128 + m
          · rw [if_pos h2, if_pos (show 128 ≤ j ∧ j ≤ 128 + (m + 1) by omega)]
          · rw [if_neg h2, if_neg (show ¬ (128 ≤ j ∧ j ≤ 128 + (m + 1)) by omega)]

theorem signedOffsets_eq (counts offset : List Nat) (hlen : offset.length = 256) :
    (signedOffsets counts offset).length = 256 ∧
    ∀ d, d < 256 → (signedOffsets counts offset).getD d 0 =
      if d < 128 then (∑ t ∈ Finset.Ico 128 256, counts.getD t 0) +
        ∑ t ∈ Finset.Ico 0 d, counts.getD t 0
      else ∑ t ∈ Finset.Ico 128 d, counts.getD t 0 := by
  unfold signedOffsets
  simp only
  obtain ⟨hl, hv⟩ := signedOffsets_loop counts
    ((offset.set 0 ((List.range' 128 128).foldl (fun acc i => acc + counts.getD i 0) 0)).set 128 0)
    ((List.range' 128 128).foldl (fun acc i => acc + counts.getD i 0) 0)
    (by rw [List.length_set, List.length_set]; exact hlen)
    (by rw [getD_set_ne _ _ _ _ (by omega), getD_set_same _ _ _ (by omega)])
    (getD_set_same _ _ _ (by rw [List.length_set, hlen]; omega)) 127 (by omega)
  refine ⟨hl, fun d hd => ?_⟩
  rw [hv, foldl_add_rangeFrom (fun i => counts.getD i 0)]
  by_cases h : d < 128
  · rw [if_pos (by omega), if_pos h]; simp
  · rw [if_neg (by omega), if_pos (by omega), if_neg h]

theorem sum_countP_key {α : Type} (f : α → Nat) (l : List α) (a b : Nat) :
    ∑ t ∈ Finset.Ico a b, l.countP (fun e => f e == t) = l.countP (fun e => decide (a ≤ f e ∧ f e < b)) := by
  induction l with
  | nil => simp
  | cons x l ih =>
    simp only [List.countP_cons, Finset.sum_add_distrib, ih]
    congr 1
    simp only [beq_iff_eq, Finset.sum_ite_eq, Finset.mem_Ico, decide_eq_true_eq]

theorem plainOffsets_loop (counts init : List Nat) (hlen : init.length = 256) (m : Nat)
    (hm : m ≤ 255) :
    ((List.range' 1 m).foldl
      (fun off i => off.set i (off.getD (i - 1) 0 + counts.getD (i - 1) 0))
      (init.set 0 0)).length = 256 ∧
    ∀ j, ((List.range' 1 m).foldl
      (fun off i => off.set i (off.getD (i - 1) 0 + counts.getD (i - 1) 0))
      (init.set 0 0)).getD j 0 =
        if j ≤ m then ∑ t ∈ Finset.Ico 0 j, counts.getD t 0 else init.getD j 0 := by
  induction m with
  | zero =>
    refine ⟨by rw [List.range'_zero, List.foldl_nil, List.length_set]; exact hlen, fun j => ?_⟩
    simp only [List.range'_zero, List.foldl_nil]
    by_cases h : j = 0
    · subst h
      rw [getD_set_same _ _ _ (show 0 < init.length by omega), if_pos (Nat.le_refl 0),
        Finset.Ico_self, Finset.sum_empty]
    · rw [getD_set_ne _ _ _ _ h, if_neg (by omega)]
  | succ m ih =>
    obtain ⟨ihl, ihm⟩ := ih (by omega)
    rw [List.range'_1_concat, List.foldl_append]
    simp only [List.foldl_cons, List.foldl_nil]
    refine ⟨by rw [List.length_set]; exact ihl, fun j => ?_⟩
    by_cases h : j = 1 + m
    · subst h
      rw [getD_set_same _ _ _ (by rw [ihl]; omega), ihm]
      simp only [Nat.add_sub_cancel_left, le_refl, if_true]
      rw [if_pos (by omega), Nat.add_comm 1 m, Finset.sum_Ico_succ_top (by omega)]
    · rw [getD_set_ne _ _ _ _ h, ihm]
      by_cases h1 : j ≤ m
      · rw [if_pos h1, if_pos (by omega)]
      · rw [if_neg h1, if_neg (by omega)]

theorem plainOffsets_eq (counts offset : List Nat) (hlen : offset.length = 256) :
    (plainOffsets counts offset).length = 256 ∧
    ∀ d, d < 256 →
      (plainOffsets counts offset).getD d 0 = ∑ t ∈ Finset.Ico 0 d, counts.getD t 0 := by
  unfold plainOffsets
  obtain ⟨hl, hv⟩ := plainOffsets_loop counts offset hlen 255 (by omega)
  refine ⟨hl, fun d hd => ?_⟩
  rw [hv, if_pos (by omega)]

theorem countP_add_of_disjoint {α : Type} (p q : α → Bool) (l : List α)
    (h : ∀ x ∈ l, ¬ (p x = true ∧ q x = true)) :
    l.countP p + l.countP q = l.countP (fun x => p x || q x) := by
  induction l with
  | nil => simp
  | cons a l ih =>
    have hl := ih (fun x hx => h x (List.mem_cons_of_mem _ hx))
    have ha := h a (List.mem_cons_self _ _)
    simp only [List.countP_cons, ← hl]
    cases hp : p a <;> cases hq : q a <;> simp_all <;> omega

/-- The offsets with which the scatter loop starts: `offset[d]` is the number of elements
whose bucket is laid out before bucket `d`. -/
theorem pass_offsets {α : Type} (E : Engine α) (k : Nat) (frm : List α) (offset : List Nat)
    (hlen : offset.length = 256) (hkey : ∀ e, E.key k e < 256) :
    (if (E.signed && k == E.bitSize - radix) = true
      then signedOffsets (scan E k frm).counts offset
      else plainOffsets (scan E k frm).counts offset).length = 256 ∧
    ∀ d, d < 256 →
      (if (E.signed && k == E.bitSize - radix) = true
        then signedOffsets (scan E k frm).counts offset
        else plainOffsets (scan E k frm).counts offset).getD d 0 =
      frm.countP (fun a => decide (E.rank k (E.key k a) < E.rank k d)) := by
  by_cases hs : (E.signed && k == E.bitSize - radix) = true
  · rw [if_pos hs]
    obtain ⟨hl, hv⟩ := signedOffsets_eq (scan E k frm).counts offset hlen
    refine ⟨hl, fun d hd => ?_⟩
    rw [hv d hd]
    simp only [scan_counts E k hkey, sum_countP_key, Engine.rank, hs, if_true]
    by_cases h : d < 128
    · rw [if_pos h, countP_add_of_disjoint _ _ _ (by intro x _; simp; omega)]
      apply List.countP_congr
      intro x _
      have := hkey x
      simp only [Bool.or_eq_true, decide_eq_true_eq]
      omega
    · rw [if_neg h]
      apply List.countP_congr
      intro x _
      have := hkey x
      simp only [decide_eq_true_eq]
      omega
  · rw [if_neg hs]
    obtain ⟨hl, hv⟩ := plainOffsets_eq (scan E k frm).counts offset hlen
    refine ⟨hl, fun d hd => ?_⟩
    rw [hv d hd]
    simp only [scan_counts E k hkey, sum_countP_key, Engine.rank, hs]
    apply List.countP_congr
    intro x _
    simp

/-! ## Landing positions of a stable counting sort -/

theorem countP_take_succ_le {α : Type} (p : α → Bool) (l : List α) (j j' : Nat)
    (hj : j < l.length) (hjj : j < j') (hp : p l[j] = true) :
    (l.take j).countP p + 1 ≤ (l.take j').countP p := by
  have h1 : (l.take (j + 1)).countP p = (l.take j).countP p + 1 := by
    rw [List.take_succ, List.countP_append, List.getElem?_eq_getElem hj]
    simp [hp]
  have h2 : (l.take (j + 1)).countP p ≤ (l.take j').countP p :=
    (List.take_sublist_take_left l (show j + 1 ≤ j' by omega)).countP_le _
  omega

theorem countP_take_le {α : Type} (p : α → Bool) (l : List α) (j : Nat) :
    (l.take j).countP p ≤ l.countP p :=
  (List.take_sublist j l).countP_le _

theorem countP_take_lt {α : Type} (p : α → Bool) (l : List α) (j : Nat)
    (hj : j < l.length) (hp : p l[j] = true) :
    (l.take j).countP p < l.countP p := by
  have := countP_take_succ_le p l j l.length hj hj hp
  rw [List.take_length] at this
  omega

theorem countP_lt_add_eq_le {α : Type} (rk : α → Nat) (l : List α) (r r' : Nat) (h : r < r') :
    l.countP (fun a => decide (rk a < r)) + l.countP (fun a => decide (rk a = r)) ≤
      l.countP (fun a => decide (rk a < r')) := by
  rw [countP_add_of_disjoint _ _ _ (by intro x _; simp; omega)]
  apply List.countP_mono_left
  intro x _
  simp only [Bool.or_eq_true, decide_eq_true_eq]
  omega

theorem countP_lt_add_eq_le_length {α : Type} (rk : α → Nat) (l : List α) (r : Nat) :
    l.countP (fun a => decide (rk a < r)) + l.countP (fun a => decide (rk a = r)) ≤ l.length := by
  rw [countP_add_of_disjoint _ _ _ (by intro x _; simp; omega)]
  exact List.countP_le_length _

theorem landing_lt_length {α : Type} (rk : α → Nat) (l : List α) (j : Nat) (hj : j < l.length) :
    landing rk l j l[j] < l.length := by
  have h1 := countP_take_lt (fun a => decide (rk a = rk l[j])) l j hj (by simp)
  have h2 := countP_lt_add_eq_le_length rk l (rk l[j])
  unfold landing
  omega

theorem landing_lt_of_rank_lt {α : Type} (rk : α → Nat) (l : List α) (j j' : Nat)
    (hj : j < l.length) (hj' : j' < l.length) (h : rk l[j] < rk l[j']) :
    landing rk l j l[j] < landing rk l j' l[j'] := by
  have h1 := countP_take_lt (fun a => decide (rk a = rk l[j])) l j hj (by simp)
  have h2 := countP_lt_add_eq_le rk l _ _ h
  unfold landing
  omega

theorem landing_lt_of_rank_eq {α : Type} (rk : α → Nat) (l : List α) (j j' : Nat)
    (hj : j < l.length) (hj' : j' < l.length) (h : rk l[j] = rk l[j']) (hjj : j < j') :
    landing rk l j l[j] < landing rk l j' l[j'] := by
  have h1 := countP_take_succ_le (fun a => decide (rk a = rk l[j])) l j j' hj hjj (by simp)
  unfold landing
  rw [← h]
  omega

theorem landing_lt_iff {α : Type} (rk : α → Nat) (l : List α) (j j' : Nat)
    (hj : j < l.length) (hj' : j' < l.length) :
    landing rk l j l[j] < landing rk l j' l[j'] ↔
      rk l[j] < rk l[j'] ∨ (rk l[j] = rk l[j'] ∧ j < j') := by
  constructor
  · intro h
    rcases Nat.lt_trichotomy (rk l[j]) (rk l[j']) with h1 | h1 | h1
    · exact Or.inl h1
    · rcases Nat.lt_trichotomy j j' with h2 | h2 | h2
      · exact Or.inr ⟨h1, h2⟩
      · subst h2; omega
      · have := landing_lt_of_rank_eq rk l j' j hj' hj h1.symm h2
        omega
    · have := landing_lt_of_rank_lt rk l j' j hj' hj h1
      omega
  · rintro (h | ⟨h, h'⟩)
    · exact landing_lt_of_rank_lt rk l j j' hj hj' h
    · exact landing_lt_of_rank_eq rk l j j' hj hj' h h'

theorem landing_inj {α : Type} (rk : α → Nat) (l : List α) (j j' : Nat)
    (hj : j < l.length) (hj' : j' < l.length)
    (h : landing rk l j l[j] = landing rk l j' l[j']) : j = j' := by
  by_contra hne
  have a := (landing_lt_iff rk l j j' hj hj').2
  have b := (landing_lt_iff rk l j' j hj' hj).2
  rcases Nat.lt_trichotomy (rk l[j]) (rk l[j']) with h1 | h1 | h1
  · have := a (Or.inl h1); omega
  · rcases Nat.lt_trichotomy j j' with h2 | h2 | h2
    · have := a (Or.inr ⟨h1, h2⟩); omega
    · exact hne h2
    · have := b (Or.inr ⟨h1.symm, h2⟩); omega
  · have := b (Or.inl h1); omega

/-- Every index of the output is the landing position of some input index. -/
theorem landing_surj {α : Type} (rk : α → Nat) (l : List α) (i : Nat) (hi : i < l.length) :
    ∃ (j : Nat) (hj : j < l.length), landing rk l j l[j] = i := by
  let f : Fin l.length → Fin l.length := fun j => ⟨landing rk l j l[j], landing_lt_length rk l j j.2⟩
  have hinj : Function.Injective f := by
    intro a b hab
    have := landing_inj rk l a b a.2 b.2 (by simpa [f] using congrArg Fin.val hab)
    exact Fin.ext this
  obtain ⟨j, hj⟩ := Finite.surjective_of_injective hinj ⟨i, hi⟩
  exact ⟨j, j.2, by simpa [f] using congrArg Fin.val hj⟩

/-! ## The second loop of a pass: the scatter -/

theorem scatter_spec {α : Type} (E : Engine α) (k : Nat) (frm : List α)
    (hinj : ∀ a b, E.rank k (E.key k a) = E.rank k (E.key k b) → E.key k a = E.key k b)
    (hkey : ∀ e, E.key k e < 256)
    (rest p : List α) (hfrm : frm = p ++ rest) (offset : List Nat) (dst : List α)
    (hlen : dst.length = frm.length) (hoffl : offset.length = 256)
    (hoff : ∀ e ∈ rest, offset.getD (E.key k e) 0 =
      frm.countP (fun a => decide (E.rank k (E.key k a) < E.rank k (E.key k e))) +
        p.countP (fun a => decide (E.rank k (E.key k a) = E.rank k (E.key k e)))) :
    ∃ offset1 dst1, scatter E k rest offset dst = .ok (offset1, dst1) ∧
      offset1.length = 256 ∧ dst1.length = frm.length ∧
      (∀ (j : Nat) (hj : j < frm.length), p.length ≤ j →
        dst1[landing (fun e => E.rank k (E.key k e)) frm j frm[j]]? = some frm[j]) ∧
      (∀ a, (∀ (j : Nat) (hj : j < frm.length), p.length ≤ j →
        landing (fun e => E.rank k (E.key k e)) frm j frm[j] ≠ a) → dst1[a]? = dst[a]?) := by
  induction rest generalizing p offset dst with
  | nil =>
    refine ⟨offset, dst, rfl, hoffl, hlen, ?_, fun a _ => rfl⟩
    intro j hj hpj
    simp [hfrm] at hj
    omega
  | cons e rest ih =>
    have hjp : p.length < frm.length := by simp [hfrm]
    have he : frm[p.length] = e := List.getElem_of_append hfrm rfl
    have htake : frm.take p.length = p := by simp [hfrm]
    have hkl : E.key k e < offset.length := by rw [hoffl]; exact hkey e
    have hland : offset.getD (E.key k e) 0 = landing (fun e => E.rank k (E.key k e)) frm p.length frm[p.length] := by
      rw [hoff e (List.mem_cons_self _ _), he]
      simp only [landing, htake]
    have hrange : offset.getD (E.key k e) 0 < dst.length := by
      rw [hland, hlen]
      exact landing_lt_length _ _ _ hjp
    have hfrm1 : frm = (p ++ [e]) ++ rest := by simp [hfrm]
    have hoff1 : ∀ e1 ∈ rest,
        (offset.set (E.key k e) (offset.getD (E.key k e) 0 + 1)).getD (E.key k e1) 0 =
          frm.countP (fun a => decide (E.rank k (E.key k a) < E.rank k (E.key k e1))) +
            (p ++ [e]).countP (fun a => decide (E.rank k (E.key k a) = E.rank k (E.key k e1))) := by
      intro e1 he1
      by_cases hk : E.key k e1 = E.key k e
      · rw [hk, getD_set_same _ _ _ hkl, hoff e (List.mem_cons_self _ _)]
        simp [List.countP_append, hk, Nat.add_assoc]
      · rw [getD_set_ne _ _ _ _ hk, hoff e1 (List.mem_cons_of_mem _ he1)]
        have hr : ¬ E.rank k (E.key k e) = E.rank k (E.key k e1) := fun h => hk (hinj _ _ h).symm
        simp [List.countP_append, hr]
    obtain ⟨offset1, dst1, hs, hol1, hl1, hw, hf⟩ :=
      ih (p ++ [e]) hfrm1 (offset.set (E.key k e) (offset.getD (E.key k e) 0 + 1))
        (dst.set (offset.getD (E.key k e) 0) e) (by simp [hlen])
        (by rw [List.length_set]; exact hoffl) hoff1
    refine ⟨offset1, dst1, ?_, hol1, hl1, ?_, ?_⟩
    · simp only [scatter, hrange, if_true]
      exact hs
    · intro j hj hpj
      by_cases hjeq : j = p.length
      · subst hjeq
        rw [hf]
        · rw [← hland]
          simp only [he]
          exact List.getElem?_set_self hrange
        · intro j1 hj1 hpj1 heq
          have := landing_inj _ _ _ _ hj1 hjp heq
          simp at hpj1
          omega
      · exact hw j hj (by simp; omega)
    · intro a ha
      rw [hf a (fun j hj hpj => ha j hj (by simp at hpj; omega))]
      apply List.getElem?_set_ne
      rw [hland]
      exact ha p.length hjp (Nat.le_refl _)

/-- The scatter loop, started with the offsets of `pass_offsets` on a `to` as long as `from`,
does not panic and leaves in `to` the stable counting sort of `from` by bucket rank. -/
theorem scatter_stable {α : Type} (E : Engine α) (k : Nat) (frm dst : List α)
    (offset : List Nat)
    (hinj : ∀ a b, E.rank k (E.key k a) = E.rank k (E.key k b) → E.key k a = E.key k b)
    (hkey : ∀ e, E.key k e < 256)
    (hlen : dst.length = frm.length) (hoffl : offset.length = 256)
    (hoff : ∀ e ∈ frm, offset.getD (E.key k e) 0 =
      frm.countP (fun a => decide (E.rank k (E.key k a) < E.rank k (E.key k e)))) :
    ∃ offset1 dst1, scatter E k frm offset dst = .ok (offset1, dst1) ∧
      offset1.length = 256 ∧ StableBy (fun e => E.rank k (E.key k e)) frm dst1 := by
  obtain ⟨offset1, dst1, hs, hol, hl, hw, _⟩ :=
    scatter_spec E k frm hinj hkey frm [] rfl offset dst hlen hoffl (by simpa using hoff)
  exact ⟨offset1, dst1, hs, hol, hl, fun j hj => hw j hj (Nat.zero_le _)⟩

/-! ## What a stable counting sort gives -/

theorem StableBy.getElem_landing {α : Type} {rk : α → Nat} {frm dst : List α}
    (h : StableBy rk frm dst) (j : Nat) (hj : j < frm.length) :
    ∃ (hd : landing rk frm j frm[j] < dst.length), dst[landing rk frm j frm[j]] = frm[j] := by
  have hd : landing rk frm j frm[j] < dst.length := by
    rw [h.1]; exact landing_lt_length rk frm j hj
  refine ⟨hd, ?_⟩
  have := h.2 j hj
  rw [List.getElem?_eq_getElem hd] at this
  exact Option.some.inj this

/-- Every element of the output is the image of an input index. -/
theorem StableBy.getElem_eq {α : Type} {rk : α → Nat} {frm dst : List α}
    (h : StableBy rk frm dst) (i : Nat) (hi : i < dst.length) :
    ∃ (j : Nat) (hj : j < frm.length), landing rk frm j frm[j] = i ∧ dst[i] = frm[j] := by
  obtain ⟨j, hj, hji⟩ := landing_surj rk frm i (h.1 ▸ hi)
  obtain ⟨hd, he⟩ := h.getElem_landing j hj
  refine ⟨j, hj, hji, ?_⟩
  subst hji
  exact he

/-- A stable counting sort is determined by its input. -/
theorem StableBy.unique {α : Type} {rk : α → Nat} {frm d1 d2 : List α}
    (h1 : StableBy rk frm d1) (h2 : StableBy rk frm d2) : d1 = d2 := by
  apply List.ext_getElem (h1.1.trans h2.1.symm)
  intro i hi1 hi2
  obtain ⟨j, hj, hji, he⟩ := h1.getElem_eq i hi1
  obtain ⟨_, he2⟩ := h2.getElem_landing j hj
  subst hji
  rw [he, he2]

/-- A stable counting sort permutes its input. -/
theorem StableBy.perm {α : Type} {rk : α → Nat} {frm dst : List α}
    (h : StableBy rk frm dst) : dst.Perm frm := by
  have hl := h.1
  let f : Fin frm.length → Fin frm.length :=
    fun j => ⟨landing rk frm j frm[j], landing_lt_length rk frm j j.2⟩
  have hinj : Function.Injective f := by
    intro a b hab
    exact Fin.ext (landing_inj rk frm a b a.2 b.2 (by simpa [f] using congrArg Fin.val hab))
  let σ : Equiv.Perm (Fin frm.length) :=
    Equiv.ofBijective f ⟨hinj, Finite.surjective_of_injective hinj⟩
  let g : Fin frm.length → α := fun i => dst.get ⟨i.1, by rw [hl]; exact i.2⟩
  have h1 : List.ofFn (g ∘ σ) = frm := by
    apply List.ext_getElem (by simp)
    intro i hi1 hi2
    obtain ⟨_, he⟩ := h.getElem_landing i hi2
    simp [g, σ, f, he]
  have h2 : List.ofFn g = dst := by
    apply List.ext_getElem (by simp [hl])
    intro i hi1 hi2
    simp [g]
  have := σ.ofFn_comp_perm g
  rw [h1, h2] at this
  exact this.symm

/-- A stable counting sort by `rk` turns an order `S` on the input into the order `T` on the
output, where `T` is `S` refined by `rk`. -/
theorem StableBy.pairwise {α : Type} {rk : α → Nat} {frm dst : List α}
    (h : StableBy rk frm dst) (S T : α → α → Prop) (hS : frm.Pairwise S)
    (hlt : ∀ a ∈ frm, ∀ b ∈ frm, rk a < rk b → T a b)
    (heq : ∀ a ∈ frm, ∀ b ∈ frm, rk a = rk b → S a b → T a b) : dst.Pairwise T := by
  rw [List.pairwise_iff_getElem]
  intro i j hi hj hij
  obtain ⟨a, ha, hai, hea⟩ := h.getElem_eq i hi
  obtain ⟨b, hb, hbj, heb⟩ := h.getElem_eq j hj
  rw [hea, heb]
  rw [← hai, ← hbj, landing_lt_iff rk frm a b ha hb] at hij
  rcases hij with hlt1 | ⟨heq1, hab⟩
  · exact hlt _ (List.getElem_mem _) _ (List.getElem_mem _) hlt1
  · exact heq _ (List.getElem_mem _) _ (List.getElem_mem _) heq1
      (List.pairwise_iff_getElem.1 hS a b ha hb hab)

/-! ## The loop over the passes -/

theorem low_succ (v i : Nat) :
    v % 2 ^ (radix * (i + 1)) = v % 2 ^ (radix * i) + 2 ^ (radix * i) * (v / 2 ^ (radix * i) % 256) := by
  have : (2 : Nat) ^ (radix * (i + 1)) = 2 ^ (radix * i) * 256 := by
    rw [Nat.mul_succ, Nat.pow_add]; rfl
  rw [this, Nat.mod_mul]

theorem low_le_of_digit_lt (a b i : Nat)
    (h : a / 2 ^ (radix * i) % 256 < b / 2 ^ (radix * i) % 256) :
    a % 2 ^ (radix * (i + 1)) ≤ b % 2 ^ (radix * (i + 1)) := by
  rw [low_succ, low_succ]
  have hM : 0 < 2 ^ (radix * i) := Nat.pow_pos (by omega)
  have h1 : a % 2 ^ (radix * i) < 2 ^ (radix * i) := Nat.mod_lt _ hM
  have h2 : 2 ^ (radix * i) * (a / 2 ^ (radix * i) % 256 + 1) ≤
      2 ^ (radix * i) * (b / 2 ^ (radix * i) % 256) := Nat.mul_le_mul_left _ h
  rw [Nat.mul_succ] at h2
  omega

theorem low_le_of_digit_eq (a b i : Nat)
    (h : a / 2 ^ (radix * i) % 256 = b / 2 ^ (radix * i) % 256)
    (hl : a % 2 ^ (radix * i) ≤ b % 2 ^ (radix * i)) :
    a % 2 ^ (radix * (i + 1)) ≤ b % 2 ^ (radix * (i + 1)) := by
  rw [low_succ, low_succ, h]
  omega

theorem Engine.rank_inj {α : Type} (E : Engine α) (k d1 d2 : Nat) (h1 : d1 < 256) (h2 : d2 < 256)
    (h : E.rank k d1 = E.rank k d2) : d1 = d2 := by
  unfold Engine.rank at h
  split at h <;> omega

theorem copy_eq_of_length {α : Type} (dst src : List α) (h : dst.length = src.length) :
    copy dst src = src := by
  simp [copy, h]

/-- Started at pass `i` on a `from` ordered by the low `i` digits of the code, the loop does not
panic and leaves, in the slice selected by the parity of the number of swaps, the elements in
the order `R`. -/
theorem passes_spec {α : Type} (E : Engine α) (ok : α → Prop) (u : α → Nat) (R : α → α → Prop)
    (hE : E.Sound ok u R) (x0 : List α) (hok : ∀ e ∈ x0, ok e) (n : Nat) :
    ∀ (i : Nat), i + n = E.bitSize / radix →
    ∀ (frm dst : List α) (offset : List Nat), offset.length = 256 → frm.Perm x0 →
      dst.length = frm.length →
      frm.Pairwise (fun a b => u a % 2 ^ (radix * i) ≤ u b % 2 ^ (radix * i)) →
      ∃ r, passes E n (radix * i) frm dst offset = .ok r ∧
        r.frm.length = frm.length ∧ r.dst.length = frm.length ∧
        (if r.swaps % 2 = 0 then r.frm else r.dst).Perm x0 ∧
        (if r.swaps % 2 = 0 then r.frm else r.dst).Pairwise R := by
  induction n with
  | zero =>
    intro i hi frm dst offset hoffl hperm hlen hlow
    obtain ⟨P, hP⟩ := hE.bits
    have hdiv : E.bitSize / radix = 2 * P := by rw [hP]; exact Nat.mul_div_cancel_left _ (by decide)
    have hsw : radix * i / radix = i := Nat.mul_div_cancel_left _ (by decide)
    have hi2 : i = 2 * P := by omega
    have hpar : radix * i / radix % 2 = 0 := by rw [hsw, hi2]; omega
    refine ⟨_, rfl, rfl, hlen, ?_, ?_⟩
    · simp only [hpar, if_true]
      exact hperm
    · simp only [hpar, if_true]
      have hfok : ∀ e ∈ frm, ok e := fun e he => hok e (hperm.subset he)
      refine hlow.imp_of_mem ?_
      intro a b ha hb hab
      have ha1 := hE.u_lt a (hfok a ha)
      have hb1 := hE.u_lt b (hfok b hb)
      rw [hi2, ← hP, Nat.mod_eq_of_lt ha1, Nat.mod_eq_of_lt hb1] at hab
      exact hE.u_sound a b (hfok a ha) (hfok b hb) hab
  | succ n ih =>
    intro i hi frm dst offset hoffl hperm hlen hlow
    have hfok : ∀ e ∈ frm, ok e := fun e he => hok e (hperm.subset he)
    have hsw : radix * i / radix = i := Nat.mul_div_cancel_left _ (by decide)
    by_cases hs : (scan E (radix * i) frm).sorted = true
    · -- short circuit
      refine ⟨{ frm := frm, dst := if (radix * i / radix) % 2 = 1 then copy dst frm else dst,
                swaps := radix * i / radix }, ?_, rfl, ?_, ?_, ?_⟩
      · simp only [passes, hs, if_true]
      · simp only
        split
        · rw [copy_eq_of_length _ _ hlen]
        · exact hlen
      · simp only [hsw]
        by_cases hpar : i % 2 = 0
        · simp only [hpar, if_true]; exact hperm
        · have : i % 2 = 1 := by omega
          simp only [this, if_true, copy_eq_of_length _ _ hlen]
          simpa using hperm
      · have hchain := ((scan_sorted E (radix * i) frm).1 hs).2
        have hpw : frm.Pairwise (fun a b => E.ge b a = true) := by
          haveI : IsTrans α (fun a b => E.ge b a = true) := ⟨fun a b c => hE.ge_trans a b c⟩
          exact (List.chain_iff_pairwise.1 hchain).of_cons
        have hR : frm.Pairwise R :=
          hpw.imp_of_mem (fun {a b} ha hb hab => hE.ge_sound a b (hfok a ha) (hfok b hb) hab)
        simp only [hsw]
        by_cases hpar : i % 2 = 0
        · simp only [hpar, if_true]; exact hR
        · have : i % 2 = 1 := by omega
          simp only [this, if_true, copy_eq_of_length _ _ hlen]
          simpa using hR
    · -- scatter
      have hinj : ∀ a b, E.rank (radix * i) (E.key (radix * i) a) = E.rank (radix * i) (E.key (radix * i) b) →
          E.key (radix * i) a = E.key (radix * i) b :=
        fun a b h => E.rank_inj _ _ _ (hE.key_lt _ _) (hE.key_lt _ _) h
      obtain ⟨hpl, hpv⟩ := pass_offsets E (radix * i) frm offset hoffl (hE.key_lt _)
      obtain ⟨offset2, dst1, hsc, hol2, hst⟩ := scatter_stable E (radix * i) frm dst
        (if (E.signed && radix * i == E.bitSize - radix) = true
          then signedOffsets (scan E (radix * i) frm).counts offset
          else plainOffsets (scan E (radix * i) frm).counts offset) hinj (hE.key_lt _) hlen hpl
        (fun e _ => hpv _ (hE.key_lt _ _))
      have hi1 : i < E.bitSize / radix := by omega
      have hlow1 : dst1.Pairwise
          (fun a b => u a % 2 ^ (radix * (i + 1)) ≤ u b % 2 ^ (radix * (i + 1))) := by
        refine hst.pairwise _ _ hlow ?_ ?_
        · intro a ha b hb hab
          simp only [hE.digit i hi1 a (hfok a ha), hE.digit i hi1 b (hfok b hb)] at hab
          exact low_le_of_digit_lt _ _ _ hab
        · intro a ha b hb hab hl
          simp only [hE.digit i hi1 a (hfok a ha), hE.digit i hi1 b (hfok b hb)] at hab
          exact low_le_of_digit_eq _ _ _ hab hl
      obtain ⟨r, hr, h1, h2, h3, h4⟩ := ih (i + 1) (by omega) dst1 frm offset2 hol2
        (hst.perm.trans hperm) hst.1.symm hlow1
      refine ⟨r, ?_, h1.trans hst.1, h2.trans hst.1, h3, h4⟩
      simp only [passes, hs, Bool.false_eq_true, if_false, hsc]
      exact hr

/-! ## `SortBYOB` of a sound engine -/

theorem radixSort_spec {α : Type} (E : Engine α) (ok : α → Prop) (u : α → Nat)
    (R : α → α → Prop) (hE : E.Sound ok u R) (head frm buffer : List α)
    (hlen : frm.length ≤ buffer.length) (hok : ∀ e ∈ frm, ok e) :
    ∃ out tail, radixSort E head frm buffer = .ok out ∧ out.x = head ++ tail ∧
      tail.Perm frm ∧ tail.Pairwise R ∧ out.buffer.length = buffer.length := by
  obtain ⟨r, hr, h1, h2, h3, h4⟩ := passes_spec E ok u R hE frm hok (E.bitSize / radix) 0
    (by omega) frm (buffer.take frm.length) (List.replicate 256 0) (List.length_replicate _ _)
    (List.Perm.refl _)
    (by simp [hlen]) (by simp [List.pairwise_iff_getElem, Nat.mod_one])
  have hr0 : passes E (E.bitSize / radix) 0 frm (buffer.take frm.length)
      (List.replicate 256 0) = .ok r := hr
  refine ⟨{ x := head ++ (if r.swaps % 2 = 0 then r.frm else r.dst)
            buffer := (if r.swaps % 2 = 0 then r.dst else r.frm) ++ buffer.drop frm.length
            scatters := r.swaps },
    (if r.swaps % 2 = 0 then r.frm else r.dst), ?_, rfl, h3, h4, ?_⟩
  · simp only [radixSort, hr0]
  · simp only [List.length_append, List.length_drop]
    split <;> omega

/-- A sound engine, given a buffer at least as long as `x`, returns normally with `x` holding a
permutation of its former contents in the order `R`; the buffer keeps its length. -/
theorem Engine.SortBYOB_spec {α : Type} (E : Engine α) (ok : α → Prop) (u : α → Nat)
    (R : α → α → Prop) (hE : E.Sound ok u R) (x buffer : List α)
    (hlen : x.length ≤ buffer.length) (hok : ∀ e ∈ x, ok e) :
    ∃ out, E.SortBYOB x buffer = .ok out ∧ out.x.Perm x ∧ out.x.Pairwise R ∧
      out.buffer.length = buffer.length := by
  unfold Engine.SortBYOB
  rw [if_neg (by omega)]
  by_cases h2 : x.length < 2
  · rw [if_pos h2]
    refine ⟨_, rfl, List.Perm.refl _, ?_, rfl⟩
    match x, h2 with
    | [], _ => exact List.Pairwise.nil
    | [a], _ => exact List.pairwise_singleton _ _
  · rw [if_neg h2]
    obtain ⟨out, tail, ho, hx, hp, hs, hb⟩ := radixSort_spec E ok u R hE [] x buffer hlen hok
    refine ⟨out, ho, ?_, ?_, hb⟩
    · rw [hx]; simpa using hp
    · rw [hx]; simpa using hs

/-! ## The unsigned kinds -/

theorem unsignedKey_eq (w keyOffset elem : Nat) (hk : keyOffset + 8 ≤ w) :
    unsignedKey w keyOffset elem = elem / 2 ^ keyOffset % 256 := by
  unfold unsignedKey
  have hmask : (0xFF <<< keyOffset) % 2 ^ w = 0xFF <<< keyOffset := by
    apply Nat.mod_eq_of_lt
    rw [Nat.shiftLeft_eq]
    calc 0xFF * 2 ^ keyOffset < 2 ^ 8 * 2 ^ keyOffset := by
          apply Nat.mul_lt_mul_of_pos_right (by norm_num) (Nat.pow_pos (by omega))
      _ = 2 ^ (keyOffset + 8) := by rw [Nat.pow_add, Nat.mul_comm]
      _ ≤ 2 ^ w := Nat.pow_le_pow_right (by omega) hk
  simp only [hmask]
  have : (elem &&& 0xFF <<< keyOffset) >>> keyOffset = (elem >>> keyOffset) &&& 0xFF := by
    apply Nat.eq_of_testBit_eq
    intro i
    simp only [Nat.testBit_shiftRight, Nat.testBit_and, Nat.testBit_shiftLeft]
    have : keyOffset + i - keyOffset = i := by omega
    simp [this]
  rw [this, Nat.shiftRight_eq_div_pow]
  have h255 : (255 : Nat) = 2 ^ 8 - 1 := by norm_num
  rw [h255, Nat.and_pow_two_sub_one_eq_mod]
  norm_num

theorem unsigned_sound (w P : Nat) (hw : w = radix * (2 * P)) (prev0 : Nat) (sorted0 : Bool) :
    Engine.Sound
      { bitSize := w, key := unsignedKey w, ge := fun elem prev => decide (elem ≥ prev),
        prev0 := prev0, sorted0 := sorted0, signed := false }
      (fun e => e < 2 ^ w) id (fun a b => a ≤ b) where
  bits := ⟨P, hw⟩
  key_lt := fun k e => Nat.mod_lt _ (by norm_num)
  u_lt := fun e he => he
  digit := by
    intro i hi e _
    have hi' : i < 2 * P := by
      simp only [hw] at hi
      rwa [Nat.mul_div_cancel_left _ (by decide : 0 < radix)] at hi
    simp only [Engine.rank, Bool.false_and, Bool.false_eq_true, if_false, id]
    apply unsignedKey_eq
    simp only [hw, radix]
    omega
  ge_trans := by
    intro a b c h1 h2
    simp only [ge_iff_le, decide_eq_true_eq] at *
    omega
  ge_sound := by
    intro a b _ _ h
    simpa using h
  u_sound := fun a b _ _ h => h

theorem zuint64_engine_sound :
    zuint64.engine.Sound (fun e => e < 2 ^ 64) id (fun a b => a ≤ b) :=
  unsigned_sound 64 4 (by decide) 0 true

theorem zuint32_engine_sound :
    zuint32.engine.Sound (fun e => e < 2 ^ 32) id (fun a b => a ≤ b) :=
  unsigned_sound 32 2 (by decide) 0 false

theorem zuint_bitSize_eq (uintSize : Nat) (h : uintSize = 32 ∨ uintSize = 64) :
    zuint.bitSize uintSize = uintSize := by
  rcases h with h | h <;> subst h <;> decide

theorem zuint_engine_sound (uintSize : Nat) (h : uintSize = 32 ∨ uintSize = 64) :
    (zuint.engine uintSize).Sound (fun e => e < 2 ^ uintSize) id (fun a b => a ≤ b) := by
  have hb := zuint_bitSize_eq uintSize h
  unfold zuint.engine
  rw [hb]
  rcases h with h | h <;> subst h
  · exact unsigned_sound 32 2 (by decide) 0 true
  · exact unsigned_sound 64 4 (by decide) 0 true

/-! ## The signed kinds -/

theorem and_mask_shiftRight (n k : Nat) : (n &&& 0xFF <<< k) >>> k = n / 2 ^ k % 256 := by
  have h := unsignedKey_eq (k + 8) k n (Nat.le_refl _)
  have hmask : (0xFF <<< k) % 2 ^ (k + 8) = 0xFF <<< k := by
    apply Nat.mod_eq_of_lt
    rw [Nat.shiftLeft_eq, Nat.pow_add, Nat.mul_comm]
    exact Nat.mul_lt_mul_of_pos_left (by norm_num) (Nat.pow_pos (by omega))
  simp only [unsignedKey, hmask] at h
  have hlt : (n &&& 0xFF <<< k) >>> k < 256 := by
    have h255 : (255 : Nat) = 2 ^ 8 - 1 := by norm_num
    have : (n &&& 0xFF <<< k) >>> k = (n >>> k) &&& 0xFF := by
      apply Nat.eq_of_testBit_eq
      intro i
      simp only [Nat.testBit_shiftRight, Nat.testBit_and, Nat.testBit_shiftLeft]
      have : k + i - k = i := by omega
      simp [this]
    rw [this, h255, Nat.and_pow_two_sub_one_eq_mod]
    exact Nat.mod_lt _ (by norm_num)
  rw [Nat.mod_eq_of_lt hlt] at h
  exact h

theorem ldiff_low_shiftRight (n k : Nat) : Nat.ldiff n (2 ^ k - 1) >>> k = n >>> k := by
  apply Nat.eq_of_testBit_eq
  intro i
  simp [Nat.testBit_shiftRight, Nat.testBit_ldiff, Nat.testBit_two_pow_sub_one]

theorem lor_low_shiftRight (n k : Nat) : (n ||| (2 ^ k - 1)) >>> k = n >>> k := by
  apply Nat.eq_of_testBit_eq
  intro i
  simp [Nat.testBit_shiftRight, Nat.testBit_or, Nat.testBit_two_pow_sub_one]

theorem ldiff_mask_shiftRight (n k : Nat) :
    Nat.ldiff (0xFF <<< k) n >>> k = 255 - n / 2 ^ k % 256 := by
  have hx : n / 2 ^ k % 256 < 2 ^ 8 := Nat.mod_lt _ (by norm_num)
  have : 255 - n / 2 ^ k % 256 = 2 ^ 8 - (n / 2 ^ k % 256 + 1) := by omega
  rw [this]
  apply Nat.eq_of_testBit_eq
  intro i
  rw [Nat.testBit_two_pow_sub_succ hx]
  have h256 : (256 : Nat) = 2 ^ 8 := by norm_num
  have h255 : (255 : Nat) = 2 ^ 8 - 1 := by norm_num
  have e : k + i - k = i := by omega
  simp only [Nat.testBit_shiftRight, Nat.testBit_ldiff, Nat.testBit_shiftLeft, h256,
    Nat.testBit_mod_two_pow, ← Nat.shiftRight_eq_div_pow, h255, Nat.testBit_two_pow_sub_one, e]
  by_cases hi : i < 8 <;> simp [hi]

/-- Masking with a non-negative byte mask and shifting leaves the byte of the shifted value. -/
theorem land_mask_shiftRight (e : Int) (k : Nat) :
    (Int.land e ((0xFF <<< k : Nat) : Int) >>> k) % 256 = (e >>> k) % 256 := by
  cases e with
  | ofNat n =>
    show (((n &&& 0xFF <<< k : Nat) : Int) >>> k) % 256 = ((n : Int) >>> k) % 256
    rw [Int.natCast_shiftRight, Int.natCast_shiftRight, and_mask_shiftRight,
      Nat.shiftRight_eq_div_pow]
    omega
  | negSucc n =>
    show (((Nat.ldiff (0xFF <<< k) n : Nat) : Int) >>> k) % 256 = (Int.negSucc n >>> k) % 256
    rw [Int.natCast_shiftRight, Int.negSucc_shiftRight, ldiff_mask_shiftRight,
      Nat.shiftRight_eq_div_pow, Int.negSucc_eq]
    omega

/-- Masking with the negative mask `-2 ^ k` of the last pass and shifting is just shifting. -/
theorem land_negMask_shiftRight (e : Int) (k : Nat) :
    Int.land e (Int.negSucc (2 ^ k - 1)) >>> k = e >>> k := by
  cases e with
  | ofNat n =>
    show ((Nat.ldiff n (2 ^ k - 1) : Nat) : Int) >>> k = (n : Int) >>> k
    rw [Int.natCast_shiftRight, Int.natCast_shiftRight, ldiff_low_shiftRight]
  | negSucc n =>
    show Int.negSucc (n ||| (2 ^ k - 1)) >>> k = Int.negSucc n >>> k
    rw [Int.negSucc_shiftRight, Int.negSucc_shiftRight, lor_low_shiftRight]

theorem signedKey_eq_of_mask (w k : Nat) (e : Int)
    (hmask : wrapInt w ((0xFF <<< k : Nat) : Int) = ((0xFF <<< k : Nat) : Int) ∨
      wrapInt w ((0xFF <<< k : Nat) : Int) = Int.negSucc (2 ^ k - 1)) :
    signedKey w k e = ((e / 2 ^ k) % 256).toNat := by
  unfold signedKey
  simp only
  rcases hmask with h | h
  · rw [h, land_mask_shiftRight, Int.shiftRight_eq_div_pow]
    norm_cast
  · rw [h, land_negMask_shiftRight, Int.shiftRight_eq_div_pow]
    norm_cast

theorem mask32 (i : Nat) (hi : i < 4) :
    wrapInt 32 ((0xFF <<< (radix * i) : Nat) : Int) = ((0xFF <<< (radix * i) : Nat) : Int) ∨
      wrapInt 32 ((0xFF <<< (radix * i) : Nat) : Int) = Int.negSucc (2 ^ (radix * i) - 1) := by
  interval_cases i <;> decide

theorem mask64 (i : Nat) (hi : i < 8) :
    wrapInt 64 ((0xFF <<< (radix * i) : Nat) : Int) = ((0xFF <<< (radix * i) : Nat) : Int) ∨
      wrapInt 64 ((0xFF <<< (radix * i) : Nat) : Int) = Int.negSucc (2 ^ (radix * i) - 1) := by
  interval_cases i <;> decide

theorem signed_digit32 (i : Nat) (hi : i < 4) (e : Int) (h1 : -2 ^ 31 ≤ e) (h2 : e < 2 ^ 31) :
    (if (true && radix * i == 32 - radix) = true then (signedKey 32 (radix * i) e + 128) % 256
      else signedKey 32 (radix * i) e) = (e + 2 ^ 31).toNat / 2 ^ (radix * i) % 256 := by
  rw [signedKey_eq_of_mask 32 _ e (mask32 i hi)]
  interval_cases i <;> simp [radix] <;> omega
theorem signed_digit64 (i : Nat) (hi : i < 8) (e : Int) (h1 : -2 ^ 63 ≤ e) (h2 : e < 2 ^ 63) :
    (if (true && radix * i == 64 - radix) = true then (signedKey 64 (radix * i) e + 128) % 256
      else signedKey 64 (radix * i) e) = (e + 2 ^ 63).toNat / 2 ^ (radix * i) % 256 := by
  rw [signedKey_eq_of_mask 64 _ e (mask64 i hi)]
  interval_cases i <;> simp [radix] <;> omega

theorem signedKey_lt (w k : Nat) (e : Int) : signedKey w k e < 256 := by
  unfold signedKey
  simp only
  omega

theorem signed_sound (w : Nat) (hw : w = 32 ∨ w = 64) (prev0 : Int) (sorted0 : Bool) :
    Engine.Sound
      { bitSize := w, key := signedKey w, ge := fun elem prev => decide (elem ≥ prev),
        prev0 := prev0, sorted0 := sorted0, signed := true }
      (fun e => -2 ^ (w - 1) ≤ e ∧ e < 2 ^ (w - 1)) (fun e => (e + 2 ^ (w - 1)).toNat)
      (fun a b => a ≤ b) where
  bits := by
    rcases hw with h | h <;> subst h
    · exact ⟨2, rfl⟩
    · exact ⟨4, rfl⟩
  key_lt := fun k e => signedKey_lt w k e
  u_lt := by
    rcases hw with h | h <;> subst h <;> intro e he <;> simp only [Nat.add_one_sub_one] at * <;>
      norm_num at * <;> omega
  digit := by
    rcases hw with h | h <;> subst h
    · intro i hi e he
      exact signed_digit32 i (by simpa [radix] using hi) e he.1 he.2
    · intro i hi e he
      exact signed_digit64 i (by simpa [radix] using hi) e he.1 he.2
  ge_trans := by
    intro a b c h1 h2
    simp only [ge_iff_le, decide_eq_true_eq] at *
    omega
  ge_sound := by
    intro a b _ _ h
    simpa using h
  u_sound := by
    intro a b ha hb h
    have h1 : (0 : Int) ≤ a + 2 ^ (w - 1) := by have := ha.1; omega
    have h2 : (0 : Int) ≤ b + 2 ^ (w - 1) := by have := hb.1; omega
    have h3 := Int.toNat_of_nonneg h1
    have h4 := Int.toNat_of_nonneg h2
    have h5 : ((a + 2 ^ (w - 1)).toNat : Int) ≤ ((b + 2 ^ (w - 1)).toNat : Int) := by
      exact_mod_cast h
    rw [h3, h4] at h5
    omega

theorem zint_bitSize_eq (uintSize : Nat) (h : uintSize = 32 ∨ uintSize = 64) :
    zint.bitSize uintSize = uintSize := by
  rcases h with h | h <;> subst h <;> decide

theorem zint32_engine_sound :
    zint32.engine.Sound (fun e => -2 ^ 31 ≤ e ∧ e < 2 ^ 31) (fun e => (e + 2 ^ 31).toNat)
      (fun a b => a ≤ b) :=
  signed_sound 32 (Or.inl rfl) zint32.minInt32 true

theorem zint64_engine_sound :
    zint64.engine.Sound (fun e => -2 ^ 63 ≤ e ∧ e < 2 ^ 63) (fun e => (e + 2 ^ 63).toNat)
      (fun a b => a ≤ b) :=
  signed_sound 64 (Or.inr rfl) zint64.minInt64 true

theorem zint_engine_sound (uintSize : Nat) (h : uintSize = 32 ∨ uintSize = 64) :
    (zint.engine uintSize).Sound (fun e => -2 ^ (uintSize - 1) ≤ e ∧ e < 2 ^ (uintSize - 1))
      (fun e => (e + 2 ^ (uintSize - 1)).toNat) (fun a b => a ≤ b) := by
  have hb := zint_bitSize_eq uintSize h
  unfold zint.engine
  rw [hb]
  exact signed_sound uintSize h _ true

/-! ## Per-kind statements of `SortBYOB` -/

theorem zuint64_SortBYOB_spec (x buffer : List Nat) (hlen : x.length ≤ buffer.length)
    (hx : ∀ e ∈ x, e < 2 ^ 64) :
    ∃ out, zuint64.SortBYOB x buffer = .ok out ∧ out.x.Perm x ∧
      out.x.Pairwise (fun a b => a ≤ b) ∧ out.buffer.length = buffer.length :=
  Engine.SortBYOB_spec _ _ _ _ zuint64_engine_sound x buffer hlen hx

theorem zuint32_SortBYOB_spec (x buffer : List Nat) (hlen : x.length ≤ buffer.length)
    (hx : ∀ e ∈ x, e < 2 ^ 32) :
    ∃ out, zuint32.SortBYOB x buffer = .ok out ∧ out.x.Perm x ∧
      out.x.Pairwise (fun a b => a ≤ b) ∧ out.buffer.length = buffer.length :=
  Engine.SortBYOB_spec _ _ _ _ zuint32_engine_sound x buffer hlen hx

theorem zuint_SortBYOB_spec (uintSize : Nat) (h : uintSize = 32 ∨ uintSize = 64)
    (x buffer : List Nat) (hlen : x.length ≤ buffer.length) (hx : ∀ e ∈ x, e < 2 ^ uintSize) :
    ∃ out, zuint.SortBYOB uintSize x buffer = .ok out ∧ out.x.Perm x ∧
      out.x.Pairwise (fun a b => a ≤ b) ∧ out.buffer.length = buffer.length :=
  Engine.SortBYOB_spec _ _ _ _ (zuint_engine_sound uintSize h) x buffer hlen hx

theorem zint32_SortBYOB_spec (x buffer : List Int) (hlen : x.length ≤ buffer.length)
    (hx : ∀ e ∈ x, -2 ^ 31 ≤ e ∧ e < 2 ^ 31) :
    ∃ out, zint32.SortBYOB x buffer = .ok out ∧ out.x.Perm x ∧
      out.x.Pairwise (fun a b => a ≤ b) ∧ out.buffer.length = buffer.length :=
  Engine.SortBYOB_spec _ _ _ _ zint32_engine_sound x buffer hlen hx

theorem zint64_SortBYOB_spec (x buffer : List Int) (hlen : x.length ≤ buffer.length)
    (hx : ∀ e ∈ x, -2 ^ 63 ≤ e ∧ e < 2 ^ 63) :
    ∃ out, zint64.SortBYOB x buffer = .ok out ∧ out.x.Perm x ∧
      out.x.Pairwise (fun a b => a ≤ b) ∧ out.buffer.length = buffer.length :=
  Engine.SortBYOB_spec _ _ _ _ zint64_engine_sound x buffer hlen hx

theorem zint_SortBYOB_spec (uintSize : Nat) (h : uintSize = 32 ∨ uintSize = 64)
    (x buffer : List Int) (hlen : x.length ≤ buffer.length)
    (hx : ∀ e ∈ x, -2 ^ (uintSize - 1) ≤ e ∧ e < 2 ^ (uintSize - 1)) :
    ∃ out, zint.SortBYOB uintSize x buffer = .ok out ∧ out.x.Perm x ∧
      out.x.Pairwise (fun a b => a ≤ b) ∧ out.buffer.length = buffer.length :=
  Engine.SortBYOB_spec _ _ _ _ (zint_engine_sound uintSize h) x buffer hlen hx

/-- A list in non-decreasing order that is a permutation of another such list is that list. -/
theorem eq_of_perm_of_pairwise_le {l1 l2 : List Int} (hp : l1.Perm l2)
    (h1 : l1.Pairwise (fun a b => a ≤ b)) (h2 : l2.Pairwise (fun a b => a ≤ b)) : l1 = l2 :=
  List.eq_of_perm_of_sorted hp h1 h2

/-! ## The floating-point kinds -/

theorem and_two_pow_eq_iff (n x : Nat) (hx : x < 2 ^ (n + 1)) :
    (x &&& 2 ^ n = 2 ^ n) ↔ 2 ^ n ≤ x := by
  have hp : 0 < 2 ^ n := Nat.pow_pos (by omega)
  rw [Nat.and_two_pow, Nat.testBit_to_div_mod]
  have hlt : x / 2 ^ n < 2 := by
    rw [Nat.div_lt_iff_lt_mul hp, Nat.mul_comm, ← Nat.pow_succ]; exact hx
  by_cases h : 2 ^ n ≤ x
  · have : 1 ≤ x / 2 ^ n := (Nat.le_div_iff_mul_le hp).2 (by omega)
    have h1 : x / 2 ^ n % 2 = 1 := by omega
    simp [h1, h]
  · have : x / 2 ^ n = 0 := Nat.div_eq_of_lt (by omega)
    simp [this, h]
    omega

theorem xor_ones (n x : Nat) (hx : x < 2 ^ n) : x ^^^ (2 ^ n - 1) = 2 ^ n - 1 - x := by
  have : 2 ^ n - 1 - x = 2 ^ n - (x + 1) := by omega
  rw [this]
  apply Nat.eq_of_testBit_eq
  intro i
  rw [Nat.testBit_two_pow_sub_succ hx, Nat.testBit_xor, Nat.testBit_two_pow_sub_one]
  by_cases hi : i < n
  · simp [hi]
  · have : x.testBit i = false := Nat.testBit_lt_two_pow (lt_of_lt_of_le hx (Nat.pow_le_pow_right (by omega) (by omega)))
    simp [hi, this]

theorem xor_two_pow (n x : Nat) (hx : x < 2 ^ n) : x ^^^ 2 ^ n = x + 2 ^ n := by
  apply Nat.eq_of_testBit_eq
  intro i
  rw [Nat.testBit_xor, Nat.add_comm, Nat.testBit_two_pow]
  rcases Nat.lt_trichotomy i n with h | h | h
  · rw [Nat.testBit_two_pow_add_gt h]
    have : ¬ n = i := by omega
    simp [this]
  · subst h
    rw [Nat.testBit_two_pow_add_eq, Nat.testBit_lt_two_pow hx]
    simp
  · have h1 : x.testBit i = false :=
      Nat.testBit_lt_two_pow (lt_of_lt_of_le hx (Nat.pow_le_pow_right (by omega) (by omega)))
    have h2 : (2 ^ n + x).testBit i = false := by
      apply Nat.testBit_lt_two_pow
      calc 2 ^ n + x < 2 ^ n + 2 ^ n := by omega
        _ = 2 ^ (n + 1) := by rw [Nat.pow_succ]; omega
        _ ≤ 2 ^ i := Nat.pow_le_pow_right (by omega) (by omega)
    have : ¬ n = i := by omega
    simp [h1, h2, this]

theorem getD_append_cons (A B : List Nat) (v i : Nat) (h : A.length = i) :
    (A ++ v :: B).getD i 0 = v := by
  subst h
  rw [List.getD_eq_getElem?_getD, List.getElem?_append_right (Nat.le_refl _)]
  simp

theorem set_append_cons (A B : List Nat) (v w i : Nat) (h : A.length = i) :
    (A ++ v :: B).set i w = A ++ w :: B := by
  subst h
  rw [List.set_append_right _ _ (Nat.le_refl _)]
  simp

/-- The NaN loop after `m` indices: `x` is a block of NaNs, a block of non-NaNs, and the
still untouched rest. -/
theorem nanFront_loop (isNaN : Nat → Bool) (x : List Nat) (m : Nat) (hm : m ≤ x.length) :
    ∃ N M, (List.range m).foldl (nanStep isNaN) (x, 0) = (N ++ M ++ x.drop m, N.length) ∧
      (∀ e ∈ N, isNaN e = true) ∧ (∀ e ∈ M, isNaN e = false) ∧ (N ++ M).Perm (x.take m) := by
  induction m with
  | zero => exact ⟨[], [], by simp, by simp, by simp, by simp⟩
  | succ m ih =>
    obtain ⟨N, M, hf, hN, hM, hp⟩ := ih (by omega)
    have hlt : m < x.length := by omega
    have hNM : (N ++ M).length = m := by
      have := hp.length_eq
      rw [List.length_take] at this
      omega
    have hdrop : x.drop m = x[m] :: x.drop (m + 1) := List.drop_eq_getElem_cons hlt
    have htake : x.take (m + 1) = x.take m ++ [x[m]] := by
      rw [List.take_succ, List.getElem?_eq_getElem hlt]; rfl
    have hpm : (N ++ M ++ [x[m]]).Perm (x.take (m + 1)) := by
      rw [htake]; exact hp.append_right [x[m]]
    rw [List.range_succ, List.foldl_append, hf, hdrop]
    simp only [List.foldl_cons, List.foldl_nil, nanStep, getD_append_cons _ _ _ _ hNM]
    by_cases hnan : isNaN x[m] = true
    · rw [if_pos hnan]
      cases M with
      | nil =>
        refine ⟨N ++ [x[m]], [], ?_, ?_, by simp, ?_⟩
        · simp only [List.append_nil] at hNM ⊢
          rw [getD_append_cons _ _ _ _ rfl, set_append_cons _ _ _ _ _ hNM,
            set_append_cons _ _ _ _ _ rfl]
          simp
        · intro e he
          rcases List.mem_append.1 he with h | h
          · exact hN e h
          · simp at h; subst h; exact hnan
        · simpa using hpm
      | cons h t =>
        refine ⟨N ++ [x[m]], t ++ [h], ?_, ?_, ?_, ?_⟩
        · have e1 : N ++ h :: t ++ x[m] :: List.drop (m + 1) x =
              N ++ h :: (t ++ x[m] :: List.drop (m + 1) x) := by simp
          have e2 : N ++ h :: t ++ h :: List.drop (m + 1) x =
              N ++ h :: (t ++ h :: List.drop (m + 1) x) := by simp
          rw [set_append_cons _ _ _ _ _ hNM]
          rw [e1, getD_append_cons _ _ _ _ rfl, e2, set_append_cons _ _ _ _ _ rfl]
          simp
        · intro e he
          rcases List.mem_append.1 he with h1 | h1
          · exact hN e h1
          · simp at h1; subst h1; exact hnan
        · intro e he
          apply hM
          rcases List.mem_append.1 he with h1 | h1
          · exact List.mem_cons_of_mem _ h1
          · simp at h1; subst h1; exact List.mem_cons_self _ _
        · have h1 : (N ++ [x[m]] ++ (t ++ [h])).Perm ((N ++ h :: t) ++ [x[m]]) := by
            simp only [List.append_assoc]
            apply List.Perm.append_left
            simp only [List.singleton_append, List.cons_append]
            have : (x[m] :: (t ++ [h])).Perm (x[m] :: h :: t) :=
              List.Perm.cons _ (List.perm_append_singleton h t)
            exact this.trans ((List.perm_append_singleton x[m] (h :: t)).symm)
          exact h1.trans hpm
    · rw [if_neg hnan]
      refine ⟨N, M ++ [x[m]], ?_, hN, ?_, ?_⟩
      · simp
      · intro e he
        rcases List.mem_append.1 he with h | h
        · exact hM e h
        · simp at h; subst h; simpa using hnan
      · rw [← List.append_assoc]
        exact hpm

/-- The NaN loop leaves `x` as the NaNs followed by the other values, and `nans` as the number
of NaNs. -/
theorem nanFront_spec (isNaN : Nat → Bool) (x : List Nat) :
    ∃ N M, nanFront isNaN x = (N ++ M, N.length) ∧
      (∀ e ∈ N, isNaN e = true) ∧ (∀ e ∈ M, isNaN e = false) ∧ (N ++ M).Perm x := by
  obtain ⟨N, M, hf, hN, hM, hp⟩ := nanFront_loop isNaN x x.length (Nat.le_refl _)
  refine ⟨N, M, ?_, hN, hM, ?_⟩
  · unfold nanFront; rw [hf]; simp
  · simpa using hp

theorem floatFlip32_eq (x : Nat) (hx : x < 2 ^ 32) :
    zfloat32.floatFlip x = if 2 ^ 31 ≤ x then 2 ^ 32 - 1 - x else x + 2 ^ 31 := by
  unfold zfloat32.floatFlip
  have e1 : (0x80000000 : Nat) = 2 ^ 31 := by norm_num
  have e2 : (0xFFFFFFFF : Nat) = 2 ^ 32 - 1 := by norm_num
  rw [e1, e2]
  by_cases h : 2 ^ 31 ≤ x
  · rw [if_pos ((and_two_pow_eq_iff 31 x hx).2 h), if_pos h, xor_ones 32 x hx]
  · rw [if_neg (fun h' => h ((and_two_pow_eq_iff 31 x hx).1 h')), if_neg h,
      xor_two_pow 31 x (by omega)]

theorem floatFlip64_eq (x : Nat) (hx : x < 2 ^ 64) :
    zfloat64.floatFlip x = if 2 ^ 63 ≤ x then 2 ^ 64 - 1 - x else x + 2 ^ 63 := by
  unfold zfloat64.floatFlip
  have e1 : (0x8000000000000000 : Nat) = 2 ^ 63 := by norm_num
  have e2 : (0xFFFFFFFFFFFFFFFF : Nat) = 2 ^ 64 - 1 := by norm_num
  rw [e1, e2]
  by_cases h : 2 ^ 63 ≤ x
  · rw [if_pos ((and_two_pow_eq_iff 63 x hx).2 h), if_pos h, xor_ones 64 x hx]
  · rw [if_neg (fun h' => h ((and_two_pow_eq_iff 63 x hx).1 h')), if_neg h,
      xor_two_pow 63 x (by omega)]

theorem ieee_ge_trans (w inf a b c : Nat) (h1 : ieee.ge w inf b a = true)
    (h2 : ieee.ge w inf c b = true) : ieee.ge w inf c a = true := by
  simp only [ieee.ge, Bool.and_eq_true, Bool.not_eq_true', decide_eq_true_eq] at *
  exact ⟨⟨h2.1.1, h1.1.2⟩, le_trans h1.2 h2.2⟩

theorem zfloat32_engine_sound :
    zfloat32.engine.Sound (fun e => e < 2 ^ 32 ∧ zfloat32.IsNaN e = false) zfloat32.floatFlip
      (fun a b => ieee.ge 32 0x7F800000 b a = true) where
  bits := ⟨2, rfl⟩
  key_lt := fun k e => Nat.mod_lt _ (by norm_num)
  u_lt := by
    intro e he
    rw [floatFlip32_eq e he.1]
    show (if 2 ^ 31 ≤ e then 2 ^ 32 - 1 - e else e + 2 ^ 31) < 2 ^ 32
    split <;> omega
  digit := by
    intro i hi e _
    have hi' : i < 4 := hi
    simp only [Engine.rank, zfloat32.engine, Bool.false_and, Bool.false_eq_true, if_false,
      zfloat32.Float32bits]
    apply unsignedKey_eq
    simp only [radix]
    omega
  ge_trans := fun a b c h1 h2 => ieee_ge_trans 32 _ a b c h1 h2
  ge_sound := fun a b _ _ h => h
  u_sound := by
    intro a b ha hb h
    have h1 := ha.2
    have h2 := hb.2
    rw [floatFlip32_eq a ha.1, floatFlip32_eq b hb.1] at h
    simp only [zfloat32.IsNaN] at h1 h2
    simp only [ieee.ge, h1, h2, Bool.not_false, Bool.true_and, decide_eq_true_eq, ieee.ord]
    have ha1 := ha.1
    have hb1 := hb.1
    norm_num at h ha1 hb1 ⊢
    split at h <;> split at h <;> split <;> split <;> omega

theorem zfloat64_engine_sound :
    zfloat64.engine.Sound (fun e => e < 2 ^ 64 ∧ zfloat64.IsNaN e = false) zfloat64.floatFlip
      (fun a b => ieee.ge 64 0x7FF0000000000000 b a = true) where
  bits := ⟨4, rfl⟩
  key_lt := fun k e => Nat.mod_lt _ (by norm_num)
  u_lt := by
    intro e he
    rw [floatFlip64_eq e he.1]
    show (if 2 ^ 63 ≤ e then 2 ^ 64 - 1 - e else e + 2 ^ 63) < 2 ^ 64
    split <;> omega
  digit := by
    intro i hi e _
    have hi' : i < 8 := hi
    simp only [Engine.rank, zfloat64.engine, Bool.false_and, Bool.false_eq_true, if_false,
      zfloat64.Float64bits]
    apply unsignedKey_eq
    simp only [radix]
    omega
  ge_trans := fun a b c h1 h2 => ieee_ge_trans 64 _ a b c h1 h2
  ge_sound := fun a b _ _ h => h
  u_sound := by
    intro a b ha hb h
    have h1 := ha.2
    have h2 := hb.2
    rw [floatFlip64_eq a ha.1, floatFlip64_eq b hb.1] at h
    simp only [zfloat64.IsNaN] at h1 h2
    simp only [ieee.ge, h1, h2, Bool.not_false, Bool.true_and, decide_eq_true_eq, ieee.ord]
    have ha1 := ha.1
    have hb1 := hb.1
    norm_num at h ha1 hb1 ⊢
    split at h <;> split at h <;> split <;> split <;> omega

/-- The float `SortBYOB` after its guards: the NaNs stay up front, the other values follow in
the order `R`. -/
theorem nan_radixSort_spec (E : Engine Nat) (isNaN : Nat → Bool) (lim : Nat) (u : Nat → Nat)
    (R : Nat → Nat → Prop) (hE : E.Sound (fun e => e < lim ∧ isNaN e = false) u R)
    (x buffer : List Nat) (hlen : x.length ≤ buffer.length) (hx : ∀ e ∈ x, e < lim) :
    ∃ out N T,
      radixSort E ((nanFront isNaN x).1.take (nanFront isNaN x).2)
        ((nanFront isNaN x).1.drop (nanFront isNaN x).2) buffer = .ok out ∧
      out.x = N ++ T ∧ N.length = x.countP isNaN ∧ (∀ e ∈ N, isNaN e = true) ∧
      T.Perm (x.filter (fun e => !isNaN e)) ∧ T.Pairwise R ∧ out.x.Perm x ∧
      out.buffer.length = buffer.length := by
  obtain ⟨N, M, hq, hN, hM, hp⟩ := nanFront_spec isNaN x
  have hlen2 : N.length + M.length = x.length := by
    have := hp.length_eq
    simpa using this
  have hfN : N.filter (fun e => !isNaN e) = [] := by
    rw [List.filter_eq_nil_iff]
    intro e he
    simp [hN e he]
  have hfM : M.filter (fun e => !isNaN e) = M := by
    rw [List.filter_eq_self]
    intro e he
    simp [hM e he]
  have hMf : M.Perm (x.filter (fun e => !isNaN e)) := by
    have := hp.filter (fun e => !isNaN e)
    rwa [List.filter_append, hfN, hfM, List.nil_append] at this
  have hcN : N.countP isNaN = N.length := List.countP_eq_length.2 hN
  have hcM : M.countP isNaN = 0 := by
    rw [List.countP_eq_zero]
    intro e he
    simp [hM e he]
  have hcnt : N.length = x.countP isNaN := by
    have := hp.countP_eq isNaN
    rw [List.countP_append, hcN, hcM] at this
    omega
  obtain ⟨out, T, ho, hox, hT, hTs, hb⟩ := radixSort_spec E _ u R hE N M buffer (by omega)
    (fun e he => ⟨hx e (hp.subset (List.mem_append_right _ he)), hM e he⟩)
  refine ⟨out, N, T, ?_, hox, hcnt, hN, hT.trans hMf, hTs, ?_, hb⟩
  · rw [hq]
    simp only [List.take_left', List.drop_left']
    exact ho
  · rw [hox]
    exact (List.Perm.append_left N hT).trans hp

theorem zfloat32_SortBYOB_spec (x buffer : List Nat) (hlen : x.length ≤ buffer.length)
    (hx : ∀ e ∈ x, e < 2 ^ 32) :
    ∃ out N T, zfloat32.SortBYOB x buffer = .ok out ∧ out.x = N ++ T ∧
      N.length = x.countP zfloat32.IsNaN ∧ (∀ e ∈ N, zfloat32.IsNaN e = true) ∧
      T.Perm (x.filter (fun e => !zfloat32.IsNaN e)) ∧
      T.Pairwise (fun a b => ieee.ge 32 0x7F800000 b a = true) ∧ out.x.Perm x ∧
      out.buffer.length = buffer.length := by
  unfold zfloat32.SortBYOB
  rw [if_neg (by omega)]
  by_cases h2 : x.length < 2
  · rw [if_pos h2]
    match x, h2, hx with
    | [], _, _ => exact ⟨_, [], [], rfl, rfl, rfl, by simp, by simp, by simp, List.Perm.refl _, rfl⟩
    | [a], _, _ =>
      by_cases ha : zfloat32.IsNaN a = true
      · exact ⟨_, [a], [], rfl, rfl, by simp [ha], by simp [ha], by simp [ha], by simp,
          List.Perm.refl _, rfl⟩
      · exact ⟨_, [], [a], rfl, rfl, by simp [ha], by simp, by simp [ha], by simp,
          List.Perm.refl _, rfl⟩
  · rw [if_neg h2]
    exact nan_radixSort_spec _ _ _ _ _ zfloat32_engine_sound x buffer hlen hx

theorem zfloat64_SortBYOB_spec (x buffer : List Nat) (hlen : x.length ≤ buffer.length)
    (hx : ∀ e ∈ x, e < 2 ^ 64) :
    ∃ out N T, zfloat64.SortBYOB x buffer = .ok out ∧ out.x = N ++ T ∧
      N.length = x.countP zfloat64.IsNaN ∧ (∀ e ∈ N, zfloat64.IsNaN e = true) ∧
      T.Perm (x.filter (fun e => !zfloat64.IsNaN e)) ∧
      T.Pairwise (fun a b => ieee.ge 64 0x7FF0000000000000 b a = true) ∧ out.x.Perm x ∧
      out.buffer.length = buffer.length := by
  unfold zfloat64.SortBYOB
  rw [if_neg (by omega)]
  by_cases h2 : x.length < 2
  · rw [if_pos h2]
    match x, h2, hx with
    | [], _, _ => exact ⟨_, [], [], rfl, rfl, rfl, by simp, by simp, by simp, List.Perm.refl _, rfl⟩
    | [a], _, _ =>
      by_cases ha : zfloat64.IsNaN a = true
      · exact ⟨_, [a], [], rfl, rfl, by simp [ha], by simp [ha], by simp [ha], by simp,
          List.Perm.refl _, rfl⟩
      · exact ⟨_, [], [a], rfl, rfl, by simp [ha], by simp, by simp [ha], by simp,
          List.Perm.refl _, rfl⟩
  · rw [if_neg h2]
    exact nan_radixSort_spec _ _ _ _ _ zfloat64_engine_sound x buffer hlen hx

/-- The only arrangement of `-0.0`, `3.5`, `-2.0` (as `float32`) in non-decreasing order. -/
theorem float32_example_order (T : List Nat)
    (hT : T.Perm [0x80000000, 0x40600000, 0xC0000000])
    (hs : T.Pairwise (fun a b => ieee.ge 32 0x7F800000 b a = true)) :
    T = [0xC0000000, 0x80000000, 0x40600000] := by
  have hl := hT.length_eq
  match T, hl with
  | [a, b, c], _ =>
    have ha : a ∈ [0x80000000, 0x40600000, 0xC0000000] := hT.subset (by simp)
    have hb : b ∈ [0x80000000, 0x40600000, 0xC0000000] := hT.subset (by simp)
    have hc : c ∈ [0x80000000, 0x40600000, 0xC0000000] := hT.subset (by simp)
    have hnd : [a, b, c].Nodup := hT.nodup_iff.2 (by decide)
    simp only [List.mem_cons, List.mem_singleton, List.not_mem_nil, or_false] at ha hb hc
    rcases ha with rfl | rfl | rfl <;> rcases hb with rfl | rfl | rfl <;>
      rcases hc with rfl | rfl | rfl <;>
      first
        | rfl
        | exact absurd hnd (by decide)
        | exact absurd hs (by decide)

/-! ## The fallback `sort.Sort` on a strict total order -/

theorem sink_perm {α : Type} (less : α → α → Bool) (e : α) (l : List α) :
    (gosort.sink less e l).Perm (e :: l) := by
  induction l with
  | nil => exact List.Perm.refl _
  | cons y ys ih =>
    unfold gosort.sink
    split
    · exact (List.Perm.cons y ih).trans (List.Perm.swap e y ys)
    · exact List.Perm.refl _

theorem sink_sorted {α : Type} [LinearOrder α] (e : α) (l : List α)
    (h : l.Pairwise (fun a b => b ≤ a)) :
    (gosort.sink (fun a b => decide (a < b)) e l).Pairwise (fun a b => b ≤ a) := by
  induction l with
  | nil => exact List.pairwise_singleton _ _
  | cons y ys ih =>
    unfold gosort.sink
    rw [List.pairwise_cons] at h
    by_cases hlt : e < y
    · rw [if_pos (by simpa using hlt), List.pairwise_cons]
      refine ⟨fun b hb => ?_, ih h.2⟩
      rcases List.mem_cons.1 ((sink_perm _ e ys).subset hb) with hb1 | hb1
      · subst hb1; exact le_of_lt hlt
      · exact h.1 b hb1
    · rw [if_neg (by simpa using hlt), List.pairwise_cons]
      refine ⟨fun b hb => ?_, List.pairwise_cons.2 h⟩
      have hye : y ≤ e := not_lt.1 hlt
      rcases List.mem_cons.1 hb with hb1 | hb1
      · subst hb1; exact hye
      · exact le_trans (h.1 b hb1) hye

theorem insertion_foldl {α : Type} [LinearOrder α] (data acc : List α)
    (h : acc.Pairwise (fun a b => b ≤ a)) :
    (data.foldl (fun sortedRev e => gosort.sink (fun a b => decide (a < b)) e sortedRev)
        acc).Pairwise (fun a b => b ≤ a) ∧
      (data.foldl (fun sortedRev e => gosort.sink (fun a b => decide (a < b)) e sortedRev)
        acc).Perm (data.reverse ++ acc) := by
  induction data generalizing acc with
  | nil => exact ⟨h, List.Perm.refl _⟩
  | cons x xs ih =>
    obtain ⟨h1, h2⟩ := ih (gosort.sink (fun a b => decide (a < b)) x acc) (sink_sorted x acc h)
    refine ⟨h1, h2.trans ?_⟩
    rw [List.reverse_cons, List.append_assoc]
    exact List.Perm.append_left _ (sink_perm _ x acc)

/-- On a strict total order the fallback returns the elements in non-decreasing order. -/
theorem gosort_Sort_spec {α : Type} [LinearOrder α] (data : List α) :
    (gosort.Sort_ (fun a b => decide (a < b)) data).Perm data ∧
      (gosort.Sort_ (fun a b => decide (a < b)) data).Pairwise (fun a b => a ≤ b) := by
  obtain ⟨h1, h2⟩ := insertion_foldl data [] List.Pairwise.nil
  unfold gosort.Sort_ gosort.insertionSort
  refine ⟨(List.reverse_perm _).trans (h2.trans ?_), List.pairwise_reverse.2 h1⟩
  rw [List.append_nil]
  exact List.reverse_perm _

/-! ## The per-kind `Sort` and `SortCopy` -/

theorem copy_replicate {α : Type} (zero : α) (x : List α) :
    copy (List.replicate x.length zero) x = x := by
  apply copy_eq_of_length
  exact List.length_replicate _ _

/-- The common part of the per-kind `Sort`: when the fallback and `SortBYOB` both return a
permutation in the order `R`, so does `Sort`. -/
theorem sortWith_spec {α : Type} (MinSize : Nat) (fallback : List α → List α)
    (byob : List α → List α → Except (Panic α) (Outcome α)) (zero : α) (x : List α)
    (R : α → α → Prop) (hf : (fallback x).Perm x ∧ (fallback x).Pairwise R)
    (hb : ∀ buffer, x.length ≤ buffer.length →
      ∃ out, byob x buffer = .ok out ∧ out.x.Perm x ∧ out.x.Pairwise R) :
    ∃ y, sortWith MinSize fallback byob zero x = .ok y ∧ y.Perm x ∧ y.Pairwise R := by
  unfold sortWith
  by_cases h : x.length < MinSize
  · rw [if_pos h]; exact ⟨_, rfl, hf.1, hf.2⟩
  · rw [if_neg h]
    obtain ⟨out, ho, hp, hs⟩ := hb (List.replicate x.length zero) (by simp)
    rw [ho]
    exact ⟨_, rfl, hp, hs⟩

theorem sortCopyWith_spec {α : Type} (sortFn : List α → Except (Panic α) (List α)) (zero : α)
    (x : List α) (R : α → α → Prop)
    (hs : ∃ y, sortFn x = .ok y ∧ y.Perm x ∧ y.Pairwise R) :
    ∃ y, sortCopyWith sortFn zero x = .ok (x, y) ∧ y.length = x.length ∧ y.Perm x ∧
      y.Pairwise R := by
  unfold sortCopyWith
  rw [copy_replicate]
  obtain ⟨y, hy, hp, hr⟩ := hs
  rw [hy]
  exact ⟨y, rfl, hp.length_eq, hp, hr⟩

theorem zuint64_Sort_spec (x : List Nat) (hx : ∀ e ∈ x, e < 2 ^ 64) :
    ∃ y, zuint64.Sort_ x = .ok y ∧ y.Perm x ∧ y.Pairwise (fun a b => a ≤ b) :=
  sortWith_spec _ _ _ _ x _ (gosort_Sort_spec x) (fun buffer hl => by
    obtain ⟨out, h1, h2, h3, _⟩ := zuint64_SortBYOB_spec x buffer hl hx
    exact ⟨out, h1, h2, h3⟩)

theorem zuint32_Sort_spec (x : List Nat) (hx : ∀ e ∈ x, e < 2 ^ 32) :
    ∃ y, zuint32.Sort_ x = .ok y ∧ y.Perm x ∧ y.Pairwise (fun a b => a ≤ b) :=
  sortWith_spec _ _ _ _ x _ (gosort_Sort_spec x) (fun buffer hl => by
    obtain ⟨out, h1, h2, h3, _⟩ := zuint32_SortBYOB_spec x buffer hl hx
    exact ⟨out, h1, h2, h3⟩)

theorem zuint_Sort_spec (uintSize : Nat) (h : uintSize = 32 ∨ uintSize = 64) (x : List Nat)
    (hx : ∀ e ∈ x, e < 2 ^ uintSize) :
    ∃ y, zuint.Sort_ uintSize x = .ok y ∧ y.Perm x ∧ y.Pairwise (fun a b => a ≤ b) :=
  sortWith_spec _ _ _ _ x _ (gosort_Sort_spec x) (fun buffer hl => by
    obtain ⟨out, h1, h2, h3, _⟩ := zuint_SortBYOB_spec uintSize h x buffer hl hx
    exact ⟨out, h1, h2, h3⟩)

theorem zint32_Sort_spec (x : List Int) (hx : ∀ e ∈ x, -2 ^ 31 ≤ e ∧ e < 2 ^ 31) :
    ∃ y, zint32.Sort_ x = .ok y ∧ y.Perm x ∧ y.Pairwise (fun a b => a ≤ b) :=
  sortWith_spec _ _ _ _ x _ (gosort_Sort_spec x) (fun buffer hl => by
    obtain ⟨out, h1, h2, h3, _⟩ := zint32_SortBYOB_spec x buffer hl hx
    exact ⟨out, h1, h2, h3⟩)

theorem zint64_Sort_spec (x : List Int) (hx : ∀ e ∈ x, -2 ^ 63 ≤ e ∧ e < 2 ^ 63) :
    ∃ y, zint64.Sort_ x = .ok y ∧ y.Perm x ∧ y.Pairwise (fun a b => a ≤ b) :=
  sortWith_spec _ _ _ _ x _ (gosort_Sort_spec x) (fun buffer hl => by
    obtain ⟨out, h1, h2, h3, _⟩ := zint64_SortBYOB_spec x buffer hl hx
    exact ⟨out, h1, h2, h3⟩)

theorem zint_Sort_spec (uintSize : Nat) (h : uintSize = 32 ∨ uintSize = 64) (x : List Int)
    (hx : ∀ e ∈ x, -2 ^ (uintSize - 1) ≤ e ∧ e < 2 ^ (uintSize - 1)) :
    ∃ y, zint.Sort_ uintSize x = .ok y ∧ y.Perm x ∧ y.Pairwise (fun a b => a ≤ b) :=
  sortWith_spec _ _ _ _ x _ (gosort_Sort_spec x) (fun buffer hl => by
    obtain ⟨out, h1, h2, h3, _⟩ := zint_SortBYOB_spec uintSize h x buffer hl hx
    exact ⟨out, h1, h2, h3⟩)

/-! ## The panic of `SortBYOB` -/

/-- A `SortBYOB` that starts with the guard and returns normally on a long enough buffer panics
in exactly one way. -/
theorem panic_iff_short {α : Type} (S : List α → List α → Except (Panic α) (Outcome α))
    (x buffer : List α)
    (hguard : x.length > buffer.length →
      S x buffer = .error { msg := "Buffer too small", x := x, buffer := buffer })
    (hok : x.length ≤ buffer.length → ∃ out, S x buffer = .ok out) :
    ((∃ p, S x buffer = .error p) ↔ buffer.length < x.length) ∧
      (∀ p, S x buffer = .error p → p.msg = "Buffer too small" ∧ p.x = x) := by
  constructor
  · constructor
    · rintro ⟨p, hp⟩
      by_contra hlen
      obtain ⟨out, ho⟩ := hok (by omega)
      rw [ho] at hp
      cases hp
    · intro hlen
      exact ⟨_, hguard hlen⟩
  · intro p hp
    by_cases hlen : x.length > buffer.length
    · rw [hguard hlen] at hp
      cases hp
      exact ⟨rfl, rfl⟩
    · obtain ⟨out, ho⟩ := hok (by omega)
      rw [ho] at hp
      cases hp

theorem Engine.SortBYOB_guard {α : Type} (E : Engine α) (x buffer : List α)
    (h : x.length > buffer.length) :
    E.SortBYOB x buffer = .error { msg := "Buffer too small", x := x, buffer := buffer } := by
  unfold Engine.SortBYOB
  rw [if_pos h]

theorem zfloat32_SortBYOB_guard (x buffer : List Nat) (h : x.length > buffer.length) :
    zfloat32.SortBYOB x buffer =
      .error { msg := "Buffer too small", x := x, buffer := buffer } := by
  unfold zfloat32.SortBYOB
  rw [if_pos h]

theorem zfloat64_SortBYOB_guard (x buffer : List Nat) (h : x.length > buffer.length) :
    zfloat64.SortBYOB x buffer =
      .error { msg := "Buffer too small", x := x, buffer := buffer } := by
  unfold zfloat64.SortBYOB
  rw [if_pos h]

theorem dispatch_ok {α : Type} (wrap : List α → Value) (r : Except (Panic α) (List α))
    (y : List α) (h : r = .ok y) : dispatch wrap r = .ok (wrap y, none) := by
  subst h; rfl

theorem dispatch_no_error {α : Type} (wrap : List α → Value) (r : Except (Panic α) (List α))
    (v : Value) (e : String) : dispatch wrap r ≠ .ok (v, some e) := by
  cases r with
  | error p => intro h; cases h
  | ok y => intro h; cases h

/-! ## Sorted input, and input that is never found sorted -/

/-- A list in non-decreasing order that is a permutation of another such list is that list. -/
theorem eq_of_perm_of_sorted_le {α : Type} [LinearOrder α] {l1 l2 : List α} (hp : l1.Perm l2)
    (h1 : l1.Pairwise (fun a b => a ≤ b)) (h2 : l2.Pairwise (fun a b => a ≤ b)) : l1 = l2 :=
  List.eq_of_perm_of_sorted hp h1 h2

/-- A `SortBYOB` that returns a sorted permutation leaves sorted input as it is, and a second
call leaves the result of the first as it is. -/
theorem idempotent_of_spec {α : Type} [LinearOrder α]
    (S : List α → List α → Except (Panic α) (Outcome α)) (x buffer : List α)
    (hspec : ∀ x1 b1, x1.Perm x → x1.length ≤ b1.length →
      ∃ out, S x1 b1 = .ok out ∧ out.x.Perm x1 ∧ out.x.Pairwise (fun a b => a ≤ b) ∧
        out.buffer.length = b1.length)
    (hlen : x.length ≤ buffer.length) :
    ∃ out, S x buffer = .ok out ∧ (x.Pairwise (fun a b => a ≤ b) → out.x = x) ∧
      ∃ out2, S out.x out.buffer = .ok out2 ∧ out2.x = out.x := by
  obtain ⟨out, ho, hp, hs, hb⟩ := hspec x buffer (List.Perm.refl _) hlen
  obtain ⟨out2, ho2, hp2, hs2, _⟩ := hspec out.x out.buffer hp (by rw [hb, hp.length_eq]; exact hlen)
  exact ⟨out, ho, fun hx => eq_of_perm_of_sorted_le hp hs hx, out2, ho2,
    eq_of_perm_of_sorted_le hp2 hs2 hs⟩

/-- A pass whose first loop finds `from` sorted returns at once. -/
theorem passes_short_circuit {α : Type} (E : Engine α) (n k : Nat) (frm dst : List α)
    (offset : List Nat) (h : (scan E k frm).sorted = true) :
    passes E (n + 1) k frm dst offset =
      .ok { frm := frm, dst := if (k / radix) % 2 = 1 then copy dst frm else dst,
            swaps := k / radix } := by
  simp only [passes, h, if_true]

/-- When the first loop of the first pass finds `x` sorted, nothing is written. -/
theorem radixSort_first_pass {α : Type} (E : Engine α) (head frm buffer : List α)
    (hn : 0 < E.bitSize / radix) (h : (scan E 0 frm).sorted = true) :
    radixSort E head frm buffer =
      .ok { x := head ++ frm, buffer := buffer, scatters := 0 } := by
  obtain ⟨n, hn1⟩ : ∃ n, E.bitSize / radix = n + 1 := ⟨E.bitSize / radix - 1, by omega⟩
  unfold radixSort
  rw [hn1, passes_short_circuit E n 0 frm _ _ h]
  simp [List.take_append_drop]

/-- The first loop finds an order-respecting list of numbers sorted when `prev` starts at 0. -/
theorem scan_sorted_nat {E : Engine Nat} (hge : E.ge = fun elem prev => decide (elem ≥ prev))
    (h0 : E.prev0 = 0) (hs : E.sorted0 = true) (k : Nat) (x : List Nat)
    (hx : x.Pairwise (fun a b => a ≤ b)) : (scan E k x).sorted = true := by
  rw [scan_sorted, hs, h0, hge]
  refine ⟨rfl, ?_⟩
  have : List.Chain (fun a b : Nat => a ≤ b) 0 x :=
    List.chain_iff_pairwise.2 (List.pairwise_cons.2 ⟨fun a _ => Nat.zero_le a, hx⟩)
  simpa using this

/-- If some element fails the test `elem >= prev` against the initial `prev`, no arrangement of
the elements is found sorted by the first loop. -/
theorem scan_not_sorted {α : Type} (E : Engine α)
    (htrans : ∀ a b c, E.ge b a = true → E.ge c b = true → E.ge c a = true)
    (k : Nat) (frm : List α) (e : α) (he : e ∈ frm) (hbad : E.ge e E.prev0 = false) :
    (scan E k frm).sorted = false := by
  cases hs : (scan E k frm).sorted with
  | false => rfl
  | true =>
    exfalso
    have hchain := ((scan_sorted E k frm).1 hs).2
    haveI : IsTrans α (fun a b => E.ge b a = true) := ⟨fun a b c => htrans a b c⟩
    have hpw := List.chain_iff_pairwise.1 hchain
    have := (List.pairwise_cons.1 hpw).1 e he
    rw [hbad] at this
    cases this

/-- When no arrangement of the elements is found sorted, the loop runs every pass, and both
slices end up holding the elements. -/
theorem passes_never_sorted {α : Type} (E : Engine α) (hkey : ∀ k e, E.key k e < 256)
    (x0 : List α)
    (hnever : ∀ k frm, frm.Perm x0 → (scan E k frm).sorted = false) (n : Nat) :
    ∀ (i : Nat) (frm dst : List α) (offset : List Nat), offset.length = 256 → frm.Perm x0 →
      dst.length = frm.length →
      ∃ r, passes E n (radix * i) frm dst offset = .ok r ∧ r.swaps = i + n ∧
        r.frm.Perm x0 ∧ (0 < n → r.dst.Perm x0) := by
  induction n with
  | zero =>
    intro i frm dst offset _ hperm _
    have hsw : radix * i / radix = i := Nat.mul_div_cancel_left _ (by decide)
    exact ⟨_, rfl, by simp [hsw], hperm, fun h => absurd h (by omega)⟩
  | succ n ih =>
    intro i frm dst offset hoffl hperm hlen
    have hs := hnever (radix * i) frm hperm
    have hinj : ∀ a b, E.rank (radix * i) (E.key (radix * i) a) =
        E.rank (radix * i) (E.key (radix * i) b) →
        E.key (radix * i) a = E.key (radix * i) b :=
      fun a b h => E.rank_inj _ _ _ (hkey _ _) (hkey _ _) h
    obtain ⟨hpl, hpv⟩ := pass_offsets E (radix * i) frm offset hoffl (hkey _)
    obtain ⟨offset2, dst1, hsc, hol2, hst⟩ := scatter_stable E (radix * i) frm dst
      (if (E.signed && radix * i == E.bitSize - radix) = true
        then signedOffsets (scan E (radix * i) frm).counts offset
        else plainOffsets (scan E (radix * i) frm).counts offset) hinj (hkey _) hlen hpl
      (fun e _ => hpv _ (hkey _ _))
    obtain ⟨r, hr, h1, h2, h3⟩ := ih (i + 1) dst1 frm offset2 hol2 (hst.perm.trans hperm)
      hst.1.symm
    refine ⟨r, ?_, by omega, h2, fun _ => ?_⟩
    · simp only [passes, hs, Bool.false_eq_true, if_false, hsc]
      exact hr
    · by_cases hn : 0 < n
      · exact h3 hn
      · have hn0 : n = 0 := by omega
        subst hn0
        have hr0 : passes E 0 (radix * (i + 1)) dst1 frm offset2 = .ok r := hr
        simp only [passes, Except.ok.injEq] at hr0
        rw [← hr0]
        exact hperm

/-- An engine that never finds the elements sorted runs all its passes, and leaves the
elements in the buffer too. -/
theorem Engine.SortBYOB_never_sorted {α : Type} (E : Engine α)
    (hkey : ∀ k e, E.key k e < 256) (x buffer : List α) (h2 : 2 ≤ x.length)
    (hlen : x.length ≤ buffer.length) (hpos : 0 < E.bitSize / radix)
    (hnever : ∀ k frm, frm.Perm x → (scan E k frm).sorted = false) :
    ∃ out, E.SortBYOB x buffer = .ok out ∧ out.scatters = E.bitSize / radix ∧
      (out.buffer.take x.length).Perm x := by
  obtain ⟨r, hr, hsw, hf, hd⟩ := passes_never_sorted E hkey x hnever (E.bitSize / radix) 0 x
    (buffer.take x.length) (List.replicate 256 0) (List.length_replicate _ _)
    (List.Perm.refl _) (by simp [hlen])
  have hr0 : passes E (E.bitSize / radix) 0 x (buffer.take x.length)
      (List.replicate 256 0) = .ok r := hr
  have hdp := hd hpos
  unfold Engine.SortBYOB
  rw [if_neg (by omega), if_neg (by omega)]
  simp only [radixSort, hr0]
  refine ⟨_, rfl, by simpa using hsw, ?_⟩
  simp only
  have hl : (if r.swaps % 2 = 0 then r.dst else r.frm).length = x.length := by
    split
    · exact hdp.length_eq
    · exact hf.length_eq
  rw [← hl, List.take_left]
  split
  · exact hdp
  · exact hf

/-! ## The stateful sorter -/

/-- Without overflow of `5 * reqLen`, `allocSize` is `reqLen` for a zero capacity and
`5 * reqLen / 4` otherwise. -/
theorem allocSize_eq (uintSize : Nat) (h : uintSize = 32 ∨ uintSize = 64) (c n : Int)
    (hn : 0 ≤ n) (hfit : c = 0 ∨ 5 * n < 2 ^ (uintSize - 1)) :
    allocSize uintSize c n = if c = 0 then n else 5 * n / 4 := by
  unfold allocSize
  by_cases hc : c = 0
  · rw [if_pos hc, if_pos hc]
  · rw [if_neg hc, if_neg hc]
    have hf : 5 * n < 2 ^ (uintSize - 1) := by
      rcases hfit with h1 | h1
      · exact absurd h1 hc
      · exact h1
    have hw : wrapInt uintSize (5 * n) = 5 * n := by
      unfold wrapInt
      rcases h with h | h <;> subst h <;> norm_num at hf ⊢ <;> omega
    rw [hw, Int.tdiv_eq_ediv (by omega) (by omega)]

theorem allocSize_ge (uintSize : Nat) (h : uintSize = 32 ∨ uintSize = 64) (c n : Int)
    (hn : 0 ≤ n) (hfit : c = 0 ∨ 5 * n < 2 ^ (uintSize - 1)) :
    n ≤ allocSize uintSize c n := by
  rw [allocSize_eq uintSize h c n hn hfit]
  split <;> omega

/-- One case of `prepBuffers`, when `5 * len(x)` does not overflow (or the buffer is still
nil): the buffer is kept when it is long enough, and is otherwise replaced by one of
`allocSize` elements, which is long enough. -/
theorem prepBuffer_spec {α : Type} (uintSize : Nat) (h : uintSize = 32 ∨ uintSize = 64)
    (zero : α) (buf x : List α)
    (hfit : buf.length = 0 ∨ 5 * (x.length : Int) < 2 ^ (uintSize - 1)) :
    ∃ b, prepBuffer uintSize zero buf x = .ok (b, if buf.length < x.length then 1 else 0) ∧
      b.length = (if buf.length < x.length
        then (allocSize uintSize (buf.length : Int) (x.length : Int)).toNat else buf.length) ∧
      buf.length ≤ b.length ∧ x.length ≤ b.length ∧ (¬ buf.length < x.length → b = buf) := by
  unfold prepBuffer
  by_cases hlt : buf.length < x.length
  · have hfit1 : (buf.length : Int) = 0 ∨ 5 * (x.length : Int) < 2 ^ (uintSize - 1) := by
      rcases hfit with h1 | h1
      · left; exact_mod_cast h1
      · right; exact h1
    have hge := allocSize_ge uintSize h (buf.length : Int) (x.length : Int) (by omega) hfit1
    have hnn : ¬ allocSize uintSize (buf.length : Int) (x.length : Int) < 0 := by omega
    simp only [if_pos hlt, make, if_neg hnn]
    refine ⟨_, rfl, List.length_replicate _ _, ?_, ?_, fun hc => absurd hlt hc⟩
    · rw [List.length_replicate]; omega
    · rw [List.length_replicate]; omega
  · simp only [if_neg hlt]
    exact ⟨buf, rfl, rfl, Nat.le_refl _, by omega, fun _ => rfl⟩

/-- One case of the switch of `zSorter.Sort`, on a buffer that is long enough. -/
theorem sortInto_spec {α : Type} (S : List α → List α → Except (Panic α) (Outcome α))
    (x buf : List α) (hlen : x.length ≤ buf.length)
    (hS : ∀ b, x.length ≤ b.length →
      ∃ out, S x b = .ok out ∧ out.x.Perm x ∧ out.buffer.length = b.length) :
    ∃ x1 b1, sortInto S x buf = .ok (x1, b1) ∧ x1.Perm x ∧ b1.length = buf.length := by
  obtain ⟨out, ho, hp, hb⟩ := hS (buf.take x.length) (by simp [hlen])
  unfold sortInto
  rw [if_neg (by omega), ho]
  refine ⟨_, _, rfl, hp, ?_⟩
  simp only [List.length_append, hb, List.length_take, List.length_drop]
  omega

/-- `prepBuffer` then `sortInto` for one kind. -/
theorem prep_sort_spec {α : Type} (uintSize : Nat) (h : uintSize = 32 ∨ uintSize = 64)
    (zero : α) (S : List α → List α → Except (Panic α) (Outcome α)) (buf x : List α)
    (hfit : buf.length = 0 ∨ 5 * (x.length : Int) < 2 ^ (uintSize - 1))
    (hS : ∀ b, x.length ≤ b.length →
      ∃ out, S x b = .ok out ∧ out.x.Perm x ∧ out.buffer.length = b.length) :
    ∃ b x1 b1,
      prepBuffer uintSize zero buf x = .ok (b, if buf.length < x.length then 1 else 0) ∧
      sortInto S x b = .ok (x1, b1) ∧ x1.Perm x ∧
      b1.length = (if buf.length < x.length
        then (allocSize uintSize (buf.length : Int) (x.length : Int)).toNat else buf.length) ∧
      buf.length ≤ b1.length ∧ x.length ≤ b1.length := by
  obtain ⟨b, hb, hbl, hb1, hb2, -⟩ := prepBuffer_spec uintSize h zero buf x hfit
  obtain ⟨x1, b1, hs, hp, hl⟩ := sortInto_spec S x b hb2 hS
  exact ⟨b, x1, b1, hb, hs, hp, by rw [hl, hbl], by omega, by omega⟩

/-- The specification of `zSorter.Sort` on a slice of a numeric kind, when `5 * len(x)` does
not overflow (or the buffer of the kind is still nil): it returns no error, `x` keeps its
kind and length, the buffer of the kind keeps its capacity when that is at least `len(x)` and
gets `allocSize` elements otherwise, and no other buffer changes. -/
theorem zSorter_Sort_spec (uintSize : Nat) (h : uintSize = 32 ∨ uintSize = 64) (z : zSorter)
    (x : Value) (k : Kind) (hk : x.kind = some k) (hx : x.inRange uintSize)
    (hfit : z.cap k = 0 ∨ 5 * (x.len : Int) < 2 ^ (uintSize - 1)) :
    ∃ z1 y, z.Sort_ uintSize x = .ok (z1, y, none) ∧ y.kind = some k ∧ y.len = x.len ∧
      z1.cap k = (if z.cap k < x.len
        then (allocSize uintSize (z.cap k : Int) (x.len : Int)).toNat else z.cap k) ∧
      (∀ j, j ≠ k → z1.cap j = z.cap j) ∧
      z1.allocs = z.allocs + (if z.cap k < x.len then 1 else 0) ∧
      z.cap k ≤ z1.cap k ∧ x.len ≤ z1.cap k := by
  cases x with
  | float32s xs =>
    cases hk
    obtain ⟨b, x1, b1, hb, hs, hp, hl, h1, h2⟩ :=
      prep_sort_spec uintSize h 0 zfloat32.SortBYOB z.bufFloat32 xs hfit (fun b hb => by
        obtain ⟨out, N, T, ho, -, -, -, -, -, hp, hl⟩ := zfloat32_SortBYOB_spec xs b hb hx
        exact ⟨out, ho, hp, hl⟩)
    have hS : z.Sort_ uintSize (.float32s xs) = z.Sort_ uintSize (.float32s xs) := rfl
    conv at hS =>
      rhs
      simp only [zSorter.Sort_, zSorter.prepBuffers, hb, Except.map, zSorter.sortSwitch, hs]
    exact ⟨_, _, hS, rfl, hp.length_eq, hl,
      fun j hj => by cases j <;> first | rfl | exact absurd rfl hj, rfl, h1, h2⟩
  | float64s xs =>
    cases hk
    obtain ⟨b, x1, b1, hb, hs, hp, hl, h1, h2⟩ :=
      prep_sort_spec uintSize h 0 zfloat64.SortBYOB z.bufFloat64 xs hfit (fun b hb => by
        obtain ⟨out, N, T, ho, -, -, -, -, -, hp, hl⟩ := zfloat64_SortBYOB_spec xs b hb hx
        exact ⟨out, ho, hp, hl⟩)
    have hS : z.Sort_ uintSize (.float64s xs) = z.Sort_ uintSize (.float64s xs) := rfl
    conv at hS =>
      rhs
      simp only [zSorter.Sort_, zSorter.prepBuffers, hb, Except.map, zSorter.sortSwitch, hs]
    exact ⟨_, _, hS, rfl, hp.length_eq, hl,
      fun j hj => by cases j <;> first | rfl | exact absurd rfl hj, rfl, h1, h2⟩
  | ints xs =>
    cases hk
    obtain ⟨b, x1, b1, hb, hs, hp, hl, h1, h2⟩ :=
      prep_sort_spec uintSize h 0 (zint.SortBYOB uintSize) z.bufInt xs hfit (fun b hb => by
        obtain ⟨out, ho, hp, -, hl⟩ := zint_SortBYOB_spec uintSize h xs b hb hx
        exact ⟨out, ho, hp, hl⟩)
    have hS : z.Sort_ uintSize (.ints xs) = z.Sort_ uintSize (.ints xs) := rfl
    conv at hS =>
      rhs
      simp only [zSorter.Sort_, zSorter.prepBuffers, hb, Except.map, zSorter.sortSwitch, hs]
    exact ⟨_, _, hS, rfl, hp.length_eq, hl,
      fun j hj => by cases j <;> first | rfl | exact absurd rfl hj, rfl, h1, h2⟩
  | int32s xs =>
    cases hk
    obtain ⟨b, x1, b1, hb, hs, hp, hl, h1, h2⟩ :=
      prep_sort_spec uintSize h 0 zint32.SortBYOB z.bufInt32 xs hfit (fun b hb => by
        obtain ⟨out, ho, hp, -, hl⟩ := zint32_SortBYOB_spec xs b hb hx
        exact ⟨out, ho, hp, hl⟩)
    have hS : z.Sort_ uintSize (.int32s xs) = z.Sort_ uintSize (.int32s xs) := rfl
    conv at hS =>
      rhs
      simp only [zSorter.Sort_, zSorter.prepBuffers, hb, Except.map, zSorter.sortSwitch, hs]
    exact ⟨_, _, hS, rfl, hp.length_eq, hl,
      fun j hj => by cases j <;> first | rfl | exact absurd rfl hj, rfl, h1, h2⟩
  | int64s xs =>
    cases hk
    obtain ⟨b, x1, b1, hb, hs, hp, hl, h1, h2⟩ :=
      prep_sort_spec uintSize h 0 zint64.SortBYOB z.bufInt64 xs hfit (fun b hb => by
        obtain ⟨out, ho, hp, -, hl⟩ := zint64_SortBYOB_spec xs b hb hx
        exact ⟨out, ho, hp, hl⟩)
    have hS : z.Sort_ uintSize (.int64s xs) = z.Sort_ uintSize (.int64s xs) := rfl
    conv at hS =>
      rhs
      simp only [zSorter.Sort_, zSorter.prepBuffers, hb, Except.map, zSorter.sortSwitch, hs]
    exact ⟨_, _, hS, rfl, hp.length_eq, hl,
      fun j hj => by cases j <;> first | rfl | exact absurd rfl hj, rfl, h1, h2⟩
  | uints xs =>
    cases hk
    obtain ⟨b, x1, b1, hb, hs, hp, hl, h1, h2⟩ :=
      prep_sort_spec uintSize h 0 (zuint.SortBYOB uintSize) z.bufUint xs hfit (fun b hb => by
        obtain ⟨out, ho, hp, -, hl⟩ := zuint_SortBYOB_spec uintSize h xs b hb hx
        exact ⟨out, ho, hp, hl⟩)
    have hS : z.Sort_ uintSize (.uints xs) = z.Sort_ uintSize (.uints xs) := rfl
    conv at hS =>
      rhs
      simp only [zSorter.Sort_, zSorter.prepBuffers, hb, Except.map, zSorter.sortSwitch, hs]
    exact ⟨_, _, hS, rfl, hp.length_eq, hl,
      fun j hj => by cases j <;> first | rfl | exact absurd rfl hj, rfl, h1, h2⟩
  | uint32s xs =>
    cases hk
    obtain ⟨b, x1, b1, hb, hs, hp, hl, h1, h2⟩ :=
      prep_sort_spec uintSize h 0 zuint32.SortBYOB z.bufUint32 xs hfit (fun b hb => by
        obtain ⟨out, ho, hp, -, hl⟩ := zuint32_SortBYOB_spec xs b hb hx
        exact ⟨out, ho, hp, hl⟩)
    have hS : z.Sort_ uintSize (.uint32s xs) = z.Sort_ uintSize (.uint32s xs) := rfl
    conv at hS =>
      rhs
      simp only [zSorter.Sort_, zSorter.prepBuffers, hb, Except.map, zSorter.sortSwitch, hs]
    exact ⟨_, _, hS, rfl, hp.length_eq, hl,
      fun j hj => by cases j <;> first | rfl | exact absurd rfl hj, rfl, h1, h2⟩
  | uint64s xs =>
    cases hk
    obtain ⟨b, x1, b1, hb, hs, hp, hl, h1, h2⟩ :=
      prep_sort_spec uintSize h 0 zuint64.SortBYOB z.bufUint64 xs hfit (fun b hb => by
        obtain ⟨out, ho, hp, -, hl⟩ := zuint64_SortBYOB_spec xs b hb hx
        exact ⟨out, ho, hp, hl⟩)
    have hS : z.Sort_ uintSize (.uint64s xs) = z.Sort_ uintSize (.uint64s xs) := rfl
    conv at hS =>
      rhs
      simp only [zSorter.Sort_, zSorter.prepBuffers, hb, Except.map, zSorter.sortSwitch, hs]
    exact ⟨_, _, hS, rfl, hp.length_eq, hl,
      fun j hj => by cases j <;> first | rfl | exact absurd rfl hj, rfl, h1, h2⟩
  | strings xs => cases hk
  | sortable data less => cases hk
  | other t => cases hk

/-- On a value that is not a numeric slice, `zSorter.Sort` leaves the sorter as it is. -/
theorem zSorter_Sort_other (uintSize : Nat) (z : zSorter) (x : Value)
    (hk : x.kind = none) :
    ∃ y e, z.Sort_ uintSize x = .ok (z, y, e) ∧ 
      (e = none ↔ x.isSortable = true ∨ x.isStrings = true) := by
  cases x with
  | strings xs => exact ⟨_, _, rfl, by simp [Value.isSortable, Value.isStrings]⟩
  | sortable data less => exact ⟨_, _, rfl, by simp [Value.isSortable, Value.isStrings]⟩
  | other t => exact ⟨_, _, rfl, by simp [Value.isSortable, Value.isStrings]⟩
  | _ => cases hk

theorem mem_firstOccurrences (l : List Nat) (v : Nat) : v ∈ firstOccurrences l ↔ v ∈ l := by
  induction l with
  | nil => simp [firstOccurrences]
  | cons a l ih =>
    simp only [firstOccurrences, List.mem_cons, List.mem_filter, ih, bne_iff_ne, ne_eq]
    by_cases hva : v = a
    · simp [hva]
    · simp [hva]

theorem nodup_firstOccurrences (l : List Nat) : (firstOccurrences l).Nodup := by
  induction l with
  | nil => simp [firstOccurrences]
  | cons a l ih =>
    simp only [firstOccurrences, List.nodup_cons, List.mem_filter, bne_self_eq_false,
      Bool.false_eq_true, and_false, not_false_eq_true, true_and]
    exact ih.filter _

theorem firstOccurrences_sublist (l : List Nat) : (firstOccurrences l).Sublist l := by
  induction l with
  | nil => exact List.Sublist.refl _
  | cons a l ih =>
    simp only [firstOccurrences]
    exact List.Sublist.cons₂ a ((List.filter_sublist _).trans ih)

/-- Appending a value to a list appends it to the first occurrences exactly when it is new. -/
theorem firstOccurrences_concat (l : List Nat) (v : Nat) :
    firstOccurrences (l ++ [v]) =
      if v ∈ l then firstOccurrences l else firstOccurrences l ++ [v] := by
  induction l with
  | nil => simp [firstOccurrences]
  | cons a l ih =>
    rw [List.cons_append, firstOccurrences, ih, firstOccurrences]
    by_cases hva : v = a
    · subst hva
      by_cases hvl : v ∈ l
      · simp [hvl]
      · simp [hvl, List.filter_append]
    · by_cases hvl : v ∈ l
      · simp [hvl, hva]
      · simp [hvl, hva, List.filter_append]

/-- The invariant of the loop of `UtilUniqueSlice` after the first `m` indices: the first `j`
elements of `s` are the first occurrences among the first `m` original elements, the elements
from index `m` on are untouched, and `seen` holds the values met so far. -/
theorem uniqueLoop_inv (s : List Nat) (m : Nat) (hm : m ≤ s.length) :
    let u := (List.range m).foldl uniqueStep { s := s, seen := [], j := 0 }
    u.s.length = s.length ∧ u.j ≤ m ∧ u.s.take u.j = firstOccurrences (s.take m) ∧
      u.s.drop m = s.drop m ∧ ∀ v, v ∈ u.seen ↔ v ∈ s.take m := by
  induction m with
  | zero => simp [firstOccurrences]
  | succ m ih =>
    have hlt : m < s.length := by omega
    obtain ⟨hl, hj, ht, hd, hseen⟩ := ih (by omega)
    rw [List.range_succ, List.foldl_append]
    generalize (List.range m).foldl uniqueStep { s := s, seen := [], j := 0 } = u at *
    simp only [List.foldl_cons, List.foldl_nil]
    have hlt2 : m < u.s.length := by omega
    have hv : u.s.getD m 0 = s[m] := by
      have h1 : (u.s.drop m)[0]? = (s.drop m)[0]? := by rw [hd]
      rw [List.getElem?_drop, List.getElem?_drop] at h1
      simp only [Nat.add_zero] at h1
      rw [List.getD_eq_getElem?_getD, h1, List.getElem?_eq_getElem hlt]
      rfl
    have htk : s.take (m + 1) = s.take m ++ [s[m]] := by
      rw [List.take_succ, List.getElem?_eq_getElem hlt]
      rfl
    have hdd : u.s.drop (m + 1) = s.drop (m + 1) := by
      have := congrArg (List.drop 1) hd
      simpa [List.drop_drop, Nat.add_comm] using this
    unfold uniqueStep
    rw [hv]
    by_cases hin : s[m] ∈ u.seen
    · simp only [if_pos hin]
      refine ⟨hl, by omega, ?_, hdd, ?_⟩
      · rw [ht, htk, firstOccurrences_concat, if_pos ((hseen _).1 hin)]
      · intro v
        rw [htk, List.mem_append, hseen]
        constructor
        · exact Or.inl
        · rintro (h1 | h1)
          · exact h1
          · rw [List.mem_singleton] at h1
            rw [h1]
            exact (hseen _).1 hin
    · simp only [if_neg hin]
      refine ⟨by rw [List.length_set]; exact hl, by omega, ?_, ?_, ?_⟩
      · rw [htk, firstOccurrences_concat, if_neg (fun hc => hin ((hseen _).2 hc)), ← ht]
        have hjl : u.j < u.s.length := by omega
        rw [List.take_succ, List.getElem?_set_self hjl, List.set_take,
          List.set_eq_of_length_le (by rw [List.length_take]; omega)]
        rfl
      · rw [List.drop_set_of_lt _ _ (by omega)]
        exact hdd
      · intro v
        rw [htk, List.mem_append, List.mem_cons, hseen, List.mem_singleton]
        tauto

/-- `UtilUniqueSlice` returns the values of `s` once each, in the order of their first
occurrence. -/
theorem UtilUniqueSlice_eq (s : List Nat) : UtilUniqueSlice s = firstOccurrences s := by
  have h := uniqueLoop_inv s s.length (Nat.le_refl _)
  simp only [List.take_length] at h
  exact h.2.2.1

/-- Dropping consecutive duplicates keeps every value of the list. -/
theorem mem_destutter_ne (l : List Nat) (a v : Nat) (hv : v ∈ a :: l) :
    v ∈ l.destutter' (fun x y => x ≠ y) a := by
  induction l generalizing a with
  | nil => simpa using hv
  | cons b l ih =>
    by_cases hab : a ≠ b
    · rw [List.destutter'_cons_pos _ hab]
      rcases List.mem_cons.1 hv with h1 | h1
      · rw [h1]; exact List.mem_cons_self _ _
      · exact List.mem_cons_of_mem _ (ih b h1)
    · rw [List.destutter'_cons_neg _ hab]
      have hab2 : a = b := not_not.1 hab
      apply ih a
      rcases List.mem_cons.1 hv with h1 | h1
      · rw [h1]; exact List.mem_cons_self _ _
      · rw [hab2]; exact h1

/-- Consecutive elements that are non-decreasing and different are increasing. -/
theorem chain_lt_of_le_of_ne (l : List Nat) (h1 : l.Chain' (fun a b => a ≤ b))
    (h2 : l.Chain' (fun a b => a ≠ b)) : l.Chain' (fun a b => a < b) := by
  induction l with
  | nil => trivial
  | cons a l ih =>
    cases l with
    | nil => exact List.chain'_singleton _
    | cons b t =>
      rw [List.chain'_cons] at h1 h2 ⊢
      exact ⟨lt_of_le_of_ne h1.1 h2.1, ih h1.2 h2.2⟩

/-- A non-decreasing list without consecutive duplicates is the list of its first
occurrences. -/
theorem destutter_eq_firstOccurrences (s : List Nat) (hs : s.Pairwise (fun a b => a ≤ b)) :
    s.destutter (fun x y => x ≠ y) = firstOccurrences s := by
  have hsub := List.destutter_sublist (fun x y : Nat => x ≠ y) s
  have hle : (s.destutter (fun x y => x ≠ y)).Pairwise (fun a b => a ≤ b) := hs.sublist hsub
  have hch := List.destutter_is_chain' (fun x y : Nat => x ≠ y) s
  have hlt : (s.destutter (fun x y => x ≠ y)).Pairwise (fun a b => a < b) := by
    exact List.chain'_iff_pairwise.1 (chain_lt_of_le_of_ne _ (List.chain'_iff_pairwise.2 hle) hch)
  have hlt2 : (firstOccurrences s).Pairwise (fun a b => a < b) := by
    have h1 : (firstOccurrences s).Pairwise (fun a b => a ≤ b) :=
      hs.sublist (firstOccurrences_sublist s)
    have h2 := nodup_firstOccurrences s
    exact (h1.and h2).imp (fun hab => lt_of_le_of_ne hab.1 hab.2)
  have hmem : ∀ v, v ∈ s.destutter (fun x y => x ≠ y) ↔ v ∈ firstOccurrences s := by
    intro v
    rw [mem_firstOccurrences]
    constructor
    · exact fun h => hsub.subset h
    · intro h
      cases s with
      | nil => cases h
      | cons a l => exact mem_destutter_ne l a v h
  have hp : (s.destutter (fun x y => x ≠ y)).Perm (firstOccurrences s) :=
    (List.perm_ext_iff_of_nodup (hlt.imp (fun h => Nat.ne_of_lt h))
      (nodup_firstOccurrences s)).2 hmem
  exact List.eq_of_perm_of_sorted hp hlt hlt2

/-! ## The float key and the orders of IEEE-754 -/

/-- The float key of a 32-bit pattern is its place in the total order, shifted by `2 ^ 31`. -/
theorem floatFlip32_total (x : Nat) (hx : x < 2 ^ 32) :
    (zfloat32.floatFlip x : Int) = ieee.total 32 x + 2 ^ 31 := by
  rw [floatFlip32_eq x hx]
  unfold ieee.total
  norm_num at hx ⊢
  split <;> split <;> omega

/-- The float key of a 64-bit pattern is its place in the total order, shifted by `2 ^ 63`. -/
theorem floatFlip64_total (x : Nat) (hx : x < 2 ^ 64) :
    (zfloat64.floatFlip x : Int) = ieee.total 64 x + 2 ^ 63 := by
  rw [floatFlip64_eq x hx]
  unfold ieee.total
  norm_num at hx ⊢
  split <;> split <;> omega

/-- The total order refines the numeric order: a smaller number comes first. -/
theorem total_lt_of_ord_lt (w a b : Nat) (h : ieee.ord w a < ieee.ord w b) :
    ieee.total w a < ieee.total w b := by
  unfold ieee.ord at h
  unfold ieee.total
  split at h <;> split at h <;> simp_all <;> omega

theorem ord_le_of_total_le (w a b : Nat) (h : ieee.total w a ≤ ieee.total w b) :
    ieee.ord w a ≤ ieee.ord w b := by
  unfold ieee.total at h
  unfold ieee.ord
  split at h <;> split at h <;> simp_all <;> omega

/-- Two patterns at the same place of the numeric order are equal, or are the two zeros. -/
theorem total_le_or_zeros (w a b : Nat) (hw : w = 32 ∨ w = 64) (ha : a < 2 ^ w)
    (hb : b < 2 ^ w) (h : ieee.ord w a ≤ ieee.ord w b) :
    ieee.total w a ≤ ieee.total w b ∨ (a = 0 ∧ b = 2 ^ (w - 1)) := by
  unfold ieee.ord at h
  unfold ieee.total
  rcases hw with rfl | rfl <;> norm_num at ha hb h ⊢ <;>
    split at h <;> split at h <;> simp_all <;> omega

/-- With the sign bit set `floatFlip` inverts every bit, otherwise it sets the sign bit: the
bits of `x ^^^ (2 ^ (n + 1) - 1)` and of `x ^^^ 2 ^ n`, chosen by the test of bit `n`. -/
theorem flip_testBit (n x i : Nat) (hi : i < n + 1) :
    (if (x &&& 2 ^ n) = 2 ^ n then x ^^^ (2 ^ (n + 1) - 1) else x ^^^ 2 ^ n).testBit i =
      if x.testBit n = true then !x.testBit i else (x.testBit i || decide (i = n)) := by
  have hc : ((x &&& 2 ^ n) = 2 ^ n) ↔ x.testBit n = true := by
    constructor
    · intro h
      have := congrArg (fun v => v.testBit n) h
      simpa [Nat.testBit_and, Nat.testBit_two_pow] using this
    · intro h
      apply Nat.eq_of_testBit_eq
      intro j
      rw [Nat.testBit_and, Nat.testBit_two_pow]
      by_cases hj : n = j
      · subst hj; simp [h]
      · simp [hj]
  by_cases hs : x.testBit n = true
  · rw [if_pos (hc.2 hs), if_pos hs, Nat.testBit_xor, Nat.testBit_two_pow_sub_one]
    simp [hi]
  · rw [if_neg (fun h => hs (hc.1 h)), if_neg hs, Nat.testBit_xor, Nat.testBit_two_pow]
    by_cases hin : i = n
    · subst hin
      simp at hs
      simp [hs]
    · have : ¬ n = i := fun h => hin h.symm
      simp [hin, this]

theorem floatFlip32_testBit (x i : Nat) (hi : i < 32) :
    (zfloat32.floatFlip x).testBit i =
      if x.testBit 31 = true then !x.testBit i else (x.testBit i || decide (i = 31)) :=
  flip_testBit 31 x i hi

theorem floatFlip64_testBit (x i : Nat) (hi : i < 64) :
    (zfloat64.floatFlip x).testBit i =
      if x.testBit 63 = true then !x.testBit i else (x.testBit i || decide (i = 63)) :=
  flip_testBit 63 x i hi

/-! ## The bucket offsets of the last pass of a signed kind -/

/-- The offsets that the signed branch computes: bucket 128 starts at 0, bucket 0 after the
elements of the buckets 128 to 255, and each other bucket where the bucket before it ends;
bucket 255 ends where bucket 0 starts, and bucket 127 ends at `len(from)`. -/
theorem signedOffsets_tiling {α : Type} (E : Engine α) (k : Nat) (hkey : ∀ e, E.key k e < 256)
    (frm : List α) (offset : List Nat) (hoff : offset.length = 256) :
    (signedOffsets (scan E k frm).counts offset).getD 128 0 = 0 ∧
    (signedOffsets (scan E k frm).counts offset).getD 0 0 =
      frm.countP (fun e => decide (128 ≤ E.key k e)) ∧
    (∀ d, 0 < d → d < 256 → d ≠ 128 →
      (signedOffsets (scan E k frm).counts offset).getD d 0 =
        (signedOffsets (scan E k frm).counts offset).getD (d - 1) 0 +
          frm.countP (fun e => E.key k e == d - 1)) ∧
    (signedOffsets (scan E k frm).counts offset).getD 255 0 +
        frm.countP (fun e => E.key k e == 255) =
      (signedOffsets (scan E k frm).counts offset).getD 0 0 ∧
    (signedOffsets (scan E k frm).counts offset).getD 127 0 +
        frm.countP (fun e => E.key k e == 127) = frm.length := by
  obtain ⟨-, hv⟩ := signedOffsets_eq (scan E k frm).counts offset hoff
  have hc := scan_counts E k hkey frm
  have h0 : (signedOffsets (scan E k frm).counts offset).getD 0 0 =
      frm.countP (fun e => decide (128 ≤ E.key k e)) := by
    rw [hv 0 (by omega), if_pos (by omega), Finset.Ico_self, Finset.sum_empty, Nat.add_zero]
    simp only [hc, sum_countP_key]
    apply List.countP_congr
    intro x _
    have := hkey x
    simp only [decide_eq_true_eq]
    omega
  refine ⟨?_, h0, ?_, ?_, ?_⟩
  · rw [hv 128 (by omega), if_neg (by omega), Finset.Ico_self, Finset.sum_empty]
  · intro d hd0 hd hd128
    obtain ⟨m, rfl⟩ : ∃ m, d = m + 1 := ⟨d - 1, by omega⟩
    rw [hv (m + 1) hd, hv (m + 1 - 1) (by omega), Nat.add_sub_cancel, ← hc]
    by_cases hlt : m + 1 < 128
    · rw [if_pos hlt, if_pos (by omega), Finset.sum_Ico_succ_top (Nat.zero_le m), Nat.add_assoc]
    · rw [if_neg hlt, if_neg (by omega), Finset.sum_Ico_succ_top (by omega)]
  · rw [h0, hv 255 (by omega), if_neg (by omega), ← hc,
      ← Finset.sum_Ico_succ_top (by omega : 128 ≤ 255)]
    simp only [hc, sum_countP_key]
    apply List.countP_congr
    intro x _
    have := hkey x
    simp only [decide_eq_true_eq]
    omega
  · rw [hv 127 (by omega), if_pos (by omega), ← hc, Nat.add_assoc,
      ← Finset.sum_Ico_succ_top (by omega : 0 ≤ 127), Nat.add_comm,
      Finset.sum_Ico_consecutive _ (by omega : 0 ≤ 128) (by omega : 128 ≤ 256)]
    simp only [hc, sum_countP_key]
    rw [List.countP_eq_length]
    intro x _
    have := hkey x
    simp only [decide_eq_true_eq]
    omega

/-- The top byte of an `int32` has its sign bit set exactly when the value is negative. -/
theorem signedKey32_top (e : Int) (h1 : -2 ^ 31 ≤ e) (h2 : e < 2 ^ 31) :
    128 ≤ signedKey 32 24 e ↔ e < 0 := by
  rw [signedKey_eq_of_mask 32 24 e (mask32 3 (by omega))]
  norm_num at h1 h2 ⊢
  omega

/-- The top byte of an `int64` has its sign bit set exactly when the value is negative. -/
theorem signedKey64_top (e : Int) (h1 : -2 ^ 63 ≤ e) (h2 : e < 2 ^ 63) :
    128 ≤ signedKey 64 56 e ↔ e < 0 := by
  rw [signedKey_eq_of_mask 64 56 e (mask64 7 (by omega))]
  norm_num at h1 h2 ⊢
  omega

/-- The last pass of a signed engine, when it is not short-circuited, scatters with the
offsets of the signed branch. -/
theorem passes_last_signed {α : Type} (E : Engine α) (hs : E.signed = true) (n : Nat)
    (frm dst : List α) (offset : List Nat)
    (hns : (scan E (E.bitSize - radix) frm).sorted = false) :
    (∀ dst1, scatter E (E.bitSize - radix) frm
        (signedOffsets (scan E (E.bitSize - radix) frm).counts offset) dst = .error dst1 →
      passes E (n + 1) (E.bitSize - radix) frm dst offset =
        .error { frm := frm, dst := dst1, swaps := (E.bitSize - radix) / radix }) ∧
    (∀ offset2 dst1, scatter E (E.bitSize - radix) frm
        (signedOffsets (scan E (E.bitSize - radix) frm).counts offset) dst =
          .ok (offset2, dst1) →
      passes E (n + 1) (E.bitSize - radix) frm dst offset =
        passes E n (E.bitSize - radix + radix) dst1 frm offset2) := by
  constructor
  · intro dst1 hsc
    simp only [passes, hns, hs, Bool.true_and, beq_self_eq_true, if_true, Bool.false_eq_true,
      if_false, hsc]
  · intro offset2 dst1 hsc
    simp only [passes, hns, hs, Bool.true_and, beq_self_eq_true, if_true, Bool.false_eq_true,
      if_false, hsc]

/-- In the last pass the key of an in-range value is at least 128 exactly when the value is
negative, for the three signed engines. -/
theorem signed_top_key (uintSize : Nat) (h : uintSize = 32 ∨ uintSize = 64) (E : Engine Int)
    (hE : E = zint32.engine ∨ E = zint64.engine ∨ E = zint.engine uintSize) (e : Int)
    (h1 : -2 ^ (E.bitSize - 1) ≤ e) (h2 : e < 2 ^ (E.bitSize - 1)) :
    128 ≤ E.key (E.bitSize - radix) e ↔ e < 0 := by
  rcases hE with rfl | rfl | rfl
  · exact signedKey32_top e h1 h2
  · exact signedKey64_top e h1 h2
  · have hb := zint_bitSize_eq uintSize h
    simp only [zint.engine, hb] at h1 h2 ⊢
    rcases h with rfl | rfl
    · exact signedKey32_top e h1 h2
    · exact signedKey64_top e h1 h2

/-! ## One pass as a stable counting sort -/

/-- A pass that is not short-circuited: the scatter returns a stable counting sort of `from` by
the bucket rank of the current digit, and the loop goes on with the two slices swapped. -/
theorem pass_stable {α : Type} (E : Engine α) (ok : α → Prop) (u : α → Nat)
    (R : α → α → Prop) (hE : E.Sound ok u R) (k : Nat) (frm dst : List α) (offset : List Nat)
    (hoffl : offset.length = 256) (hlen : dst.length = frm.length)
    (hns : (scan E k frm).sorted = false) (n : Nat) :
    ∃ offset2 dst1,
      scatter E k frm
        (if (E.signed && k == E.bitSize - radix) = true
          then signedOffsets (scan E k frm).counts offset
          else plainOffsets (scan E k frm).counts offset) dst = .ok (offset2, dst1) ∧
      passes E (n + 1) k frm dst offset = passes E n (k + radix) dst1 frm offset2 ∧
      offset2.length = 256 ∧ StableBy (fun e => E.rank k (E.key k e)) frm dst1 := by
  have hinj : ∀ a b, E.rank k (E.key k a) = E.rank k (E.key k b) → E.key k a = E.key k b :=
    fun a b h => E.rank_inj _ _ _ (hE.key_lt _ _) (hE.key_lt _ _) h
  obtain ⟨hpl, hpv⟩ := pass_offsets E k frm offset hoffl (hE.key_lt _)
  obtain ⟨offset2, dst1, hsc, hol2, hst⟩ := scatter_stable E k frm dst
    (if (E.signed && k == E.bitSize - radix) = true
      then signedOffsets (scan E k frm).counts offset
      else plainOffsets (scan E k frm).counts offset) hinj (hE.key_lt _) hlen hpl
    (fun e _ => hpv _ (hE.key_lt _ _))
  refine ⟨offset2, dst1, hsc, ?_, hol2, hst⟩
  simp only [passes, hns, Bool.false_eq_true, if_false, hsc]

/-- A stable counting sort orders by the rank. -/
theorem StableBy.pairwise_rank {α : Type} {rk : α → Nat} {frm dst : List α}
    (h : StableBy rk frm dst) : dst.Pairwise (fun a b => rk a ≤ rk b) :=
  h.pairwise (fun _ _ => True) _ (List.pairwise_of_forall (fun _ _ => trivial))
    (fun _ _ _ _ hab => Nat.le_of_lt hab) (fun _ _ _ _ hab _ => Nat.le_of_eq hab)

/-- A stable counting sort has a position map: the element at index `j` of the input is found
at `landing j` in the output, and `landing` is increasing in the pair (rank, index). -/
theorem StableBy.positions {α : Type} {rk : α → Nat} {frm dst : List α}
    (h : StableBy rk frm dst) :
    ∃ pos : Nat → Nat,
      (∀ (j : Nat) (hj : j < frm.length), dst[pos j]? = some frm[j]) ∧
      ∀ (j j' : Nat) (hj : j < frm.length) (hj' : j' < frm.length),
        pos j < pos j' ↔ (rk frm[j] < rk frm[j'] ∨ (rk frm[j] = rk frm[j'] ∧ j < j')) := by
  refine ⟨fun j => if hj : j < frm.length then landing rk frm j frm[j] else 0, ?_, ?_⟩
  · intro j hj
    simp only [hj, dif_pos]
    exact h.2 j hj
  · intro j j' hj hj'
    simp only [hj, hj', dif_pos]
    exact landing_lt_iff rk frm j j' hj hj'

/-- After `n` passes without a short circuit, started at pass `i` on data ordered by the low
`i` digits of the code, the active slice is a permutation of the data ordered by the low
`i + n` digits. -/
theorem passes_low {α : Type} (E : Engine α) (ok : α → Prop) (u : α → Nat) (R : α → α → Prop)
    (hE : E.Sound ok u R) (n : Nat) :
    ∀ (i : Nat), i + n ≤ E.bitSize / radix →
    ∀ (frm dst : List α) (offset : List Nat) (r : Loop α), offset.length = 256 →
      (∀ e ∈ frm, ok e) → dst.length = frm.length →
      frm.Pairwise (fun a b => u a % 2 ^ (radix * i) ≤ u b % 2 ^ (radix * i)) →
      passes E n (radix * i) frm dst offset = .ok r → r.swaps = i + n →
      r.frm.Perm frm ∧
        r.frm.Pairwise
          (fun a b => u a % 2 ^ (radix * (i + n)) ≤ u b % 2 ^ (radix * (i + n))) := by
  induction n with
  | zero =>
    intro i _ frm dst offset r _ _ _ hlow hr _
    simp only [passes, Except.ok.injEq] at hr
    subst hr
    exact ⟨List.Perm.refl _, hlow⟩
  | succ n ih =>
    intro i hi frm dst offset r hoffl hok hlen hlow hr hsw
    have hswi : radix * i / radix = i := Nat.mul_div_cancel_left _ (by decide)
    by_cases hs : (scan E (radix * i) frm).sorted = true
    · simp only [passes, hs, if_true, Except.ok.injEq] at hr
      subst hr
      simp only [hswi] at hsw
      omega
    · have hns : (scan E (radix * i) frm).sorted = false := by
        cases h : (scan E (radix * i) frm).sorted
        · rfl
        · exact absurd h hs
      obtain ⟨offset2, dst1, -, hp, hol2, hst⟩ :=
        pass_stable E ok u R hE (radix * i) frm dst offset hoffl hlen hns n
      rw [hp] at hr
      have hi1 : i < E.bitSize / radix := by omega
      have hlow1 : dst1.Pairwise
          (fun a b => u a % 2 ^ (radix * (i + 1)) ≤ u b % 2 ^ (radix * (i + 1))) := by
        refine hst.pairwise _ _ hlow ?_ ?_
        · intro a ha b hb hab
          simp only [hE.digit i hi1 a (hok a ha), hE.digit i hi1 b (hok b hb)] at hab
          exact low_le_of_digit_lt _ _ _ hab
        · intro a ha b hb hab hl
          simp only [hE.digit i hi1 a (hok a ha), hE.digit i hi1 b (hok b hb)] at hab
          exact low_le_of_digit_eq _ _ _ hab hl
      have hr2 : passes E n (radix * (i + 1)) dst1 frm offset2 = .ok r := by
        rw [Nat.mul_succ]; exact hr
      obtain ⟨h1, h2⟩ := ih (i + 1) (by omega) dst1 frm offset2 r hol2
        (fun e he => hok e (hst.perm.subset he)) hst.1.symm hlow1 hr2 (by omega)
      refine ⟨h1.trans hst.perm, ?_⟩
      have e1 : i + 1 + n = i + (n + 1) := by omega
      rw [e1] at h2
      exact h2

/-- The two branches of a per-kind `Sort` agree with `SortBYOB` on any long enough buffer,
whenever the fallback and `SortBYOB` both return a sorted permutation. -/
theorem sortWith_agrees {α : Type} [LinearOrder α] (MinSize : Nat) (fallback : List α → List α)
    (byob : List α → List α → Except (Panic α) (Outcome α)) (zero : α) (x buffer : List α)
    (hf : (fallback x).Perm x ∧ (fallback x).Pairwise (fun a b => a ≤ b))
    (hb : ∀ b, x.length ≤ b.length →
      ∃ out, byob x b = .ok out ∧ out.x.Perm x ∧ out.x.Pairwise (fun a b => a ≤ b))
    (hlen : x.length ≤ buffer.length) :
    ∃ y out, sortWith MinSize fallback byob zero x = .ok y ∧ byob x buffer = .ok out ∧
      y = out.x := by
  obtain ⟨y, hy, hyp, hys⟩ := sortWith_spec MinSize fallback byob zero x _ hf hb
  obtain ⟨out, ho, hop, hos⟩ := hb buffer hlen
  exact ⟨y, out, hy, ho, eq_of_perm_of_sorted_le (hyp.trans hop.symm) hys hos⟩

/-- Whenever `zSorter.Sort` returns, the buffers of the kinds other than the kind of `x` are
what they were, and for an `x` that is not a numeric slice the sorter is what it was. -/
theorem zSorter_Sort_frame (uintSize : Nat) (z : zSorter) (x : Value)
    (r : zSorter × Value × Option String) (hr : z.Sort_ uintSize x = .ok r) :
    (∀ k, x.kind = some k → zSorter.sameExcept k z r.1) ∧ (x.kind = none → r.1 = z) := by
  cases x with
  | float32s xs =>
    simp only [zSorter.Sort_, zSorter.prepBuffers] at hr
    cases hb : prepBuffer uintSize 0 z.bufFloat32 xs with
    | error e => rw [hb] at hr; cases hr
    | ok bk =>
      rw [hb] at hr
      simp only [Except.map, zSorter.sortSwitch] at hr
      cases hs : sortInto zfloat32.SortBYOB xs bk.1 with
      | error e => rw [hs] at hr; cases hr
      | ok r1 =>
        rw [hs] at hr
        cases hr
        refine ⟨fun k hk => ?_, fun hk => by cases hk⟩
        cases hk
        simp [zSorter.sameExcept]
  | float64s xs =>
    simp only [zSorter.Sort_, zSorter.prepBuffers] at hr
    cases hb : prepBuffer uintSize 0 z.bufFloat64 xs with
    | error e => rw [hb] at hr; cases hr
    | ok bk =>
      rw [hb] at hr
      simp only [Except.map, zSorter.sortSwitch] at hr
      cases hs : sortInto zfloat64.SortBYOB xs bk.1 with
      | error e => rw [hs] at hr; cases hr
      | ok r1 =>
        rw [hs] at hr
        cases hr
        refine ⟨fun k hk => ?_, fun hk => by cases hk⟩
        cases hk
        simp [zSorter.sameExcept]
  | ints xs =>
    simp only [zSorter.Sort_, zSorter.prepBuffers] at hr
    cases hb : prepBuffer uintSize 0 z.bufInt xs with
    | error e => rw [hb] at hr; cases hr
    | ok bk =>
      rw [hb] at hr
      simp only [Except.map, zSorter.sortSwitch] at hr
      cases hs : sortInto (zint.SortBYOB uintSize) xs bk.1 with
      | error e => rw [hs] at hr; cases hr
      | ok r1 =>
        rw [hs] at hr
        cases hr
        refine ⟨fun k hk => ?_, fun hk => by cases hk⟩
        cases hk
        simp [zSorter.sameExcept]
  | int32s xs =>
    simp only [zSorter.Sort_, zSorter.prepBuffers] at hr
    cases hb : prepBuffer uintSize 0 z.bufInt32 xs with
    | error e => rw [hb] at hr; cases hr
    | ok bk =>
      rw [hb] at hr
      simp only [Except.map, zSorter.sortSwitch] at hr
      cases hs : sortInto zint32.SortBYOB xs bk.1 with
      | error e => rw [hs] at hr; cases hr
      | ok r1 =>
        rw [hs] at hr
        cases hr
        refine ⟨fun k hk => ?_, fun hk => by cases hk⟩
        cases hk
        simp [zSorter.sameExcept]
  | int64s xs =>
    simp only [zSorter.Sort_, zSorter.prepBuffers] at hr
    cases hb : prepBuffer uintSize 0 z.bufInt64 xs with
    | error e => rw [hb] at hr; cases hr
    | ok bk =>
      rw [hb] at hr
      simp only [Except.map, zSorter.sortSwitch] at hr
      cases hs : sortInto zint64.SortBYOB xs bk.1 with
      | error e => rw [hs] at hr; cases hr
      | ok r1 =>
        rw [hs] at hr
        cases hr
        refine ⟨fun k hk => ?_, fun hk => by cases hk⟩
        cases hk
        simp [zSorter.sameExcept]
  | uints xs =>
    simp only [zSorter.Sort_, zSorter.prepBuffers] at hr
    cases hb : prepBuffer uintSize 0 z.bufUint xs with
    | error e => rw [hb] at hr; cases hr
    | ok bk =>
      rw [hb] at hr
      simp only [Except.map, zSorter.sortSwitch] at hr
      cases hs : sortInto (zuint.SortBYOB uintSize) xs bk.1 with
      | error e => rw [hs] at hr; cases hr
      | ok r1 =>
        rw [hs] at hr
        cases hr
        refine ⟨fun k hk => ?_, fun hk => by cases hk⟩
        cases hk
        simp [zSorter.sameExcept]
  | uint32s xs =>
    simp only [zSorter.Sort_, zSorter.prepBuffers] at hr
    cases hb : prepBuffer uintSize 0 z.bufUint32 xs with
    | error e => rw [hb] at hr; cases hr
    | ok bk =>
      rw [hb] at hr
      simp only [Except.map, zSorter.sortSwitch] at hr
      cases hs : sortInto zuint32.SortBYOB xs bk.1 with
      | error e => rw [hs] at hr; cases hr
      | ok r1 =>
        rw [hs] at hr
        cases hr
        refine ⟨fun k hk => ?_, fun hk => by cases hk⟩
        cases hk
        simp [zSorter.sameExcept]
  | uint64s xs =>
    simp only [zSorter.Sort_, zSorter.prepBuffers] at hr
    cases hb : prepBuffer uintSize 0 z.bufUint64 xs with
    | error e => rw [hb] at hr; cases hr
    | ok bk =>
      rw [hb] at hr
      simp only [Except.map, zSorter.sortSwitch] at hr
      cases hs : sortInto zuint64.SortBYOB xs bk.1 with
      | error e => rw [hs] at hr; cases hr
      | ok r1 =>
        rw [hs] at hr
        cases hr
        refine ⟨fun k hk => ?_, fun hk => by cases hk⟩
        cases hk
        simp [zSorter.sameExcept]
  | strings xs => cases hr; exact ⟨fun k hk => (by cases hk), fun _ => rfl⟩
  | sortable data less => cases hr; exact ⟨fun k hk => (by cases hk), fun _ => rfl⟩
  | other t => cases hr; exact ⟨fun k hk => (by cases hk), fun _ => rfl⟩

/-- The only panics of one case of `prepBuffers` and of the switch of `zSorter.Sort`: a
negative length in `make`, and the slice expression `buf[:len(x)]`. -/
theorem prep_sort_error {α : Type} (uintSize : Nat) (zero : α)
    (S : List α → List α → Except (Panic α) (Outcome α)) (buf x : List α)
    (hS : ∀ b, x.length ≤ b.length →
      ∃ out, S x b = .ok out ∧ out.x.Perm x ∧ out.buffer.length = b.length) (e : String) :
    (prepBuffer uintSize zero buf x = .error e → e = "makeslice: len out of range") ∧
    (∀ b, sortInto S x b = .error e → e = "slice bounds out of range") := by
  constructor
  · intro he
    unfold prepBuffer at he
    by_cases hlt : buf.length < x.length
    · rw [if_pos hlt] at he
      unfold make at he
      by_cases hn : allocSize uintSize (buf.length : Int) (x.length : Int) < 0
      · rw [if_pos hn] at he
        simp only [Except.error.injEq] at he
        exact he.symm
      · rw [if_neg hn] at he
        cases he
    · rw [if_neg hlt] at he
      cases he
  · intro b he
    unfold sortInto at he
    by_cases hgt : x.length > b.length
    · rw [if_pos hgt] at he
      simp only [Except.error.injEq] at he
      exact he.symm
    · rw [if_neg hgt] at he
      obtain ⟨out, ho, -, -⟩ := hS (b.take x.length) (by simp; omega)
      rw [ho] at he
      cases he

/-- The only panics of `zSorter.Sort` on slices of values of their kind. -/
theorem zSorter_Sort_error (uintSize : Nat) (h : uintSize = 32 ∨ uintSize = 64) (z : zSorter)
    (x : Value) (hx : x.inRange uintSize) (e : String) (he : z.Sort_ uintSize x = .error e) :
    e = "makeslice: len out of range" ∨ e = "slice bounds out of range" := by
  cases x with
  | float32s xs =>
    obtain ⟨e1, e2⟩ := prep_sort_error uintSize 0 zfloat32.SortBYOB z.bufFloat32 xs
      (fun b hb => by
          obtain ⟨out, N, T, ho, -, -, -, -, -, hp, hl⟩ := zfloat32_SortBYOB_spec xs b hb hx
          exact ⟨out, ho, hp, hl⟩) e
    simp only [zSorter.Sort_, zSorter.prepBuffers] at he
    cases hb : prepBuffer uintSize 0 z.bufFloat32 xs with
    | error e0 =>
      rw [hb] at he
      simp only [Except.map, Except.error.injEq] at he
      subst he
      exact Or.inl (e1 hb)
    | ok bk =>
      rw [hb] at he
      simp only [Except.map, zSorter.sortSwitch] at he
      cases hs : sortInto zfloat32.SortBYOB xs bk.1 with
      | error e0 =>
        rw [hs] at he
        simp only [Except.error.injEq] at he
        subst he
        exact Or.inr (e2 bk.1 hs)
      | ok r1 => rw [hs] at he; cases he
  | float64s xs =>
    obtain ⟨e1, e2⟩ := prep_sort_error uintSize 0 zfloat64.SortBYOB z.bufFloat64 xs
      (fun b hb => by
          obtain ⟨out, N, T, ho, -, -, -, -, -, hp, hl⟩ := zfloat64_SortBYOB_spec xs b hb hx
          exact ⟨out, ho, hp, hl⟩) e
    simp only [zSorter.Sort_, zSorter.prepBuffers] at he
    cases hb : prepBuffer uintSize 0 z.bufFloat64 xs with
    | error e0 =>
      rw [hb] at he
      simp only [Except.map, Except.error.injEq] at he
      subst he
      exact Or.inl (e1 hb)
    | ok bk =>
      rw [hb] at he
      simp only [Except.map, zSorter.sortSwitch] at he
      cases hs : sortInto zfloat64.SortBYOB xs bk.1 with
      | error e0 =>
        rw [hs] at he
        simp only [Except.error.injEq] at he
        subst he
        exact Or.inr (e2 bk.1 hs)
      | ok r1 => rw [hs] at he; cases he
  | ints xs =>
    obtain ⟨e1, e2⟩ := prep_sort_error uintSize 0 (zint.SortBYOB uintSize) z.bufInt xs
      (fun b hb => by
          obtain ⟨out, ho, hp, -, hl⟩ := zint_SortBYOB_spec uintSize h xs b hb hx
          exact ⟨out, ho, hp, hl⟩) e
    simp only [zSorter.Sort_, zSorter.prepBuffers] at he
    cases hb : prepBuffer uintSize 0 z.bufInt xs with
    | error e0 =>
      rw [hb] at he
      simp only [Except.map, Except.error.injEq] at he
      subst he
      exact Or.inl (e1 hb)
    | ok bk =>
      rw [hb] at he
      simp only [Except.map, zSorter.sortSwitch] at he
      cases hs : sortInto (zint.SortBYOB uintSize) xs bk.1 with
      | error e0 =>
        rw [hs] at he
        simp only [Except.error.injEq] at he
        subst he
        exact Or.inr (e2 bk.1 hs)
      | ok r1 => rw [hs] at he; cases he
  | int32s xs =>
    obtain ⟨e1, e2⟩ := prep_sort_error uintSize 0 zint32.SortBYOB z.bufInt32 xs
      (fun b hb => by
          obtain ⟨out, ho, hp, -, hl⟩ := zint32_SortBYOB_spec xs b hb hx
          exact ⟨out, ho, hp, hl⟩) e
    simp only [zSorter.Sort_, zSorter.prepBuffers] at he
    cases hb : prepBuffer uintSize 0 z.bufInt32 xs with
    | error e0 =>
      rw [hb] at he
      simp only [Except.map, Except.error.injEq] at he
      subst he
      exact Or.inl (e1 hb)
    | ok bk =>
      rw [hb] at he
      simp only [Except.map, zSorter.sortSwitch] at he
      cases hs : sortInto zint32.SortBYOB xs bk.1 with
      | error e0 =>
        rw [hs] at he
        simp only [Except.error.injEq] at he
        subst he
        exact Or.inr (e2 bk.1 hs)
      | ok r1 => rw [hs] at he; cases he
  | int64s xs =>
    obtain ⟨e1, e2⟩ := prep_sort_error uintSize 0 zint64.SortBYOB z.bufInt64 xs
      (fun b hb => by
          obtain ⟨out, ho, hp, -, hl⟩ := zint64_SortBYOB_spec xs b hb hx
          exact ⟨out, ho, hp, hl⟩) e
    simp only [zSorter.Sort_, zSorter.prepBuffers] at he
    cases hb : prepBuffer uintSize 0 z.bufInt64 xs with
    | error e0 =>
      rw [hb] at he
      simp only [Except.map, Except.error.injEq] at he
      subst he
      exact Or.inl (e1 hb)
    | ok bk =>
      rw [hb] at he
      simp only [Except.map, zSorter.sortSwitch] at he
      cases hs : sortInto zint64.SortBYOB xs bk.1 with
      | error e0 =>
        rw [hs] at he
        simp only [Except.error.injEq] at he
        subst he
        exact Or.inr (e2 bk.1 hs)
      | ok r1 => rw [hs] at he; cases he
  | uints xs =>
    obtain ⟨e1, e2⟩ := prep_sort_error uintSize 0 (zuint.SortBYOB uintSize) z.bufUint xs
      (fun b hb => by
          obtain ⟨out, ho, hp, -, hl⟩ := zuint_SortBYOB_spec uintSize h xs b hb hx
          exact ⟨out, ho, hp, hl⟩) e
    simp only [zSorter.Sort_, zSorter.prepBuffers] at he
    cases hb : prepBuffer uintSize 0 z.bufUint xs with
    | error e0 =>
      rw [hb] at he
      simp only [Except.map, Except.error.injEq] at he
      subst he
      exact Or.inl (e1 hb)
    | ok bk =>
      rw [hb] at he
      simp only [Except.map, zSorter.sortSwitch] at he
      cases hs : sortInto (zuint.SortBYOB uintSize) xs bk.1 with
      | error e0 =>
        rw [hs] at he
        simp only [Except.error.injEq] at he
        subst he
        exact Or.inr (e2 bk.1 hs)
      | ok r1 => rw [hs] at he; cases he
  | uint32s xs =>
    obtain ⟨e1, e2⟩ := prep_sort_error uintSize 0 zuint32.SortBYOB z.bufUint32 xs
      (fun b hb => by
          obtain ⟨out, ho, hp, -, hl⟩ := zuint32_SortBYOB_spec xs b hb hx
          exact ⟨out, ho, hp, hl⟩) e
    simp only [zSorter.Sort_, zSorter.prepBuffers] at he
    cases hb : prepBuffer uintSize 0 z.bufUint32 xs with
    | error e0 =>
      rw [hb] at he
      simp only [Except.map, Except.error.injEq] at he
      subst he
      exact Or.inl (e1 hb)
    | ok bk =>
      rw [hb] at he
      simp only [Except.map, zSorter.sortSwitch] at he
      cases hs : sortInto zuint32.SortBYOB xs bk.1 with
      | error e0 =>
        rw [hs] at he
        simp only [Except.error.injEq] at he
        subst he
        exact Or.inr (e2 bk.1 hs)
      | ok r1 => rw [hs] at he; cases he
  | uint64s xs =>
    obtain ⟨e1, e2⟩ := prep_sort_error uintSize 0 zuint64.SortBYOB z.bufUint64 xs
      (fun b hb => by
          obtain ⟨out, ho, hp, -, hl⟩ := zuint64_SortBYOB_spec xs b hb hx
          exact ⟨out, ho, hp, hl⟩) e
    simp only [zSorter.Sort_, zSorter.prepBuffers] at he
    cases hb : prepBuffer uintSize 0 z.bufUint64 xs with
    | error e0 =>
      rw [hb] at he
      simp only [Except.map, Except.error.injEq] at he
      subst he
      exact Or.inl (e1 hb)
    | ok bk =>
      rw [hb] at he
      simp only [Except.map, zSorter.sortSwitch] at he
      cases hs : sortInto zuint64.SortBYOB xs bk.1 with
      | error e0 =>
        rw [hs] at he
        simp only [Except.error.injEq] at he
        subst he
        exact Or.inr (e2 bk.1 hs)
      | ok r1 => rw [hs] at he; cases he
  | strings xs => cases he
  | sortable data less => cases he
  | other t => cases he

/-- After `prepBuffers` (with `5 * len(x)` in the range of `int`, or the buffer still nil) the
buffer of the kind of `x` is at least as long as `x`, and the switch of `zSorter.Sort` then
returns. -/
theorem zSorter_prepBuffers_spec (uintSize : Nat) (h : uintSize = 32 ∨ uintSize = 64)
    (z : zSorter) (x : Value) (k : Kind) (hk : x.kind = some k) (hx : x.inRange uintSize)
    (hfit : z.cap k = 0 ∨ 5 * (x.len : Int) < 2 ^ (uintSize - 1)) :
    ∃ z1, z.prepBuffers uintSize x = .ok z1 ∧ x.len ≤ z1.cap k ∧ z.cap k ≤ z1.cap k ∧
      ∃ r, z1.sortSwitch uintSize x = .ok r ∧ z.Sort_ uintSize x = .ok r := by
  cases x with
  | float32s xs =>
    cases hk
    obtain ⟨b, hb, -, hb1, hb2, -⟩ := prepBuffer_spec uintSize h 0 z.bufFloat32 xs hfit
    obtain ⟨x1, b1, hs, -, -⟩ := sortInto_spec zfloat32.SortBYOB xs b hb2
      (fun b hb => by
          obtain ⟨out, N, T, ho, -, -, -, -, -, hp, hl⟩ := zfloat32_SortBYOB_spec xs b hb hx
          exact ⟨out, ho, hp, hl⟩)
    have hP : z.prepBuffers uintSize (.float32s xs) = z.prepBuffers uintSize (.float32s xs) := rfl
    conv at hP =>
      rhs
      simp only [zSorter.prepBuffers, hb, Except.map]
    obtain ⟨z1, hz1, hzb⟩ : ∃ z1, z.prepBuffers uintSize (.float32s xs) = .ok z1 ∧ z1.bufFloat32 = b :=
      ⟨_, hP, rfl⟩
    have hr : ∃ r, z1.sortSwitch uintSize (.float32s xs) = .ok r := by
      simp only [zSorter.sortSwitch, hzb, hs, Except.map]
      exact ⟨_, rfl⟩
    obtain ⟨r, hr⟩ := hr
    refine ⟨z1, hz1, ?_, ?_, r, hr, ?_⟩
    · show xs.length ≤ z1.bufFloat32.length
      rw [hzb]; exact hb2
    · show z.bufFloat32.length ≤ z1.bufFloat32.length
      rw [hzb]; exact hb1
    · simp only [zSorter.Sort_, hz1]
      exact hr
  | float64s xs =>
    cases hk
    obtain ⟨b, hb, -, hb1, hb2, -⟩ := prepBuffer_spec uintSize h 0 z.bufFloat64 xs hfit
    obtain ⟨x1, b1, hs, -, -⟩ := sortInto_spec zfloat64.SortBYOB xs b hb2
      (fun b hb => by
          obtain ⟨out, N, T, ho, -, -, -, -, -, hp, hl⟩ := zfloat64_SortBYOB_spec xs b hb hx
          exact ⟨out, ho, hp, hl⟩)
    have hP : z.prepBuffers uintSize (.float64s xs) = z.prepBuffers uintSize (.float64s xs) := rfl
    conv at hP =>
      rhs
      simp only [zSorter.prepBuffers, hb, Except.map]
    obtain ⟨z1, hz1, hzb⟩ : ∃ z1, z.prepBuffers uintSize (.float64s xs) = .ok z1 ∧ z1.bufFloat64 = b :=
      ⟨_, hP, rfl⟩
    have hr : ∃ r, z1.sortSwitch uintSize (.float64s xs) = .ok r := by
      simp only [zSorter.sortSwitch, hzb, hs, Except.map]
      exact ⟨_, rfl⟩
    obtain ⟨r, hr⟩ := hr
    refine ⟨z1, hz1, ?_, ?_, r, hr, ?_⟩
    · show xs.length ≤ z1.bufFloat64.length
      rw [hzb]; exact hb2
    · show z.bufFloat64.length ≤ z1.bufFloat64.length
      rw [hzb]; exact hb1
    · simp only [zSorter.Sort_, hz1]
      exact hr
  | ints xs =>
    cases hk
    obtain ⟨b, hb, -, hb1, hb2, -⟩ := prepBuffer_spec uintSize h 0 z.bufInt xs hfit
    obtain ⟨x1, b1, hs, -, -⟩ := sortInto_spec (zint.SortBYOB uintSize) xs b hb2
      (fun b hb => by
          obtain ⟨out, ho, hp, -, hl⟩ := zint_SortBYOB_spec uintSize h xs b hb hx
          exact ⟨out, ho, hp, hl⟩)
    have hP : z.prepBuffers uintSize (.ints xs) = z.prepBuffers uintSize (.ints xs) := rfl
    conv at hP =>
      rhs
      simp only [zSorter.prepBuffers, hb, Except.map]
    obtain ⟨z1, hz1, hzb⟩ : ∃ z1, z.prepBuffers uintSize (.ints xs) = .ok z1 ∧ z1.bufInt = b :=
      ⟨_, hP, rfl⟩
    have hr : ∃ r, z1.sortSwitch uintSize (.ints xs) = .ok r := by
      simp only [zSorter.sortSwitch, hzb, hs, Except.map]
      exact ⟨_, rfl⟩
    obtain ⟨r, hr⟩ := hr
    refine ⟨z1, hz1, ?_, ?_, r, hr, ?_⟩
    · show xs.length ≤ z1.bufInt.length
      rw [hzb]; exact hb2
    · show z.bufInt.length ≤ z1.bufInt.length
      rw [hzb]; exact hb1
    · simp only [zSorter.Sort_, hz1]
      exact hr
  | int32s xs =>
    cases hk
    obtain ⟨b, hb, -, hb1, hb2, -⟩ := prepBuffer_spec uintSize h 0 z.bufInt32 xs hfit
    obtain ⟨x1, b1, hs, -, -⟩ := sortInto_spec zint32.SortBYOB xs b hb2
      (fun b hb => by
          obtain ⟨out, ho, hp, -, hl⟩ := zint32_SortBYOB_spec xs b hb hx
          exact ⟨out, ho, hp, hl⟩)
    have hP : z.prepBuffers uintSize (.int32s xs) = z.prepBuffers uintSize (.int32s xs) := rfl
    conv at hP =>
      rhs
      simp only [zSorter.prepBuffers, hb, Except.map]
    obtain ⟨z1, hz1, hzb⟩ : ∃ z1, z.prepBuffers uintSize (.int32s xs) = .ok z1 ∧ z1.bufInt32 = b :=
      ⟨_, hP, rfl⟩
    have hr : ∃ r, z1.sortSwitch uintSize (.int32s xs) = .ok r := by
      simp only [zSorter.sortSwitch, hzb, hs, Except.map]
      exact ⟨_, rfl⟩
    obtain ⟨r, hr⟩ := hr
    refine ⟨z1, hz1, ?_, ?_, r, hr, ?_⟩
    · show xs.length ≤ z1.bufInt32.length
      rw [hzb]; exact hb2
    · show z.bufInt32.length ≤ z1.bufInt32.length
      rw [hzb]; exact hb1
    · simp only [zSorter.Sort_, hz1]
      exact hr
  | int64s xs =>
    cases hk
    obtain ⟨b, hb, -, hb1, hb2, -⟩ := prepBuffer_spec uintSize h 0 z.bufInt64 xs hfit
    obtain ⟨x1, b1, hs, -, -⟩ := sortInto_spec zint64.SortBYOB xs b hb2
      (fun b hb => by
          obtain ⟨out, ho, hp, -, hl⟩ := zint64_SortBYOB_spec xs b hb hx
          exact ⟨out, ho, hp, hl⟩)
    have hP : z.prepBuffers uintSize (.int64s xs) = z.prepBuffers uintSize (.int64s xs) := rfl
    conv at hP =>
      rhs
      simp only [zSorter.prepBuffers, hb, Except.map]
    obtain ⟨z1, hz1, hzb⟩ : ∃ z1, z.prepBuffers uintSize (.int64s xs) = .ok z1 ∧ z1.bufInt64 = b :=
      ⟨_, hP, rfl⟩
    have hr : ∃ r, z1.sortSwitch uintSize (.int64s xs) = .ok r := by
      simp only [zSorter.sortSwitch, hzb, hs, Except.map]
      exact ⟨_, rfl⟩
    obtain ⟨r, hr⟩ := hr
    refine ⟨z1, hz1, ?_, ?_, r, hr, ?_⟩
    · show xs.length ≤ z1.bufInt64.length
      rw [hzb]; exact hb2
    · show z.bufInt64.length ≤ z1.bufInt64.length
      rw [hzb]; exact hb1
    · simp only [zSorter.Sort_, hz1]
      exact hr
  | uints xs =>
    cases hk
    obtain ⟨b, hb, -, hb1, hb2, -⟩ := prepBuffer_spec uintSize h 0 z.bufUint xs hfit
    obtain ⟨x1, b1, hs, -, -⟩ := sortInto_spec (zuint.SortBYOB uintSize) xs b hb2
      (fun b hb => by
          obtain ⟨out, ho, hp, -, hl⟩ := zuint_SortBYOB_spec uintSize h xs b hb hx
          exact ⟨out, ho, hp, hl⟩)
    have hP : z.prepBuffers uintSize (.uints xs) = z.prepBuffers uintSize (.uints xs) := rfl
    conv at hP =>
      rhs
      simp only [zSorter.prepBuffers, hb, Except.map]
    obtain ⟨z1, hz1, hzb⟩ : ∃ z1, z.prepBuffers uintSize (.uints xs) = .ok z1 ∧ z1.bufUint = b :=
      ⟨_, hP, rfl⟩
    have hr : ∃ r, z1.sortSwitch uintSize (.uints xs) = .ok r := by
      simp only [zSorter.sortSwitch, hzb, hs, Except.map]
      exact ⟨_, rfl⟩
    obtain ⟨r, hr⟩ := hr
    refine ⟨z1, hz1, ?_, ?_, r, hr, ?_⟩
    · show xs.length ≤ z1.bufUint.length
      rw [hzb]; exact hb2
    · show z.bufUint.length ≤ z1.bufUint.length
      rw [hzb]; exact hb1
    · simp only [zSorter.Sort_, hz1]
      exact hr
  | uint32s xs =>
    cases hk
    obtain ⟨b, hb, -, hb1, hb2, -⟩ := prepBuffer_spec uintSize h 0 z.bufUint32 xs hfit
    obtain ⟨x1, b1, hs, -, -⟩ := sortInto_spec zuint32.SortBYOB xs b hb2
      (fun b hb => by
          obtain ⟨out, ho, hp, -, hl⟩ := zuint32_SortBYOB_spec xs b hb hx
          exact ⟨out, ho, hp, hl⟩)
    have hP : z.prepBuffers uintSize (.uint32s xs) = z.prepBuffers uintSize (.uint32s xs) := rfl
    conv at hP =>
      rhs
      simp only [zSorter.prepBuffers, hb, Except.map]
    obtain ⟨z1, hz1, hzb⟩ : ∃ z1, z.prepBuffers uintSize (.uint32s xs) = .ok z1 ∧ z1.bufUint32 = b :=
      ⟨_, hP, rfl⟩
    have hr : ∃ r, z1.sortSwitch uintSize (.uint32s xs) = .ok r := by
      simp only [zSorter.sortSwitch, hzb, hs, Except.map]
      exact ⟨_, rfl⟩
    obtain ⟨r, hr⟩ := hr
    refine ⟨z1, hz1, ?_, ?_, r, hr, ?_⟩
    · show xs.length ≤ z1.bufUint32.length
      rw [hzb]; exact hb2
    · show z.bufUint32.length ≤ z1.bufUint32.length
      rw [hzb]; exact hb1
    · simp only [zSorter.Sort_, hz1]
      exact hr
  | uint64s xs =>
    cases hk
    obtain ⟨b, hb, -, hb1, hb2, -⟩ := prepBuffer_spec uintSize h 0 z.bufUint64 xs hfit
    obtain ⟨x1, b1, hs, -, -⟩ := sortInto_spec zuint64.SortBYOB xs b hb2
      (fun b hb => by
          obtain ⟨out, ho, hp, -, hl⟩ := zuint64_SortBYOB_spec xs b hb hx
          exact ⟨out, ho, hp, hl⟩)
    have hP : z.prepBuffers uintSize (.uint64s xs) = z.prepBuffers uintSize (.uint64s xs) := rfl
    conv at hP =>
      rhs
      simp only [zSorter.prepBuffers, hb, Except.map]
    obtain ⟨z1, hz1, hzb⟩ : ∃ z1, z.prepBuffers uintSize (.uint64s xs) = .ok z1 ∧ z1.bufUint64 = b :=
      ⟨_, hP, rfl⟩
    have hr : ∃ r, z1.sortSwitch uintSize (.uint64s xs) = .ok r := by
      simp only [zSorter.sortSwitch, hzb, hs, Except.map]
      exact ⟨_, rfl⟩
    obtain ⟨r, hr⟩ := hr
    refine ⟨z1, hz1, ?_, ?_, r, hr, ?_⟩
    · show xs.length ≤ z1.bufUint64.length
      rw [hzb]; exact hb2
    · show z.bufUint64.length ≤ z1.bufUint64.length
      rw [hzb]; exact hb1
    · simp only [zSorter.Sort_, hz1]
      exact hr
  | strings xs => cases hk
  | sortable data less => cases hk
  | other t => cases hk

/-! ## The part of the buffer beyond `len(x)` -/

/-- The radix passes leave the elements of the buffer from index `len(from)` on as they
were. -/
theorem radixSort_tail {α : Type} (E : Engine α) (ok : α → Prop) (u : α → Nat)
    (R : α → α → Prop) (hE : E.Sound ok u R) (head frm buffer : List α)
    (hlen : frm.length ≤ buffer.length) (hok : ∀ e ∈ frm, ok e) :
    ∃ out, radixSort E head frm buffer = .ok out ∧
      out.buffer.drop frm.length = buffer.drop frm.length := by
  obtain ⟨r, hr, h1, h2, -, -⟩ := passes_spec E ok u R hE frm hok (E.bitSize / radix) 0
    (by omega) frm (buffer.take frm.length) (List.replicate 256 0) (List.length_replicate _ _)
    (List.Perm.refl _)
    (by simp [hlen]) (by simp [List.pairwise_iff_getElem, Nat.mod_one])
  have hr0 : passes E (E.bitSize / radix) 0 frm (buffer.take frm.length)
      (List.replicate 256 0) = .ok r := hr
  refine ⟨{ x := head ++ (if r.swaps % 2 = 0 then r.frm else r.dst)
            buffer := (if r.swaps % 2 = 0 then r.dst else r.frm) ++ buffer.drop frm.length
            scatters := r.swaps }, ?_, ?_⟩
  · simp only [radixSort, hr0]
  · apply List.drop_left'
    split
    · exact h2
    · exact h1

/-- A sound engine sorts `x` and leaves the buffer beyond `len(x)` as it was. -/
theorem Engine.SortBYOB_tail {α : Type} (E : Engine α) (ok : α → Prop) (u : α → Nat)
    (R : α → α → Prop) (hE : E.Sound ok u R) (x buffer : List α)
    (hlen : x.length ≤ buffer.length) (hok : ∀ e ∈ x, ok e) :
    ∃ out, E.SortBYOB x buffer = .ok out ∧ out.x.Perm x ∧ out.x.Pairwise R ∧
      out.buffer.drop x.length = buffer.drop x.length := by
  obtain ⟨out, ho, hp, hs, -⟩ := E.SortBYOB_spec ok u R hE x buffer hlen hok
  refine ⟨out, ho, hp, hs, ?_⟩
  unfold Engine.SortBYOB at ho
  rw [if_neg (by omega)] at ho
  by_cases h2 : x.length < 2
  · rw [if_pos h2] at ho
    cases ho
    rfl
  · rw [if_neg h2] at ho
    obtain ⟨out2, ho2, ht⟩ := radixSort_tail E ok u R hE [] x buffer hlen hok
    rw [ho2] at ho
    cases ho
    exact ht

/-- Two runs of a sound engine on the same `x` with two buffers leave the same `x`, and each
leaves its buffer beyond `len(x)` as it was. -/
theorem Engine.SortBYOB_buffer_independent {α : Type} [LinearOrder α] (E : Engine α)
    (ok : α → Prop) (u : α → Nat) (hE : E.Sound ok u (fun a b => a ≤ b)) (x b1 b2 : List α)
    (h1 : x.length ≤ b1.length) (h2 : x.length ≤ b2.length) (hok : ∀ e ∈ x, ok e) :
    ∃ o1 o2, E.SortBYOB x b1 = .ok o1 ∧ E.SortBYOB x b2 = .ok o2 ∧ o1.x = o2.x ∧
      o1.buffer.drop x.length = b1.drop x.length ∧
      o2.buffer.drop x.length = b2.drop x.length := by
  obtain ⟨o1, e1, p1, s1, t1⟩ := E.SortBYOB_tail ok u _ hE x b1 h1 hok
  obtain ⟨o2, e2, p2, s2, t2⟩ := E.SortBYOB_tail ok u _ hE x b2 h2 hok
  exact ⟨o1, o2, e1, e2, eq_of_perm_of_sorted_le (p1.trans p2.symm) s1 s2, t1, t2⟩

/-! ## The keys of `ReaderParseStrings`, and the offsets that `ReadSection` iterates -/

theorem mapSet_keys (m : List (Nat × List Nat)) (k : Nat) (v : List Nat) :
    (mapSet m k v).map Prod.fst = (m.map Prod.fst).filter (fun a => a != k) ++ [k] := by
  unfold mapSet
  rw [List.map_append, List.filter_map]
  rfl

/-- The invariant of the loop of `ReaderParseStrings`: the keys and `offset` are `uint64`
values, the keys are distinct, and once the map is non-empty it has the key 0 (the first
non-empty piece is stored while `offset` is still 0). -/
theorem parse_inv (pieces : List (List Nat)) (s : List (Nat × List Nat) × Nat)
    (h1 : ∀ k ∈ s.1.map Prod.fst, k < 2 ^ 64) (h2 : s.2 < 2 ^ 64)
    (h3 : (s.1.map Prod.fst).Nodup) (h4 : s.1 = [] → s.2 = 0)
    (h5 : s.1 ≠ [] → 0 ∈ s.1.map Prod.fst) :
    (∀ k ∈ ((pieces.foldl parseStep s).1).map Prod.fst, k < 2 ^ 64) ∧
      (((pieces.foldl parseStep s).1).map Prod.fst).Nodup ∧
      ((pieces.foldl parseStep s).1 ≠ [] → 0 ∈ ((pieces.foldl parseStep s).1).map Prod.fst) := by
  induction pieces generalizing s with
  | nil => exact ⟨h1, h3, h5⟩
  | cons p rest ih =>
    rw [List.foldl_cons]
    by_cases hp : p.length = 0
    · have : parseStep s p = s := by unfold parseStep; rw [if_pos hp]
      rw [this]
      exact ih s h1 h2 h3 h4 h5
    · have hstep : parseStep s p = (mapSet s.1 s.2 p, (s.2 + (p.length + 1)) % 2 ^ 64) := by
        unfold parseStep; rw [if_neg hp]
      rw [hstep]
      apply ih
      · intro k hk
        simp only [mapSet_keys, List.mem_append, List.mem_filter, List.mem_singleton] at hk
        rcases hk with hk | hk
        · exact h1 k hk.1
        · rw [hk]; exact h2
      · exact Nat.mod_lt _ (by norm_num)
      · simp only [mapSet_keys]
        rw [List.nodup_append]
        refine ⟨h3.filter _, List.nodup_singleton _, ?_⟩
        intro a ha hb
        rw [List.mem_singleton] at hb
        rw [List.mem_filter] at ha
        simp [hb] at ha
      · intro hnil
        unfold mapSet at hnil
        simp at hnil
      · intro _
        simp only [mapSet_keys, List.mem_append, List.mem_filter, List.mem_singleton]
        by_cases h0 : s.2 = 0
        · exact Or.inr h0.symm
        · have hne : s.1 ≠ [] := fun hnil => h0 (h4 hnil)
          refine Or.inl ⟨h5 hne, ?_⟩
          simp only [bne_iff_ne, ne_eq]
          exact fun h => h0 h.symm

/-- The keys of `ReaderParseStrings(buf)` are distinct `uint64` values, 0 among them unless
the map is empty. -/
theorem ReaderParseStrings_keys (buf : List Nat) :
    (∀ k ∈ (ReaderParseStrings buf).map Prod.fst, k < 2 ^ 64) ∧
      ((ReaderParseStrings buf).map Prod.fst).Nodup ∧
      (ReaderParseStrings buf ≠ [] → 0 ∈ (ReaderParseStrings buf).map Prod.fst) :=
  parse_inv (buf.splitOn 0) ([], 0) (by simp) (by norm_num) (by simp) (fun _ => rfl)
    (fun h => absurd rfl h)

theorem foldl_append_singleton (iter init : List Nat) :
    iter.foldl (fun keys k => keys ++ [k]) init = init ++ iter := by
  induction iter generalizing init with
  | nil => simp
  | cons a l ih => rw [List.foldl_cons, ih, List.append_assoc, List.singleton_append]

/-- The offsets that `ReadSection` iterates, for any map `nodes` with `uint64` keys and any
order `iter` of the `range` loop: the sorted key slice, once each; the value 0 of the
`len(nodes)` leading elements of `make([]uint64, len(nodes))` is among them when the map is
not empty. -/
theorem ReadSectionKeys_spec (uintSize : Nat) (nodes : List (Nat × List Nat)) (iter : List Nat)
    (hiter : iter.Perm (nodes.map Prod.fst)) (hk : ∀ k ∈ nodes.map Prod.fst, k < 2 ^ 64) :
    ∃ ks, ReadSectionKeys uintSize nodes iter = .ok ks ∧ ks.Pairwise (fun a b => a < b) ∧
      ∀ k, k ∈ ks ↔ ((k = 0 ∧ nodes ≠ []) ∨ k ∈ nodes.map Prod.fst) := by
  have hkeys : ∀ e ∈ List.replicate nodes.length 0 ++ iter, e < 2 ^ 64 := by
    intro e he
    rcases List.mem_append.1 he with h | h
    · rw [(List.mem_replicate.1 h).2]; norm_num
    · exact hk e (hiter.subset h)
  obtain ⟨y, hy, hp, hs⟩ := zuint64_Sort_spec _ hkeys
  have hS : Sort_ uintSize (.uint64s (List.replicate nodes.length 0 ++ iter)) =
      .ok (.uint64s y, none) := dispatch_ok _ _ y hy
  refine ⟨UtilUniqueSlice y, ?_, ?_, ?_⟩
  · unfold ReadSectionKeys
    simp only [foldl_append_singleton, hS]
  · rw [UtilUniqueSlice_eq]
    have h1 : (firstOccurrences y).Pairwise (fun a b => a ≤ b) :=
      hs.sublist (firstOccurrences_sublist y)
    exact (h1.and (nodup_firstOccurrences y)).imp (fun hab => lt_of_le_of_ne hab.1 hab.2)
  · intro k
    rw [UtilUniqueSlice_eq, mem_firstOccurrences, hp.mem_iff, List.mem_append,
      List.mem_replicate, hiter.mem_iff]
    constructor
    · rintro (⟨hn, h0⟩ | h)
      · left
        refine ⟨h0, ?_⟩
        intro hnil
        rw [hnil] at hn
        exact hn rfl
      · exact Or.inr h
    · rintro (⟨h0, hn⟩ | h)
      · left
        refine ⟨?_, h0⟩
        intro hl
        exact hn (List.length_eq_zero.1 hl)
      · exact Or.inr h

/-! ## `UtilIsNice` -/

/-- The loop of `UtilIsNice` returns inside exactly when it meets a control byte other than
carriage return and newline, and otherwise counts the spaces. -/
theorem isNiceLoop_eq (str : List Nat) (spaces : Nat) :
    isNiceLoop str spaces =
      if ∀ c ∈ str, 32 ≤ c ∨ c = 13 ∨ c = 10 then some (spaces + str.count 32) else none := by
  induction str generalizing spaces with
  | nil => simp [isNiceLoop]
  | cons c rest ih =>
    unfold isNiceLoop
    by_cases hc : c < 32 ∧ ¬ (c = 13 ∨ c = 10)
    · have hn : ¬ ∀ d ∈ c :: rest, 32 ≤ d ∨ d = 13 ∨ d = 10 := by
        intro hall
        have := hall c (List.mem_cons_self _ _)
        omega
      rw [if_pos hc, if_neg hn]
    · have hc1 : 32 ≤ c ∨ c = 13 ∨ c = 10 := by omega
      have hiff : (∀ d ∈ c :: rest, 32 ≤ d ∨ d = 13 ∨ d = 10) ↔
          ∀ d ∈ rest, 32 ≤ d ∨ d = 13 ∨ d = 10 := by
        constructor
        · exact fun hall d hd => hall d (List.mem_cons_of_mem _ hd)
        · intro hall d hd
          rcases List.mem_cons.1 hd with rfl | hd
          · exact hc1
          · exact hall d hd
      have hcount : (if c = 32 then spaces + 1 else spaces) + rest.count 32 =
          spaces + (c :: rest).count 32 := by
        by_cases h32 : c = 32
        · subst h32
          rw [if_pos rfl, List.count_cons_self]
          omega
        · rw [if_neg h32, List.count_cons_of_ne (fun h => h32 h.symm)]
      simp only [if_neg hc, ih, hiff, hcount]

/-- The function `UtilIsNice` in closed form. -/
theorem UtilIsNice_eq (str : List Nat) :
    UtilIsNice str = true ↔
      (∃ c ∈ str, c ≠ 32) ∧ ∀ c ∈ str, 32 ≤ c ∨ c = 13 ∨ c = 10 := by
  unfold UtilIsNice
  rw [isNiceLoop_eq, Nat.zero_add]
  have hcnt : str.count 32 = str.length ↔ ¬ ∃ c ∈ str, c ≠ 32 := by
    rw [List.count_eq_length]
    constructor
    · rintro h ⟨c, hc, hne⟩
      exact hne (h c hc).symm
    · intro h c hc
      by_contra hne
      exact h ⟨c, hc, fun h2 => hne h2.symm⟩
  by_cases hall : ∀ c ∈ str, 32 ≤ c ∨ c = 13 ∨ c = 10
  · rw [if_pos hall]
    by_cases hs : str.count 32 = str.length
    · simp only [hs, if_true]
      constructor
      · intro h; cases h
      · intro h; exact absurd h.1 (hcnt.1 hs)
    · simp only [hs, if_false]
      constructor
      · intro _
        refine ⟨?_, hall⟩
        by_contra hne
        exact hs (hcnt.2 hne)
      · intro _; trivial
  · rw [if_neg hall]
    constructor
    · intro h; cases h
    · intro h; exact absurd h.2 hall

/-! ## `UtilConvHex` -/

/-- The chunk of a byte: a backslash, `x`, and one digit below `0x10`, two digits otherwise. -/
theorem sprintfHex_eq (b : Nat) :
    sprintfHex b =
      if b < 16 then [92, 120, udigits.getD b 0]
      else [92, 120, udigits.getD (b / 16) 0, udigits.getD (b % 16) 0] := by
  have h1 : b >>> 4 = b / 16 := Nat.shiftRight_eq_div_pow b 4
  have h2 : b &&& 0xF = b % 16 := Nat.and_pow_two_sub_one_eq_mod b 4
  unfold sprintfHex fmtHex
  by_cases h : b < 16
  · rw [if_neg (by omega), if_pos h]
    rfl
  · rw [if_pos (by omega), if_neg h, h1, h2]
    rfl

/-- The sixteen hexadecimal digits are distinct, and none of them is a backslash. -/
theorem udigits_inj : ∀ d, d < 16 → ∀ e, e < 16 →
    udigits.getD d 0 = udigits.getD e 0 → d = e := by
  decide

theorem udigits_ne_backslash : ∀ d, d < 16 → udigits.getD d 0 ≠ 92 := by
  decide

theorem UtilConvHex_foldl (buf acc : List Nat) :
    buf.foldl (fun hexBuf b => hexBuf ++ sprintfHex b) acc =
      acc ++ (buf.map sprintfHex).flatten := by
  induction buf generalizing acc with
  | nil => simp
  | cons b rest ih =>
    rw [List.foldl_cons, ih, List.map_cons, List.flatten_cons, List.append_assoc]

/-- The chunks are concatenated in input order. -/
theorem UtilConvHex_eq (buf : List Nat) : UtilConvHex buf = (buf.map sprintfHex).flatten := by
  unfold UtilConvHex
  rw [UtilConvHex_foldl, List.nil_append]

theorem UtilConvHex_cons (b : Nat) (s : List Nat) :
    UtilConvHex (b :: s) = sprintfHex b ++ UtilConvHex s := by
  rw [UtilConvHex_eq, UtilConvHex_eq, List.map_cons, List.flatten_cons]

/-- The encoding of a string is empty or starts with a backslash. -/
theorem UtilConvHex_head (s : List Nat) :
    UtilConvHex s = [] ∨ ∃ r, UtilConvHex s = 92 :: r := by
  cases s with
  | nil => exact Or.inl rfl
  | cons b s =>
    right
    rw [UtilConvHex_cons]
    exact ⟨_, rfl⟩

/-- The encoding is injective on strings of bytes. -/
theorem UtilConvHex_inj (s : List Nat) : ∀ t : List Nat, (∀ b ∈ s, b < 256) →
    (∀ b ∈ t, b < 256) → UtilConvHex s = UtilConvHex t → s = t := by
  induction s with
  | nil =>
    intro t _ _ h
    cases t with
    | nil => rfl
    | cons c t =>
      rw [UtilConvHex_cons] at h
      cases h
  | cons b s ih =>
    intro t hs ht h
    cases t with
    | nil =>
      rw [UtilConvHex_cons] at h
      cases h
    | cons c t =>
      have hb := hs b (List.mem_cons_self _ _)
      have hc := ht c (List.mem_cons_self _ _)
      rw [UtilConvHex_cons, UtilConvHex_cons, sprintfHex_eq, sprintfHex_eq] at h
      have hs1 : ∀ a ∈ s, a < 256 := fun a ha => hs a (List.mem_cons_of_mem _ ha)
      have ht1 : ∀ a ∈ t, a < 256 := fun a ha => ht a (List.mem_cons_of_mem _ ha)
      by_cases hb16 : b < 16 <;> by_cases hc16 : c < 16
      · rw [if_pos hb16, if_pos hc16] at h
        simp only [List.cons_append, List.nil_append, List.cons.injEq, true_and] at h
        have := udigits_inj b hb16 c hc16 h.1
        rw [this, ih t hs1 ht1 h.2]
      · rw [if_pos hb16, if_neg hc16] at h
        simp only [List.cons_append, List.nil_append, List.cons.injEq, true_and] at h
        rcases UtilConvHex_head s with h0 | ⟨r, h0⟩
        · rw [h0] at h; cases h.2
        · rw [h0] at h
          simp only [List.cons.injEq] at h
          exact absurd h.2.1.symm (udigits_ne_backslash (c % 16) (Nat.mod_lt _ (by norm_num)))
      · rw [if_neg hb16, if_pos hc16] at h
        simp only [List.cons_append, List.nil_append, List.cons.injEq, true_and] at h
        rcases UtilConvHex_head t with h0 | ⟨r, h0⟩
        · rw [h0] at h; cases h.2
        · rw [h0] at h
          simp only [List.cons.injEq] at h
          exact absurd h.2.1 (udigits_ne_backslash (b % 16) (Nat.mod_lt _ (by norm_num)))
      · rw [if_neg hb16, if_neg hc16] at h
        simp only [List.cons_append, List.nil_append, List.cons.injEq, true_and] at h
        have e1 := udigits_inj (b / 16) (by omega) (c / 16) (by omega) h.1
        have e2 := udigits_inj (b % 16) (Nat.mod_lt _ (by norm_num)) (c % 16)
          (Nat.mod_lt _ (by norm_num)) h.2.1
        have : b = c := by omega
        rw [this, ih t hs1 ht1 h.2.2]

/-! ## Lengths up to `(2 ^ uintSize - 4) / 5` -/

/-- For a requested length `n` with `5 * n + 4 ≤ 2 ^ uintSize`, the product `5 * n` either
fits `int` or wraps to a value of at most `-4`: a non-negative `allocSize` is at least `n`. -/
theorem allocSize_nonneg_ge (uintSize : Nat) (h : uintSize = 32 ∨ uintSize = 64) (c n : Int)
    (hn : 0 ≤ n) (hrecv : 5 * n + 4 ≤ 2 ^ uintSize) (hpos : 0 ≤ allocSize uintSize c n) :
    n ≤ allocSize uintSize c n := by
  by_cases hfit : 5 * n < 2 ^ (uintSize - 1)
  · exact allocSize_ge uintSize h c n hn (Or.inr hfit)
  · by_cases hc : c = 0
    · exact allocSize_ge uintSize h c n hn (Or.inl hc)
    · exfalso
      unfold allocSize wrapInt at hpos
      rw [if_neg hc] at hpos
      generalize 5 * n = m at hpos hrecv hfit
      rcases h with h | h <;> subst h <;> norm_num at hrecv hfit hpos
      · have hw : (m + 2147483648) % 4294967296 - 2147483648 = m - 4294967296 := by omega
        rw [hw] at hpos
        have h1 := Int.neg_tdiv (-(m - 4294967296)) 4
        rw [neg_neg] at h1
        have h2 := Int.tdiv_eq_ediv (by omega : 0 ≤ -(m - 4294967296))
          (by norm_num : (0 : Int) ≤ 4)
        omega
      · have hw : (m + 9223372036854775808) % 18446744073709551616 - 9223372036854775808 =
            m - 18446744073709551616 := by omega
        rw [hw] at hpos
        have h1 := Int.neg_tdiv (-(m - 18446744073709551616)) 4
        rw [neg_neg] at h1
        have h2 := Int.tdiv_eq_ediv (by omega : 0 ≤ -(m - 18446744073709551616))
          (by norm_num : (0 : Int) ≤ 4)
        omega

/-- One case of `prepBuffers` for such a length: when it returns, the buffer is at least as
long as `x` and not shorter than before. -/
theorem prepBuffer_recv {α : Type} (uintSize : Nat) (h : uintSize = 32 ∨ uintSize = 64)
    (zero : α) (buf x : List α) (hrecv : 5 * (x.length : Int) + 4 ≤ 2 ^ uintSize)
    (b : List α) (k : Nat) (hb : prepBuffer uintSize zero buf x = .ok (b, k)) :
    x.length ≤ b.length ∧ buf.length ≤ b.length := by
  unfold prepBuffer at hb
  by_cases hlt : buf.length < x.length
  · rw [if_pos hlt] at hb
    unfold make at hb
    by_cases hn : allocSize uintSize (buf.length : Int) (x.length : Int) < 0
    · rw [if_pos hn] at hb
      cases hb
    · rw [if_neg hn] at hb
      simp only [Except.ok.injEq, Prod.mk.injEq] at hb
      have hge := allocSize_nonneg_ge uintSize h (buf.length : Int) (x.length : Int)
        (by omega) hrecv (by omega)
      rw [← hb.1, List.length_replicate]
      omega
  · rw [if_neg hlt] at hb
    simp only [Except.ok.injEq, Prod.mk.injEq] at hb
    rw [← hb.1]
    omega

/-- Whenever `prepBuffers` returns on a numeric slice of such a length, the buffer of its kind
is at least as long as the slice, and the switch of `zSorter.Sort` then returns. -/
theorem zSorter_prepBuffers_recv (uintSize : Nat) (h : uintSize = 32 ∨ uintSize = 64)
    (z : zSorter) (x : Value) (k : Kind) (hk : x.kind = some k) (hx : x.inRange uintSize)
    (hrecv : 5 * (x.len : Int) + 4 ≤ 2 ^ uintSize) (z1 : zSorter)
    (hz : z.prepBuffers uintSize x = .ok z1) :
    x.len ≤ z1.cap k ∧ ∃ r, z1.sortSwitch uintSize x = .ok r ∧ z.Sort_ uintSize x = .ok r := by
  cases x with
  | float32s xs =>
    cases hk
    simp only [zSorter.prepBuffers] at hz
    cases hb : prepBuffer uintSize 0 z.bufFloat32 xs with
    | error e => rw [hb] at hz; cases hz
    | ok bk =>
      rw [hb] at hz
      simp only [Except.map, Except.ok.injEq] at hz
      obtain ⟨hl, -⟩ := prepBuffer_recv uintSize h 0 z.bufFloat32 xs hrecv bk.1 bk.2 hb
      have hzb : z1.bufFloat32 = bk.1 := by rw [← hz]
      obtain ⟨x1, b1, hs, -, -⟩ := sortInto_spec zfloat32.SortBYOB xs bk.1 hl
        (fun b hb => by
        obtain ⟨out, N, T, ho, -, -, -, -, -, hp, hl⟩ := zfloat32_SortBYOB_spec xs b hb hx
        exact ⟨out, ho, hp, hl⟩)
      have hr : ∃ r, z1.sortSwitch uintSize (.float32s xs) = .ok r := by
        simp only [zSorter.sortSwitch, hzb, hs, Except.map]
        exact ⟨_, rfl⟩
      obtain ⟨r, hr⟩ := hr
      refine ⟨?_, r, hr, ?_⟩
      · show xs.length ≤ z1.bufFloat32.length
        rw [hzb]; exact hl
      · simp only [zSorter.Sort_, zSorter.prepBuffers, hb, Except.map, hz]
        exact hr
  | float64s xs =>
    cases hk
    simp only [zSorter.prepBuffers] at hz
    cases hb : prepBuffer uintSize 0 z.bufFloat64 xs with
    | error e => rw [hb] at hz; cases hz
    | ok bk =>
      rw [hb] at hz
      simp only [Except.map, Except.ok.injEq] at hz
      obtain ⟨hl, -⟩ := prepBuffer_recv uintSize h 0 z.bufFloat64 xs hrecv bk.1 bk.2 hb
      have hzb : z1.bufFloat64 = bk.1 := by rw [← hz]
      obtain ⟨x1, b1, hs, -, -⟩ := sortInto_spec zfloat64.SortBYOB xs bk.1 hl
        (fun b hb => by
        obtain ⟨out, N, T, ho, -, -, -, -, -, hp, hl⟩ := zfloat64_SortBYOB_spec xs b hb hx
        exact ⟨out, ho, hp, hl⟩)
      have hr : ∃ r, z1.sortSwitch uintSize (.float64s xs) = .ok r := by
        simp only [zSorter.sortSwitch, hzb, hs, Except.map]
        exact ⟨_, rfl⟩
      obtain ⟨r, hr⟩ := hr
      refine ⟨?_, r, hr, ?_⟩
      · show xs.length ≤ z1.bufFloat64.length
        rw [hzb]; exact hl
      · simp only [zSorter.Sort_, zSorter.prepBuffers, hb, Except.map, hz]
        exact hr
  | ints xs =>
    cases hk
    simp only [zSorter.prepBuffers] at hz
    cases hb : prepBuffer uintSize 0 z.bufInt xs with
    | error e => rw [hb] at hz; cases hz
    | ok bk =>
      rw [hb] at hz
      simp only [Except.map, Except.ok.injEq] at hz
      obtain ⟨hl, -⟩ := prepBuffer_recv uintSize h 0 z.bufInt xs hrecv bk.1 bk.2 hb
      have hzb : z1.bufInt = bk.1 := by rw [← hz]
      obtain ⟨x1, b1, hs, -, -⟩ := sortInto_spec (zint.SortBYOB uintSize) xs bk.1 hl
        (fun b hb => by
        obtain ⟨out, ho, hp, -, hl⟩ := zint_SortBYOB_spec uintSize h xs b hb hx
        exact ⟨out, ho, hp, hl⟩)
      have hr : ∃ r, z1.sortSwitch uintSize (.ints xs) = .ok r := by
        simp only [zSorter.sortSwitch, hzb, hs, Except.map]
        exact ⟨_, rfl⟩
      obtain ⟨r, hr⟩ := hr
      refine ⟨?_, r, hr, ?_⟩
      · show xs.length ≤ z1.bufInt.length
        rw [hzb]; exact hl
      · simp only [zSorter.Sort_, zSorter.prepBuffers, hb, Except.map, hz]
        exact hr
  | int32s xs =>
    cases hk
    simp only [zSorter.prepBuffers] at hz
    cases hb : prepBuffer uintSize 0 z.bufInt32 xs with
    | error e => rw [hb] at hz; cases hz
    | ok bk =>
      rw [hb] at hz
      simp only [Except.map, Except.ok.injEq] at hz
      obtain ⟨hl, -⟩ := prepBuffer_recv uintSize h 0 z.bufInt32 xs hrecv bk.1 bk.2 hb
      have hzb : z1.bufInt32 = bk.1 := by rw [← hz]
      obtain ⟨x1, b1, hs, -, -⟩ := sortInto_spec zint32.SortBYOB xs bk.1 hl
        (fun b hb => by
        obtain ⟨out, ho, hp, -, hl⟩ := zint32_SortBYOB_spec xs b hb hx
        exact ⟨out, ho, hp, hl⟩)
      have hr : ∃ r, z1.sortSwitch uintSize (.int32s xs) = .ok r := by
        simp only [zSorter.sortSwitch, hzb, hs, Except.map]
        exact ⟨_, rfl⟩
      obtain ⟨r, hr⟩ := hr
      refine ⟨?_, r, hr, ?_⟩
      · show xs.length ≤ z1.bufInt32.length
        rw [hzb]; exact hl
      · simp only [zSorter.Sort_, zSorter.prepBuffers, hb, Except.map, hz]
        exact hr
  | int64s xs =>
    cases hk
    simp only [zSorter.prepBuffers] at hz
    cases hb : prepBuffer uintSize 0 z.bufInt64 xs with
    | error e => rw [hb] at hz; cases hz
    | ok bk =>
      rw [hb] at hz
      simp only [Except.map, Except.ok.injEq] at hz
      obtain ⟨hl, -⟩ := prepBuffer_recv uintSize h 0 z.bufInt64 xs hrecv bk.1 bk.2 hb
      have hzb : z1.bufInt64 = bk.1 := by rw [← hz]
      obtain ⟨x1, b1, hs, -, -⟩ := sortInto_spec zint64.SortBYOB xs bk.1 hl
        (fun b hb => by
        obtain ⟨out, ho, hp, -, hl⟩ := zint64_SortBYOB_spec xs b hb hx
        exact ⟨out, ho, hp, hl⟩)
      have hr : ∃ r, z1.sortSwitch uintSize (.int64s xs) = .ok r := by
        simp only [zSorter.sortSwitch, hzb, hs, Except.map]
        exact ⟨_, rfl⟩
      obtain ⟨r, hr⟩ := hr
      refine ⟨?_, r, hr, ?_⟩
      · show xs.length ≤ z1.bufInt64.length
        rw [hzb]; exact hl
      · simp only [zSorter.Sort_, zSorter.prepBuffers, hb, Except.map, hz]
        exact hr
  | uints xs =>
    cases hk
    simp only [zSorter.prepBuffers] at hz
    cases hb : prepBuffer uintSize 0 z.bufUint xs with
    | error e => rw [hb] at hz; cases hz
    | ok bk =>
      rw [hb] at hz
      simp only [Except.map, Except.ok.injEq] at hz
      obtain ⟨hl, -⟩ := prepBuffer_recv uintSize h 0 z.bufUint xs hrecv bk.1 bk.2 hb
      have hzb : z1.bufUint = bk.1 := by rw [← hz]
      obtain ⟨x1, b1, hs, -, -⟩ := sortInto_spec (zuint.SortBYOB uintSize) xs bk.1 hl
        (fun b hb => by
        obtain ⟨out, ho, hp, -, hl⟩ := zuint_SortBYOB_spec uintSize h xs b hb hx
        exact ⟨out, ho, hp, hl⟩)
      have hr : ∃ r, z1.sortSwitch uintSize (.uints xs) = .ok r := by
        simp only [zSorter.sortSwitch, hzb, hs, Except.map]
        exact ⟨_, rfl⟩
      obtain ⟨r, hr⟩ := hr
      refine ⟨?_, r, hr, ?_⟩
      · show xs.length ≤ z1.bufUint.length
        rw [hzb]; exact hl
      · simp only [zSorter.Sort_, zSorter.prepBuffers, hb, Except.map, hz]
        exact hr
  | uint32s xs =>
    cases hk
    simp only [zSorter.prepBuffers] at hz
    cases hb : prepBuffer uintSize 0 z.bufUint32 xs with
    | error e => rw [hb] at hz; cases hz
    | ok bk =>
      rw [hb] at hz
      simp only [Except.map, Except.ok.injEq] at hz
      obtain ⟨hl, -⟩ := prepBuffer_recv uintSize h 0 z.bufUint32 xs hrecv bk.1 bk.2 hb
      have hzb : z1.bufUint32 = bk.1 := by rw [← hz]
      obtain ⟨x1, b1, hs, -, -⟩ := sortInto_spec zuint32.SortBYOB xs bk.1 hl
        (fun b hb => by
        obtain ⟨out, ho, hp, -, hl⟩ := zuint32_SortBYOB_spec xs b hb hx
        exact ⟨out, ho, hp, hl⟩)
      have hr : ∃ r, z1.sortSwitch uintSize (.uint32s xs) = .ok r := by
        simp only [zSorter.sortSwitch, hzb, hs, Except.map]
        exact ⟨_, rfl⟩
      obtain ⟨r, hr⟩ := hr
      refine ⟨?_, r, hr, ?_⟩
      · show xs.length ≤ z1.bufUint32.length
        rw [hzb]; exact hl
      · simp only [zSorter.Sort_, zSorter.prepBuffers, hb, Except.map, hz]
        exact hr
  | uint64s xs =>
    cases hk
    simp only [zSorter.prepBuffers] at hz
    cases hb : prepBuffer uintSize 0 z.bufUint64 xs with
    | error e => rw [hb] at hz; cases hz
    | ok bk =>
      rw [hb] at hz
      simp only [Except.map, Except.ok.injEq] at hz
      obtain ⟨hl, -⟩ := prepBuffer_recv uintSize h 0 z.bufUint64 xs hrecv bk.1 bk.2 hb
      have hzb : z1.bufUint64 = bk.1 := by rw [← hz]
      obtain ⟨x1, b1, hs, -, -⟩ := sortInto_spec zuint64.SortBYOB xs bk.1 hl
        (fun b hb => by
        obtain ⟨out, ho, hp, -, hl⟩ := zuint64_SortBYOB_spec xs b hb hx
        exact ⟨out, ho, hp, hl⟩)
      have hr : ∃ r, z1.sortSwitch uintSize (.uint64s xs) = .ok r := by
        simp only [zSorter.sortSwitch, hzb, hs, Except.map]
        exact ⟨_, rfl⟩
      obtain ⟨r, hr⟩ := hr
      refine ⟨?_, r, hr, ?_⟩
      · show xs.length ≤ z1.bufUint64.length
        rw [hzb]; exact hl
      · simp only [zSorter.Sort_, zSorter.prepBuffers, hb, Except.map, hz]
        exact hr
  | strings xs => cases hk
  | sortable data less => cases hk
  | other t => cases hk

/-- The only panic of `prepBuffers` is that of `make` on a negative length. -/
theorem zSorter_prepBuffers_error (uintSize : Nat) (z : zSorter) (x : Value) (e : String)
    (he : z.prepBuffers uintSize x = .error e) : e = "makeslice: len out of range" := by
  have hmk : ∀ {α : Type} (zero : α) (buf xs : List α),
      prepBuffer uintSize zero buf xs = .error e → e = "makeslice: len out of range" := by
    intro α zero buf xs hp
    unfold prepBuffer at hp
    by_cases hlt : buf.length < xs.length
    · rw [if_pos hlt] at hp
      unfold make at hp
      by_cases hn : allocSize uintSize (buf.length : Int) (xs.length : Int) < 0
      · rw [if_pos hn] at hp
        simp only [Except.error.injEq] at hp
        exact hp.symm
      · rw [if_neg hn] at hp
        cases hp
    · rw [if_neg hlt] at hp
      cases hp
  cases x with
  | float32s xs =>
    simp only [zSorter.prepBuffers] at he
    cases hb : prepBuffer uintSize 0 z.bufFloat32 xs with
    | error e0 =>
      rw [hb] at he
      simp only [Except.map, Except.error.injEq] at he
      subst he
      exact hmk 0 z.bufFloat32 xs hb
    | ok bk => rw [hb] at he; cases he
  | float64s xs =>
    simp only [zSorter.prepBuffers] at he
    cases hb : prepBuffer uintSize 0 z.bufFloat64 xs with
    | error e0 =>
      rw [hb] at he
      simp only [Except.map, Except.error.injEq] at he
      subst he
      exact hmk 0 z.bufFloat64 xs hb
    | ok bk => rw [hb] at he; cases he
  | ints xs =>
    simp only [zSorter.prepBuffers] at he
    cases hb : prepBuffer uintSize 0 z.bufInt xs with
    | error e0 =>
      rw [hb] at he
      simp only [Except.map, Except.error.injEq] at he
      subst he
      exact hmk 0 z.bufInt xs hb
    | ok bk => rw [hb] at he; cases he
  | int32s xs =>
    simp only [zSorter.prepBuffers] at he
    cases hb : prepBuffer uintSize 0 z.bufInt32 xs with
    | error e0 =>
      rw [hb] at he
      simp only [Except.map, Except.error.injEq] at he
      subst he
      exact hmk 0 z.bufInt32 xs hb
    | ok bk => rw [hb] at he; cases he
  | int64s xs =>
    simp only [zSorter.prepBuffers] at he
    cases hb : prepBuffer uintSize 0 z.bufInt64 xs with
    | error e0 =>
      rw [hb] at he
      simp only [Except.map, Except.error.injEq] at he
      subst he
      exact hmk 0 z.bufInt64 xs hb
    | ok bk => rw [hb] at he; cases he
  | uints xs =>
    simp only [zSorter.prepBuffers] at he
    cases hb : prepBuffer uintSize 0 z.bufUint xs with
    | error e0 =>
      rw [hb] at he
      simp only [Except.map, Except.error.injEq] at he
      subst he
      exact hmk 0 z.bufUint xs hb
    | ok bk => rw [hb] at he; cases he
  | uint32s xs =>
    simp only [zSorter.prepBuffers] at he
    cases hb : prepBuffer uintSize 0 z.bufUint32 xs with
    | error e0 =>
      rw [hb] at he
      simp only [Except.map, Except.error.injEq] at he
      subst he
      exact hmk 0 z.bufUint32 xs hb
    | ok bk => rw [hb] at he; cases he
  | uint64s xs =>
    simp only [zSorter.prepBuffers] at he
    cases hb : prepBuffer uintSize 0 z.bufUint64 xs with
    | error e0 =>
      rw [hb] at he
      simp only [Except.map, Except.error.injEq] at he
      subst he
      exact hmk 0 z.bufUint64 xs hb
    | ok bk => rw [hb] at he; cases he
  | strings xs => cases he
  | sortable data less => cases he
  | other t => cases he

/-- On a numeric slice of such a length the only panic of `zSorter.Sort` is that of `make`
inside `prepBuffers`, before any buffer is assigned. -/
theorem zSorter_Sort_error_recv (uintSize : Nat) (h : uintSize = 32 ∨ uintSize = 64)
    (z : zSorter) (x : Value) (k : Kind) (hk : x.kind = some k) (hx : x.inRange uintSize)
    (hrecv : 5 * (x.len : Int) + 4 ≤ 2 ^ uintSize) (e : String)
    (he : z.Sort_ uintSize x = .error e) :
    z.prepBuffers uintSize x = .error e ∧ e = "makeslice: len out of range" := by
  cases hp : z.prepBuffers uintSize x with
  | error e0 =>
    have he2 : z.Sort_ uintSize x = .error e0 := by
      simp only [zSorter.Sort_, hp]
    rw [he2] at he
    simp only [Except.error.injEq] at he
    subst he
    exact ⟨rfl, zSorter_prepBuffers_error uintSize z x e0 hp⟩
  | ok z1 =>
    obtain ⟨-, r, -, hr⟩ := zSorter_prepBuffers_recv uintSize h z x k hk hx hrecv z1 hp
    rw [hr] at he
    cases he

/-- A `[]uint32` of 429496730 elements on a 32-bit sorter whose `uint32` buffer has capacity 1:
`5 * len(x)` wraps to a negative `int`, and `make` panics inside `prepBuffers`. -/
theorem zSorter_negative_alloc (x : List Nat) (hx : x.length = 429496730) :
    ({ New with bufUint32 := [0], allocs := 1 } : zSorter).prepBuffers 32 (.uint32s x) =
        .error "makeslice: len out of range" ∧
      ({ New with bufUint32 := [0], allocs := 1 } : zSorter).Sort_ 32 (.uint32s x) =
        .error "makeslice: len out of range" := by
  have hprep : prepBuffer 32 (0 : Nat) [0] x = .error "makeslice: len out of range" := by
    unfold prepBuffer
    rw [hx]
    rfl
  constructor
  · simp only [zSorter.prepBuffers, hprep, Except.map]
  · simp only [zSorter.Sort_, zSorter.prepBuffers, hprep, Except.map]

/-- A sound engine sorts `x`, keeps the length of the buffer and leaves the buffer beyond
`len(x)` as it was. -/
theorem Engine.SortBYOB_full {α : Type} (E : Engine α) (ok : α → Prop) (u : α → Nat)
    (R : α → α → Prop) (hE : E.Sound ok u R) (x buffer : List α)
    (hlen : x.length ≤ buffer.length) (hok : ∀ e ∈ x, ok e) :
    ∃ out, E.SortBYOB x buffer = .ok out ∧ out.x.Perm x ∧ out.x.Pairwise R ∧
      out.buffer.length = buffer.length ∧
      out.buffer.drop x.length = buffer.drop x.length := by
  obtain ⟨out, ho, hp, hs, hl⟩ := E.SortBYOB_spec ok u R hE x buffer hlen hok
  obtain ⟨out2, ho2, -, -, ht⟩ := E.SortBYOB_tail ok u R hE x buffer hlen hok
  rw [ho] at ho2
  cases ho2
  exact ⟨out, ho, hp, hs, hl, ht⟩

end zermelo
namespace zermelo

/-! ## The claims -/

/-- C1.  For each unsigned kind (`uint64`, `uint32`, and `uint` on a 32- or 64-bit platform),
for every slice `x` of values of the kind and every buffer with `len(buffer) >= len(x)`,
`SortBYOB(x, buffer)` returns normally and leaves `x` in non-decreasing order:
`x[i] <= x[j]` for all `i < j`. -/
theorem unsigned_SortBYOB_sorted (x buffer : List Nat) (hlen : x.length ≤ buffer.length) :
    ((∀ e ∈ x, e < 2 ^ 64) →
      ∃ out, zuint64.SortBYOB x buffer = .ok out ∧
        ∀ (i j : Nat) (hi : i < out.x.length) (hj : j < out.x.length), i < j →
          out.x[i] ≤ out.x[j]) ∧
    ((∀ e ∈ x, e < 2 ^ 32) →
      ∃ out, zuint32.SortBYOB x buffer = .ok out ∧
        ∀ (i j : Nat) (hi : i < out.x.length) (hj : j < out.x.length), i < j →
          out.x[i] ≤ out.x[j]) ∧
    (∀ uintSize, uintSize = 32 ∨ uintSize = 64 → (∀ e ∈ x, e < 2 ^ uintSize) →
      ∃ out, zuint.SortBYOB uintSize x buffer = .ok out ∧
        ∀ (i j : Nat) (hi : i < out.x.length) (hj : j < out.x.length), i < j →
          out.x[i] ≤ out.x[j]) := by
  refine ⟨fun hx => ?_, fun hx => ?_, fun w hw hx => ?_⟩
  · obtain ⟨out, h1, _, h3, _⟩ := zuint64_SortBYOB_spec x buffer hlen hx
    exact ⟨out, h1, List.pairwise_iff_getElem.1 h3⟩
  · obtain ⟨out, h1, _, h3, _⟩ := zuint32_SortBYOB_spec x buffer hlen hx
    exact ⟨out, h1, List.pairwise_iff_getElem.1 h3⟩
  · obtain ⟨out, h1, _, h3, _⟩ := zuint_SortBYOB_spec w hw x buffer hlen hx
    exact ⟨out, h1, List.pairwise_iff_getElem.1 h3⟩

/-- Witness of C1: a `uint64` slice with a duplicate and a value above `2 ^ 32`, and a longer
buffer. -/
theorem unsigned_SortBYOB_sorted_witness :
    ([300, 2 ^ 40, 7, 300] : List Nat).length ≤ [0, 0, 0, 0, 9].length ∧
      ∃ out, zuint64.SortBYOB [300, 2 ^ 40, 7, 300] [0, 0, 0, 0, 9] = .ok out ∧
        ∀ (i j : Nat) (hi : i < out.x.length) (hj : j < out.x.length), i < j →
          out.x[i] ≤ out.x[j] :=
  ⟨by decide,
    (unsigned_SortBYOB_sorted [300, 2 ^ 40, 7, 300] [0, 0, 0, 0, 9] (by decide)).1 (by decide)⟩

/-- C2.  For each signed kind (`int32`, `int64`, and `int` on a 32- or 64-bit platform), for
every slice `x` of values of the kind and every buffer with `len(buffer) >= len(x)`,
`SortBYOB(x, buffer)` returns normally and leaves `x` in non-decreasing order of the signed
values (negatives before non-negatives); in particular the `int32` input
`[-5, 3, -1, 0, 2147483647, -2147483648]` ends as `[-2147483648, -5, -1, 0, 3, 2147483647]`. -/
theorem signed_SortBYOB_sorted (x buffer : List Int) (hlen : x.length ≤ buffer.length) :
    ((∀ e ∈ x, -2 ^ 31 ≤ e ∧ e < 2 ^ 31) →
      ∃ out, zint32.SortBYOB x buffer = .ok out ∧
        ∀ (i j : Nat) (hi : i < out.x.length) (hj : j < out.x.length), i < j →
          out.x[i] ≤ out.x[j]) ∧
    ((∀ e ∈ x, -2 ^ 63 ≤ e ∧ e < 2 ^ 63) →
      ∃ out, zint64.SortBYOB x buffer = .ok out ∧
        ∀ (i j : Nat) (hi : i < out.x.length) (hj : j < out.x.length), i < j →
          out.x[i] ≤ out.x[j]) ∧
    (∀ uintSize, uintSize = 32 ∨ uintSize = 64 →
      (∀ e ∈ x, -2 ^ (uintSize - 1) ≤ e ∧ e < 2 ^ (uintSize - 1)) →
      ∃ out, zint.SortBYOB uintSize x buffer = .ok out ∧
        ∀ (i j : Nat) (hi : i < out.x.length) (hj : j < out.x.length), i < j →
          out.x[i] ≤ out.x[j]) ∧
    (x = [-5, 3, -1, 0, 2147483647, -2147483648] →
      ∃ out, zint32.SortBYOB x buffer = .ok out ∧
        out.x = [-2147483648, -5, -1, 0, 3, 2147483647]) := by
  refine ⟨fun hx => ?_, fun hx => ?_, fun w hw hx => ?_, fun hx => ?_⟩
  · obtain ⟨out, h1, _, h3, _⟩ := zint32_SortBYOB_spec x buffer hlen hx
    exact ⟨out, h1, List.pairwise_iff_getElem.1 h3⟩
  · obtain ⟨out, h1, _, h3, _⟩ := zint64_SortBYOB_spec x buffer hlen hx
    exact ⟨out, h1, List.pairwise_iff_getElem.1 h3⟩
  · obtain ⟨out, h1, _, h3, _⟩ := zint_SortBYOB_spec w hw x buffer hlen hx
    exact ⟨out, h1, List.pairwise_iff_getElem.1 h3⟩
  · subst hx
    obtain ⟨out, h1, h2, h3, _⟩ := zint32_SortBYOB_spec _ buffer hlen (by decide)
    refine ⟨out, h1, eq_of_perm_of_pairwise_le (h2.trans ?_) h3 ?_⟩
    · decide
    · decide

/-- Witness of C2: the `int32` example of the specification, with a buffer of its length. -/
theorem signed_SortBYOB_sorted_witness :
    ([-5, 3, -1, 0, 2147483647, -2147483648] : List Int).length ≤ [0, 0, 0, 0, 0, 0].length ∧
      ∃ out, zint32.SortBYOB [-5, 3, -1, 0, 2147483647, -2147483648] [0, 0, 0, 0, 0, 0] =
          .ok out ∧ out.x = [-2147483648, -5, -1, 0, 3, 2147483647] :=
  ⟨by decide,
    (signed_SortBYOB_sorted [-5, 3, -1, 0, 2147483647, -2147483648] [0, 0, 0, 0, 0, 0]
      (by decide)).2.2.2 rfl⟩

/-- C3.  For each of the six integer kinds, for every slice `x` of values of the kind (of any
length, zero included) and every buffer with `len(buffer) >= len(x)`, `SortBYOB(x, buffer)`
returns normally and the contents of `x` afterwards are a permutation of its contents before
the call. -/
theorem integer_SortBYOB_perm (xu bu : List Nat) (xi bi : List Int)
    (hu : xu.length ≤ bu.length) (hi : xi.length ≤ bi.length) :
    ((∀ e ∈ xu, e < 2 ^ 64) → ∃ out, zuint64.SortBYOB xu bu = .ok out ∧ out.x.Perm xu) ∧
    ((∀ e ∈ xu, e < 2 ^ 32) → ∃ out, zuint32.SortBYOB xu bu = .ok out ∧ out.x.Perm xu) ∧
    (∀ uintSize, uintSize = 32 ∨ uintSize = 64 → (∀ e ∈ xu, e < 2 ^ uintSize) →
      ∃ out, zuint.SortBYOB uintSize xu bu = .ok out ∧ out.x.Perm xu) ∧
    ((∀ e ∈ xi, -2 ^ 31 ≤ e ∧ e < 2 ^ 31) →
      ∃ out, zint32.SortBYOB xi bi = .ok out ∧ out.x.Perm xi) ∧
    ((∀ e ∈ xi, -2 ^ 63 ≤ e ∧ e < 2 ^ 63) →
      ∃ out, zint64.SortBYOB xi bi = .ok out ∧ out.x.Perm xi) ∧
    (∀ uintSize, uintSize = 32 ∨ uintSize = 64 →
      (∀ e ∈ xi, -2 ^ (uintSize - 1) ≤ e ∧ e < 2 ^ (uintSize - 1)) →
      ∃ out, zint.SortBYOB uintSize xi bi = .ok out ∧ out.x.Perm xi) := by
  refine ⟨fun hx => ?_, fun hx => ?_, fun w hw hx => ?_, fun hx => ?_, fun hx => ?_,
    fun w hw hx => ?_⟩
  · obtain ⟨out, h1, h2, _⟩ := zuint64_SortBYOB_spec xu bu hu hx
    exact ⟨out, h1, h2⟩
  · obtain ⟨out, h1, h2, _⟩ := zuint32_SortBYOB_spec xu bu hu hx
    exact ⟨out, h1, h2⟩
  · obtain ⟨out, h1, h2, _⟩ := zuint_SortBYOB_spec w hw xu bu hu hx
    exact ⟨out, h1, h2⟩
  · obtain ⟨out, h1, h2, _⟩ := zint32_SortBYOB_spec xi bi hi hx
    exact ⟨out, h1, h2⟩
  · obtain ⟨out, h1, h2, _⟩ := zint64_SortBYOB_spec xi bi hi hx
    exact ⟨out, h1, h2⟩
  · obtain ⟨out, h1, h2, _⟩ := zint_SortBYOB_spec w hw xi bi hi hx
    exact ⟨out, h1, h2⟩

/-- Witness of C3: a `uint32` slice and an `int64` slice, each with a duplicate. -/
theorem integer_SortBYOB_perm_witness :
    (∃ out, zuint32.SortBYOB [9, 70000, 9, 0] [1, 1, 1, 1] = .ok out ∧
      out.x.Perm [9, 70000, 9, 0]) ∧
    (∃ out, zint64.SortBYOB [4, -4, 4] [0, 0, 0, 0] = .ok out ∧ out.x.Perm [4, -4, 4]) :=
  ⟨(integer_SortBYOB_perm [9, 70000, 9, 0] [1, 1, 1, 1] [4, -4, 4] [0, 0, 0, 0]
      (by decide) (by decide)).2.1 (by decide),
    (integer_SortBYOB_perm [9, 70000, 9, 0] [1, 1, 1, 1] [4, -4, 4] [0, 0, 0, 0]
      (by decide) (by decide)).2.2.2.2.1 (by decide)⟩

/-- C4.  For `float32` and `float64` (values given by their bit patterns), for every slice
`x` containing `k` NaN values and every buffer with `len(buffer) >= len(x)`, `SortBYOB`
returns normally, the first `k` positions of `x` then all hold NaN, and the positions from `k`
on hold exactly the non-NaN input values, in non-decreasing order; in particular
`[NaN, -0.0, 3.5, NaN, -2.0]` ends as two NaNs followed by `[-2.0, -0.0, 3.5]`. -/
theorem float_SortBYOB_nans_first (x buffer : List Nat) (hlen : x.length ≤ buffer.length) :
    ((∀ e ∈ x, e < 2 ^ 32) →
      ∃ out, zfloat32.SortBYOB x buffer = .ok out ∧ out.x.length = x.length ∧
        (∀ e ∈ out.x.take (x.countP zfloat32.IsNaN), zfloat32.IsNaN e = true) ∧
        (out.x.drop (x.countP zfloat32.IsNaN)).Perm (x.filter (fun e => !zfloat32.IsNaN e)) ∧
        (out.x.drop (x.countP zfloat32.IsNaN)).Pairwise
          (fun a b => ieee.ge 32 0x7F800000 b a = true)) ∧
    ((∀ e ∈ x, e < 2 ^ 64) →
      ∃ out, zfloat64.SortBYOB x buffer = .ok out ∧ out.x.length = x.length ∧
        (∀ e ∈ out.x.take (x.countP zfloat64.IsNaN), zfloat64.IsNaN e = true) ∧
        (out.x.drop (x.countP zfloat64.IsNaN)).Perm (x.filter (fun e => !zfloat64.IsNaN e)) ∧
        (out.x.drop (x.countP zfloat64.IsNaN)).Pairwise
          (fun a b => ieee.ge 64 0x7FF0000000000000 b a = true)) ∧
    (∀ n1 n2, n1 < 2 ^ 32 → n2 < 2 ^ 32 → zfloat32.IsNaN n1 = true → zfloat32.IsNaN n2 = true →
      x = [n1, 0x80000000, 0x40600000, n2, 0xC0000000] →
      ∃ out, zfloat32.SortBYOB x buffer = .ok out ∧
        (∀ e ∈ out.x.take 2, zfloat32.IsNaN e = true) ∧
        out.x.drop 2 = [0xC0000000, 0x80000000, 0x40600000]) := by
  refine ⟨fun hx => ?_, fun hx => ?_, fun n1 n2 h1 h2 hn1 hn2 hxe => ?_⟩
  · obtain ⟨out, N, T, ho, hox, hN, hNn, hT, hTs, hp, _⟩ :=
      zfloat32_SortBYOB_spec x buffer hlen hx
    refine ⟨out, ho, hp.length_eq, ?_, ?_, ?_⟩
    · rw [hox, ← hN, List.take_left]; exact hNn
    · rw [hox, ← hN, List.drop_left]; exact hT
    · rw [hox, ← hN, List.drop_left]; exact hTs
  · obtain ⟨out, N, T, ho, hox, hN, hNn, hT, hTs, hp, _⟩ :=
      zfloat64_SortBYOB_spec x buffer hlen hx
    refine ⟨out, ho, hp.length_eq, ?_, ?_, ?_⟩
    · rw [hox, ← hN, List.take_left]; exact hNn
    · rw [hox, ← hN, List.drop_left]; exact hT
    · rw [hox, ← hN, List.drop_left]; exact hTs
  · subst hxe
    have hx : ∀ e ∈ [n1, 0x80000000, 0x40600000, n2, 0xC0000000], e < 2 ^ 32 := by
      intro e he
      simp only [List.mem_cons, List.mem_singleton, List.not_mem_nil, or_false] at he
      rcases he with h | h | h | h | h <;> subst h <;> first | assumption | decide
    obtain ⟨out, N, T, ho, hox, hN, hNn, hT, hTs, _, _⟩ :=
      zfloat32_SortBYOB_spec _ buffer hlen hx
    have a1 : zfloat32.IsNaN 0x80000000 = false := by decide
    have a2 : zfloat32.IsNaN 0x40600000 = false := by decide
    have a3 : zfloat32.IsNaN 0xC0000000 = false := by decide
    have hk : N.length = 2 := by
      rw [hN]
      simp [List.countP_cons, hn1, hn2, a1, a2, a3]
    have hf : List.filter (fun e => !zfloat32.IsNaN e) [n1, 0x80000000, 0x40600000, n2, 0xC0000000] =
        [0x80000000, 0x40600000, 0xC0000000] := by
      simp [List.filter_cons, hn1, hn2, a1, a2, a3]
    rw [hf] at hT
    have hTe := float32_example_order T hT hTs
    refine ⟨out, ho, ?_, ?_⟩
    · rw [hox, ← hk, List.take_left]; exact hNn
    · rw [hox, ← hk, List.drop_left]; exact hTe

/-- Witness of C4: the example of the specification, with two different NaN patterns and a
longer buffer. -/
theorem float_SortBYOB_nans_first_witness :
    ([0x7FC00000, 0x80000000, 0x40600000, 0xFFC00001, 0xC0000000] : List Nat).length ≤
        [0, 0, 0, 0, 0, 0].length ∧
      ∃ out, zfloat32.SortBYOB [0x7FC00000, 0x80000000, 0x40600000, 0xFFC00001, 0xC0000000]
          [0, 0, 0, 0, 0, 0] = .ok out ∧
        (∀ e ∈ out.x.take 2, zfloat32.IsNaN e = true) ∧
        out.x.drop 2 = [0xC0000000, 0x80000000, 0x40600000] :=
  ⟨by decide,
    (float_SortBYOB_nans_first [0x7FC00000, 0x80000000, 0x40600000, 0xFFC00001, 0xC0000000]
      [0, 0, 0, 0, 0, 0] (by decide)).2.2 0x7FC00000 0xFFC00001 (by decide) (by decide)
      (by decide) (by decide) rfl⟩

/-- C5.  For each of the six integer slice kinds and every slice `x` of the kind, of any length
(below or at/above the kind's `MinSize`), the dispatching `zermelo.Sort(x)` returns no error
and leaves `x` a non-decreasing permutation of its original contents. -/
theorem dispatch_Sort_integers (uintSize : Nat) (h : uintSize = 32 ∨ uintSize = 64)
    (xu : List Nat) (xi : List Int) :
    ((∀ e ∈ xu, e < 2 ^ 64) → ∃ y, Sort_ uintSize (.uint64s xu) = .ok (.uint64s y, none) ∧
      y.Perm xu ∧ y.Pairwise (fun a b => a ≤ b)) ∧
    ((∀ e ∈ xu, e < 2 ^ 32) → ∃ y, Sort_ uintSize (.uint32s xu) = .ok (.uint32s y, none) ∧
      y.Perm xu ∧ y.Pairwise (fun a b => a ≤ b)) ∧
    ((∀ e ∈ xu, e < 2 ^ uintSize) → ∃ y, Sort_ uintSize (.uints xu) = .ok (.uints y, none) ∧
      y.Perm xu ∧ y.Pairwise (fun a b => a ≤ b)) ∧
    ((∀ e ∈ xi, -2 ^ 31 ≤ e ∧ e < 2 ^ 31) →
      ∃ y, Sort_ uintSize (.int32s xi) = .ok (.int32s y, none) ∧
        y.Perm xi ∧ y.Pairwise (fun a b => a ≤ b)) ∧
    ((∀ e ∈ xi, -2 ^ 63 ≤ e ∧ e < 2 ^ 63) →
      ∃ y, Sort_ uintSize (.int64s xi) = .ok (.int64s y, none) ∧
        y.Perm xi ∧ y.Pairwise (fun a b => a ≤ b)) ∧
    ((∀ e ∈ xi, -2 ^ (uintSize - 1) ≤ e ∧ e < 2 ^ (uintSize - 1)) →
      ∃ y, Sort_ uintSize (.ints xi) = .ok (.ints y, none) ∧
        y.Perm xi ∧ y.Pairwise (fun a b => a ≤ b)) := by
  refine ⟨fun hx => ?_, fun hx => ?_, fun hx => ?_, fun hx => ?_, fun hx => ?_, fun hx => ?_⟩
  · obtain ⟨y, h1, h2, h3⟩ := zuint64_Sort_spec xu hx
    exact ⟨y, dispatch_ok _ _ y h1, h2, h3⟩
  · obtain ⟨y, h1, h2, h3⟩ := zuint32_Sort_spec xu hx
    exact ⟨y, dispatch_ok _ _ y h1, h2, h3⟩
  · obtain ⟨y, h1, h2, h3⟩ := zuint_Sort_spec uintSize h xu hx
    exact ⟨y, dispatch_ok _ _ y h1, h2, h3⟩
  · obtain ⟨y, h1, h2, h3⟩ := zint32_Sort_spec xi hx
    exact ⟨y, dispatch_ok _ _ y h1, h2, h3⟩
  · obtain ⟨y, h1, h2, h3⟩ := zint64_Sort_spec xi hx
    exact ⟨y, dispatch_ok _ _ y h1, h2, h3⟩
  · obtain ⟨y, h1, h2, h3⟩ := zint_Sort_spec uintSize h xi hx
    exact ⟨y, dispatch_ok _ _ y h1, h2, h3⟩

/-- Witness of C5: a `[]uint` and a `[]int`, on a 64-bit platform. -/
theorem dispatch_Sort_integers_witness :
    (∃ y, Sort_ 64 (.uints [7, 2 ^ 63, 7, 0]) = .ok (.uints y, none) ∧
      y.Perm [7, 2 ^ 63, 7, 0] ∧ y.Pairwise (fun a b => a ≤ b)) ∧
    (∃ y, Sort_ 64 (.ints [4, -9, 4]) = .ok (.ints y, none) ∧
      y.Perm [4, -9, 4] ∧ y.Pairwise (fun a b => a ≤ b)) :=
  ⟨(dispatch_Sort_integers 64 (Or.inr rfl) [7, 2 ^ 63, 7, 0] [4, -9, 4]).2.2.1 (by decide),
    (dispatch_Sort_integers 64 (Or.inr rfl) [7, 2 ^ 63, 7, 0] [4, -9, 4]).2.2.2.2.2
      (by decide)⟩

/-- C6 (the code at the failing input).  The dispatching `zermelo.Sort` leaves the `[]float32`
`[NaN, -0.0, 3.5, NaN, -2.0]` exactly as it is: the slice is shorter than `MinSize`, and the
fallback `sort.Sort(float32Sortable(x))`, whose `Less` is the plain `<`, moves nothing because
every comparison with a NaN is false.  So the second NaN is not up front and `-2.0` stays
last. -/
theorem float32_Sort_small_leaves_nan (uintSize : Nat) :
    Sort_ uintSize (.float32s [0x7FC00000, 0x80000000, 0x40600000, 0x7FC00000, 0xC0000000]) =
      .ok (.float32s [0x7FC00000, 0x80000000, 0x40600000, 0x7FC00000, 0xC0000000], none) := by
  rfl

/-- C7.  For every kind, `SortBYOB(x, buffer)` panics if and only if `len(buffer) < len(x)`;
the panic is `"Buffer too small"`, and it leaves every element of `x` as it was (for the
float kinds the check precedes the NaN loop). -/
theorem SortBYOB_panics_iff_buffer_short (uintSize : Nat)
    (h : uintSize = 32 ∨ uintSize = 64) (xu bu : List Nat) (xi bi : List Int) :
    ((∀ e ∈ xu, e < 2 ^ 64) →
      ((∃ p, zuint64.SortBYOB xu bu = .error p) ↔ bu.length < xu.length) ∧
      (∀ p, zuint64.SortBYOB xu bu = .error p → p.msg = "Buffer too small" ∧ p.x = xu)) ∧
    ((∀ e ∈ xu, e < 2 ^ 32) →
      ((∃ p, zuint32.SortBYOB xu bu = .error p) ↔ bu.length < xu.length) ∧
      (∀ p, zuint32.SortBYOB xu bu = .error p → p.msg = "Buffer too small" ∧ p.x = xu)) ∧
    ((∀ e ∈ xu, e < 2 ^ uintSize) →
      ((∃ p, zuint.SortBYOB uintSize xu bu = .error p) ↔ bu.length < xu.length) ∧
      (∀ p, zuint.SortBYOB uintSize xu bu = .error p →
        p.msg = "Buffer too small" ∧ p.x = xu)) ∧
    ((∀ e ∈ xi, -2 ^ 31 ≤ e ∧ e < 2 ^ 31) →
      ((∃ p, zint32.SortBYOB xi bi = .error p) ↔ bi.length < xi.length) ∧
      (∀ p, zint32.SortBYOB xi bi = .error p → p.msg = "Buffer too small" ∧ p.x = xi)) ∧
    ((∀ e ∈ xi, -2 ^ 63 ≤ e ∧ e < 2 ^ 63) →
      ((∃ p, zint64.SortBYOB xi bi = .error p) ↔ bi.length < xi.length) ∧
      (∀ p, zint64.SortBYOB xi bi = .error p → p.msg = "Buffer too small" ∧ p.x = xi)) ∧
    ((∀ e ∈ xi, -2 ^ (uintSize - 1) ≤ e ∧ e < 2 ^ (uintSize - 1)) →
      ((∃ p, zint.SortBYOB uintSize xi bi = .error p) ↔ bi.length < xi.length) ∧
      (∀ p, zint.SortBYOB uintSize xi bi = .error p →
        p.msg = "Buffer too small" ∧ p.x = xi)) ∧
    ((∀ e ∈ xu, e < 2 ^ 32) →
      ((∃ p, zfloat32.SortBYOB xu bu = .error p) ↔ bu.length < xu.length) ∧
      (∀ p, zfloat32.SortBYOB xu bu = .error p → p.msg = "Buffer too small" ∧ p.x = xu)) ∧
    ((∀ e ∈ xu, e < 2 ^ 64) →
      ((∃ p, zfloat64.SortBYOB xu bu = .error p) ↔ bu.length < xu.length) ∧
      (∀ p, zfloat64.SortBYOB xu bu = .error p → p.msg = "Buffer too small" ∧ p.x = xu)) := by
  refine ⟨fun hx => ?_, fun hx => ?_, fun hx => ?_, fun hx => ?_, fun hx => ?_, fun hx => ?_,
    fun hx => ?_, fun hx => ?_⟩
  · exact panic_iff_short _ xu bu (Engine.SortBYOB_guard _ xu bu) (fun hl => by
      obtain ⟨out, ho, _⟩ := zuint64_SortBYOB_spec xu bu hl hx
      exact ⟨out, ho⟩)
  · exact panic_iff_short _ xu bu (Engine.SortBYOB_guard _ xu bu) (fun hl => by
      obtain ⟨out, ho, _⟩ := zuint32_SortBYOB_spec xu bu hl hx
      exact ⟨out, ho⟩)
  · exact panic_iff_short _ xu bu (Engine.SortBYOB_guard _ xu bu) (fun hl => by
      obtain ⟨out, ho, _⟩ := zuint_SortBYOB_spec uintSize h xu bu hl hx
      exact ⟨out, ho⟩)
  · exact panic_iff_short _ xi bi (Engine.SortBYOB_guard _ xi bi) (fun hl => by
      obtain ⟨out, ho, _⟩ := zint32_SortBYOB_spec xi bi hl hx
      exact ⟨out, ho⟩)
  · exact panic_iff_short _ xi bi (Engine.SortBYOB_guard _ xi bi) (fun hl => by
      obtain ⟨out, ho, _⟩ := zint64_SortBYOB_spec xi bi hl hx
      exact ⟨out, ho⟩)
  · exact panic_iff_short _ xi bi (Engine.SortBYOB_guard _ xi bi) (fun hl => by
      obtain ⟨out, ho, _⟩ := zint_SortBYOB_spec uintSize h xi bi hl hx
      exact ⟨out, ho⟩)
  · exact panic_iff_short _ xu bu (zfloat32_SortBYOB_guard xu bu) (fun hl => by
      obtain ⟨out, _, _, ho, _⟩ := zfloat32_SortBYOB_spec xu bu hl hx
      exact ⟨out, ho⟩)
  · exact panic_iff_short _ xu bu (zfloat64_SortBYOB_guard xu bu) (fun hl => by
      obtain ⟨out, _, _, ho, _⟩ := zfloat64_SortBYOB_spec xu bu hl hx
      exact ⟨out, ho⟩)

/-- Witness of C7: a `float32` slice with a NaN and a buffer one element short; the panic
leaves the NaN where it was. -/
theorem SortBYOB_panics_iff_buffer_short_witness :
    ((∃ p, zfloat32.SortBYOB [5, 0x7FC00000, 3] [0, 0] = .error p) ↔
        ([0, 0] : List Nat).length < [5, 0x7FC00000, 3].length) ∧
      (∀ p, zfloat32.SortBYOB [5, 0x7FC00000, 3] [0, 0] = .error p →
        p.msg = "Buffer too small" ∧ p.x = [5, 0x7FC00000, 3]) :=
  (SortBYOB_panics_iff_buffer_short 64 (Or.inr rfl) [5, 0x7FC00000, 3] [0, 0] [] []).2.2.2.2.2.2.1
    (by decide)

/-- C8 (counterexample).  `zuint32.SortBYOB` does not panic on a buffer longer than `x`: with
`x = [2, 1]` and a buffer of three elements it returns normally. -/
theorem SortBYOB_longer_buffer_no_panic :
    ([2, 1] : List Nat).length ≠ ([0, 0, 0] : List Nat).length ∧
      ¬ ∃ p, zuint32.SortBYOB [2, 1] [0, 0, 0] = .error p := by
  refine ⟨by decide, ?_⟩
  rintro ⟨p, hp⟩
  obtain ⟨out, ho, _⟩ := zuint32_SortBYOB_spec [2, 1] [0, 0, 0] (by decide) (by decide)
  rw [ho] at hp
  cases hp

/-- C8 (amended).  For the `int`, `int32`, `int64`, `uint` and `uint32` engines,
`SortBYOB(x, buffer)` panics exactly when `len(x) > len(buffer)`; with a buffer of the same
length or longer it returns normally, with `x` a sorted permutation of its input, the buffer
as long as before and its elements from index `len(x)` on as they were (only `buffer[:len(x)]`
is used). -/
theorem integer_SortBYOB_panics_iff_longer (uintSize : Nat)
    (h : uintSize = 32 ∨ uintSize = 64) (xu bu : List Nat) (xi bi : List Int) :
    ((∀ e ∈ xi, -2 ^ (uintSize - 1) ≤ e ∧ e < 2 ^ (uintSize - 1)) →
      ((∃ p, zint.SortBYOB uintSize xi bi = .error p) ↔ xi.length > bi.length) ∧
      (xi.length ≤ bi.length → ∃ out, zint.SortBYOB uintSize xi bi = .ok out ∧
        out.x.Perm xi ∧ out.x.Pairwise (fun a b => a ≤ b) ∧
        out.buffer.length = bi.length ∧
        out.buffer.drop xi.length = bi.drop xi.length)) ∧
    ((∀ e ∈ xi, -2 ^ 31 ≤ e ∧ e < 2 ^ 31) →
      ((∃ p, zint32.SortBYOB xi bi = .error p) ↔ xi.length > bi.length) ∧
      (xi.length ≤ bi.length → ∃ out, zint32.SortBYOB xi bi = .ok out ∧
        out.x.Perm xi ∧ out.x.Pairwise (fun a b => a ≤ b) ∧
        out.buffer.length = bi.length ∧
        out.buffer.drop xi.length = bi.drop xi.length)) ∧
    ((∀ e ∈ xi, -2 ^ 63 ≤ e ∧ e < 2 ^ 63) →
      ((∃ p, zint64.SortBYOB xi bi = .error p) ↔ xi.length > bi.length) ∧
      (xi.length ≤ bi.length → ∃ out, zint64.SortBYOB xi bi = .ok out ∧
        out.x.Perm xi ∧ out.x.Pairwise (fun a b => a ≤ b) ∧
        out.buffer.length = bi.length ∧
        out.buffer.drop xi.length = bi.drop xi.length)) ∧
    ((∀ e ∈ xu, e < 2 ^ uintSize) →
      ((∃ p, zuint.SortBYOB uintSize xu bu = .error p) ↔ xu.length > bu.length) ∧
      (xu.length ≤ bu.length → ∃ out, zuint.SortBYOB uintSize xu bu = .ok out ∧
        out.x.Perm xu ∧ out.x.Pairwise (fun a b => a ≤ b) ∧
        out.buffer.length = bu.length ∧
        out.buffer.drop xu.length = bu.drop xu.length)) ∧
    ((∀ e ∈ xu, e < 2 ^ 32) →
      ((∃ p, zuint32.SortBYOB xu bu = .error p) ↔ xu.length > bu.length) ∧
      (xu.length ≤ bu.length → ∃ out, zuint32.SortBYOB xu bu = .ok out ∧
        out.x.Perm xu ∧ out.x.Pairwise (fun a b => a ≤ b) ∧
        out.buffer.length = bu.length ∧
        out.buffer.drop xu.length = bu.drop xu.length)) := by
  refine ⟨fun hx => ⟨?_, fun hl => ?_⟩, fun hx => ⟨?_, fun hl => ?_⟩,
    fun hx => ⟨?_, fun hl => ?_⟩, fun hx => ⟨?_, fun hl => ?_⟩, fun hx => ⟨?_, fun hl => ?_⟩⟩
  · exact (panic_iff_short _ xi bi (Engine.SortBYOB_guard _ xi bi) (fun hl => by
      obtain ⟨out, ho, _⟩ := zint_SortBYOB_spec uintSize h xi bi hl hx
      exact ⟨out, ho⟩)).1
  · exact Engine.SortBYOB_full _ _ _ _ (zint_engine_sound uintSize h) xi bi hl hx
  · exact (panic_iff_short _ xi bi (Engine.SortBYOB_guard _ xi bi) (fun hl => by
      obtain ⟨out, ho, _⟩ := zint32_SortBYOB_spec xi bi hl hx
      exact ⟨out, ho⟩)).1
  · exact Engine.SortBYOB_full _ _ _ _ zint32_engine_sound xi bi hl hx
  · exact (panic_iff_short _ xi bi (Engine.SortBYOB_guard _ xi bi) (fun hl => by
      obtain ⟨out, ho, _⟩ := zint64_SortBYOB_spec xi bi hl hx
      exact ⟨out, ho⟩)).1
  · exact Engine.SortBYOB_full _ _ _ _ zint64_engine_sound xi bi hl hx
  · exact (panic_iff_short _ xu bu (Engine.SortBYOB_guard _ xu bu) (fun hl => by
      obtain ⟨out, ho, _⟩ := zuint_SortBYOB_spec uintSize h xu bu hl hx
      exact ⟨out, ho⟩)).1
  · exact Engine.SortBYOB_full _ _ _ _ (zuint_engine_sound uintSize h) xu bu hl hx
  · exact (panic_iff_short _ xu bu (Engine.SortBYOB_guard _ xu bu) (fun hl => by
      obtain ⟨out, ho, _⟩ := zuint32_SortBYOB_spec xu bu hl hx
      exact ⟨out, ho⟩)).1
  · exact Engine.SortBYOB_full _ _ _ _ zuint32_engine_sound xu bu hl hx

/-- Witness of C8 (amended): `zuint32.SortBYOB` with a buffer longer than `x`. -/
theorem integer_SortBYOB_panics_iff_longer_witness :
    ((∃ p, zuint32.SortBYOB [2, 1] [7, 8, 9] = .error p) ↔
        ([2, 1] : List Nat).length > ([7, 8, 9] : List Nat).length) ∧
      ∃ out, zuint32.SortBYOB [2, 1] [7, 8, 9] = .ok out ∧
        out.x.Perm [2, 1] ∧ out.x.Pairwise (fun a b => a ≤ b) ∧
        out.buffer.length = ([7, 8, 9] : List Nat).length ∧
        out.buffer.drop ([2, 1] : List Nat).length =
          ([7, 8, 9] : List Nat).drop ([2, 1] : List Nat).length :=
  (fun t => ⟨t.1, t.2 (by decide)⟩)
    ((integer_SortBYOB_panics_iff_longer 32 (Or.inl rfl) [2, 1] [7, 8, 9] [] []).2.2.2.2
      (by decide))

/-- C9.  For each integer kind and every slice `x` of the kind, `SortCopy(x)` returns a new
slice `y` of the same length that is a non-decreasing permutation of `x`, and `x` itself is
element for element what it was. -/
theorem integer_SortCopy (uintSize : Nat) (h : uintSize = 32 ∨ uintSize = 64)
    (xu : List Nat) (xi : List Int) :
    ((∀ e ∈ xu, e < 2 ^ 64) → ∃ y, zuint64.SortCopy xu = .ok (xu, y) ∧
      y.length = xu.length ∧ y.Perm xu ∧ y.Pairwise (fun a b => a ≤ b)) ∧
    ((∀ e ∈ xu, e < 2 ^ 32) → ∃ y, zuint32.SortCopy xu = .ok (xu, y) ∧
      y.length = xu.length ∧ y.Perm xu ∧ y.Pairwise (fun a b => a ≤ b)) ∧
    ((∀ e ∈ xu, e < 2 ^ uintSize) → ∃ y, zuint.SortCopy uintSize xu = .ok (xu, y) ∧
      y.length = xu.length ∧ y.Perm xu ∧ y.Pairwise (fun a b => a ≤ b)) ∧
    ((∀ e ∈ xi, -2 ^ 31 ≤ e ∧ e < 2 ^ 31) → ∃ y, zint32.SortCopy xi = .ok (xi, y) ∧
      y.length = xi.length ∧ y.Perm xi ∧ y.Pairwise (fun a b => a ≤ b)) ∧
    ((∀ e ∈ xi, -2 ^ 63 ≤ e ∧ e < 2 ^ 63) → ∃ y, zint64.SortCopy xi = .ok (xi, y) ∧
      y.length = xi.length ∧ y.Perm xi ∧ y.Pairwise (fun a b => a ≤ b)) ∧
    ((∀ e ∈ xi, -2 ^ (uintSize - 1) ≤ e ∧ e < 2 ^ (uintSize - 1)) →
      ∃ y, zint.SortCopy uintSize xi = .ok (xi, y) ∧
        y.length = xi.length ∧ y.Perm xi ∧ y.Pairwise (fun a b => a ≤ b)) :=
  ⟨fun hx => sortCopyWith_spec _ _ xu _ (zuint64_Sort_spec xu hx),
    fun hx => sortCopyWith_spec _ _ xu _ (zuint32_Sort_spec xu hx),
    fun hx => sortCopyWith_spec _ _ xu _ (zuint_Sort_spec uintSize h xu hx),
    fun hx => sortCopyWith_spec _ _ xi _ (zint32_Sort_spec xi hx),
    fun hx => sortCopyWith_spec _ _ xi _ (zint64_Sort_spec xi hx),
    fun hx => sortCopyWith_spec _ _ xi _ (zint_Sort_spec uintSize h xi hx)⟩

/-- Witness of C9: `zint32.SortCopy` on a slice with a duplicate and the two extreme values. -/
theorem integer_SortCopy_witness :
    ∃ y, zint32.SortCopy [2147483647, -1, -2147483648, -1] =
        .ok ([2147483647, -1, -2147483648, -1], y) ∧
      y.length = ([2147483647, -1, -2147483648, -1] : List Int).length ∧
      y.Perm [2147483647, -1, -2147483648, -1] ∧ y.Pairwise (fun a b => a ≤ b) :=
  (integer_SortCopy 64 (Or.inr rfl) [] [2147483647, -1, -2147483648, -1]).2.2.2.1 (by decide)

/-- C10 (counterexample).  A `[]string` is none of the eight numeric kinds and does not
implement `sort.Interface`, yet `zermelo.Sort` returns no error for it: the type switch has a
`case []string` of its own. -/
theorem Sort_strings_no_error :
    (Value.strings ["b", "a"]).isNumeric = false ∧
      (Value.strings ["b", "a"]).isSortable = false ∧
      ∃ v, Sort_ 64 (.strings ["b", "a"]) = .ok (v, none) :=
  ⟨rfl, rfl, _, rfl⟩

/-- C10 (amended).  `zermelo.Sort(x)` returns the unsupported-kind error if and only if `x` is
none of the eight numeric slice kinds, is not a `[]string`, and does not implement
`sort.Interface`; whenever it returns that error, `x` is left unmodified. -/
theorem Sort_error_iff_unsupported (uintSize : Nat) (x : Value) :
    ((∃ v e, Sort_ uintSize x = .ok (v, some e)) ↔
      (x.isNumeric = false ∧ x.isStrings = false ∧ x.isSortable = false)) ∧
    (∀ v e, Sort_ uintSize x = .ok (v, some e) → v = x ∧ e = "type not supported") := by
  cases x with
  | other t =>
    refine ⟨⟨fun _ => ⟨rfl, rfl, rfl⟩, fun _ => ⟨_, _, rfl⟩⟩, ?_⟩
    intro v e hv
    simp only [Sort_, Except.ok.injEq, Prod.mk.injEq, Option.some.injEq] at hv
    exact ⟨hv.1.symm, hv.2.symm⟩
  | strings xs =>
    refine ⟨⟨?_, fun hc => by simp [Value.isStrings] at hc⟩, ?_⟩
    · rintro ⟨v, e, hv⟩
      simp [Sort_] at hv
    · intro v e hv
      simp [Sort_] at hv
  | sortable data less =>
    refine ⟨⟨?_, fun hc => by simp [Value.isSortable] at hc⟩, ?_⟩
    · rintro ⟨v, e, hv⟩
      simp [Sort_] at hv
    · intro v e hv
      simp [Sort_] at hv
  | float32s xs | float64s xs | ints xs | int32s xs | int64s xs | uints xs | uint32s xs
    | uint64s xs =>
    refine ⟨⟨?_, fun hc => by simp [Value.isNumeric] at hc⟩, ?_⟩
    · rintro ⟨v, e, hv⟩
      exact absurd hv (dispatch_no_error _ _ v e)
    · intro v e hv
      exact absurd hv (dispatch_no_error _ _ v e)

/-- C12 (counterexample).  The product `5 * reqLen` is computed in `int` and wraps: on a
64-bit platform, with capacity 1 and requested length `2 ^ 62`, `allocSize` returns `2 ^ 60`,
which is not `5 * 2 ^ 62 / 4` and is smaller than the requested length; with requested length
`2 ^ 61` it returns a negative size; the same happens for 32 bits at `2 ^ 30`. -/
theorem allocSize_wraps :
    allocSize 64 1 (2 ^ 62) = 2 ^ 60 ∧ allocSize 64 1 (2 ^ 62) ≠ 5 * 2 ^ 62 / 4 ∧
      allocSize 64 1 (2 ^ 62) < 2 ^ 62 ∧ allocSize 64 1 (2 ^ 61) < 0 ∧
      allocSize 32 1 (2 ^ 30) = 2 ^ 28 ∧ allocSize 32 1 (2 ^ 30) < 2 ^ 30 := by
  refine ⟨by decide, by decide, by decide, by decide, by decide, by decide⟩

/-- C12 (amended).  For a requested length `n ≥ 0`, `allocSize(0, n) = n`; and for a capacity
`c > 0` and `n` below `2 ^ (uintSize - 1)`, `allocSize(c, n)` equals `5 * n / 4` if and only
if `5 * n` is in the range of `int`, in which case it is at least `n`. -/
theorem allocSize_growth (uintSize : Nat) (h : uintSize = 32 ∨ uintSize = 64) (c n : Int)
    (hn : 0 ≤ n) (hmax : n < 2 ^ (uintSize - 1)) :
    allocSize uintSize 0 n = n ∧
      (0 < c → (allocSize uintSize c n = 5 * n / 4 ↔ 5 * n < 2 ^ (uintSize - 1)) ∧
        (5 * n < 2 ^ (uintSize - 1) → n ≤ allocSize uintSize c n)) := by
  refine ⟨rfl, fun hc => ⟨⟨fun he => ?_, fun hf => ?_⟩, fun hf => ?_⟩⟩
  · by_contra hnf
    have hc0 : c ≠ 0 := by omega
    unfold allocSize wrapInt at he
    rw [if_neg hc0] at he
    rcases h with h | h <;> subst h <;> norm_num at hmax hnf he
    · rcases Int.lt_or_le ((5 * n + 2147483648) % 4294967296 - 2147483648) 0 with hs | hs
      · have h1 := Int.neg_tdiv (-((5 * n + 2147483648) % 4294967296 - 2147483648)) 4
        rw [neg_neg] at h1
        have h2 := Int.tdiv_nonneg
          (by omega : 0 ≤ -((5 * n + 2147483648) % 4294967296 - 2147483648))
          (by norm_num : (0 : Int) ≤ 4)
        omega
      · rw [Int.tdiv_eq_ediv hs (by norm_num)] at he
        omega
    · rcases Int.lt_or_le ((5 * n + 9223372036854775808) % 18446744073709551616
          - 9223372036854775808) 0 with hs | hs
      · have h1 := Int.neg_tdiv
          (-((5 * n + 9223372036854775808) % 18446744073709551616 - 9223372036854775808)) 4
        rw [neg_neg] at h1
        have h2 := Int.tdiv_nonneg
          (by omega : 0 ≤ -((5 * n + 9223372036854775808) % 18446744073709551616
            - 9223372036854775808))
          (by norm_num : (0 : Int) ≤ 4)
        omega
      · rw [Int.tdiv_eq_ediv hs (by norm_num)] at he
        omega
  · rw [allocSize_eq uintSize h c n hn (Or.inr hf), if_neg (by omega)]
  · exact allocSize_ge uintSize h c n hn (Or.inr hf)

/-- Witness of C12 (amended): capacity 10 and requested length 100 on a 64-bit platform. -/
theorem allocSize_growth_witness :
    allocSize 64 0 100 = 100 ∧
      ((0 : Int) < 10 → (allocSize 64 10 100 = 5 * 100 / 4 ↔ (5 : Int) * 100 < 2 ^ (64 - 1)) ∧
        ((5 : Int) * 100 < 2 ^ (64 - 1) → 100 ≤ allocSize 64 10 100)) :=
  allocSize_growth 64 (Or.inr rfl) 10 100 (by decide) (by decide)

/-- C13 (counterexample).  On a 32-bit platform, after `New().Sort([]uint32{0})` the `uint32`
buffer has capacity 1.  For a `[]uint32` `x` of 429496730 elements the capacity is smaller
than `len(x)`, yet the buffer is not replaced: `5 * len(x)` wraps to a negative `int`,
`allocSize(1, len(x))` is `-536870911`, and `make` panics inside `prepBuffers`, before the
assignment to the buffer. -/
theorem zSorter_Sort_overflow_no_realloc :
    ∃ z0 y, New.Sort_ 32 (.uint32s [0]) = .ok (z0, y, none) ∧ z0.cap .uint32 = 1 ∧
      (Value.uint32s (List.replicate 429496730 0)).inRange 32 ∧
      z0.cap .uint32 < (Value.uint32s (List.replicate 429496730 0)).len ∧
      allocSize 32 1 429496730 = -536870911 ∧
      z0.prepBuffers 32 (.uint32s (List.replicate 429496730 0)) =
        .error "makeslice: len out of range" ∧
      z0.Sort_ 32 (.uint32s (List.replicate 429496730 0)) =
        .error "makeslice: len out of range" :=
  ⟨{ New with bufUint32 := [0], allocs := 1 }, .uint32s [0], rfl, rfl,
    fun e he => (by rw [(List.mem_replicate.1 he).2]; norm_num),
    (by show 1 < (List.replicate 429496730 (0 : Nat)).length
        rw [List.length_replicate]; norm_num),
    (by decide),
    (zSorter_negative_alloc _ (List.length_replicate _ _)).1,
    (zSorter_negative_alloc _ (List.length_replicate _ _)).2⟩

/-- C13 (amended).  A `Sort` call of a stateful sorter on a slice `x` of kind `k`, with
`5 * len(x)` in the range of `int` or the buffer still nil, returns without error and
allocates a new buffer for `k`, of `allocSize(cap, len(x))` elements, if and only if the
capacity of the retained buffer is smaller than `len(x)`; otherwise the capacity is
unchanged, and the capacities of the buffers of the other kinds never change.  Starting from
`New()`, sorting slices of kind `k` of lengths 10, 100 and 90 gives the capacities 10, 125
and 125, and the third call allocates nothing. -/
theorem zSorter_Sort_reallocates_iff (uintSize : Nat) (h : uintSize = 32 ∨ uintSize = 64)
    (k : Kind) :
    (∀ (z : zSorter) (x : Value), x.kind = some k → x.inRange uintSize →
      (z.cap k = 0 ∨ 5 * (x.len : Int) < 2 ^ (uintSize - 1)) →
      ∃ z1 y, z.Sort_ uintSize x = .ok (z1, y, none) ∧
        (z1.allocs = z.allocs + 1 ↔ z.cap k < x.len) ∧
        (z1.allocs = z.allocs ↔ ¬ z.cap k < x.len) ∧
        (z.cap k < x.len →
          z1.cap k = (allocSize uintSize (z.cap k : Int) (x.len : Int)).toNat) ∧
        (¬ z.cap k < x.len → z1.cap k = z.cap k) ∧
        (∀ j, j ≠ k → z1.cap j = z.cap j)) ∧
    (∀ x1 x2 x3 : Value, x1.kind = some k → x2.kind = some k → x3.kind = some k →
      x1.inRange uintSize → x2.inRange uintSize → x3.inRange uintSize →
      x1.len = 10 → x2.len = 100 → x3.len = 90 →
      ∃ z1 y1 z2 y2 z3 y3, New.Sort_ uintSize x1 = .ok (z1, y1, none) ∧
        z1.Sort_ uintSize x2 = .ok (z2, y2, none) ∧
        z2.Sort_ uintSize x3 = .ok (z3, y3, none) ∧
        z1.cap k = 10 ∧ z2.cap k = 125 ∧ z3.cap k = 125 ∧
        z1.allocs = 1 ∧ z2.allocs = 2 ∧ z3.allocs = 2) := by
  constructor
  · intro z x hk hx hfit
    obtain ⟨z1, y, hs, -, -, hc, ho, ha, -, -⟩ := zSorter_Sort_spec uintSize h z x k hk hx hfit
    refine ⟨z1, y, hs, ?_, ?_, ?_, ?_, ho⟩
    · rw [ha]; split <;> omega
    · rw [ha]; split <;> omega
    · intro hlt; rw [hc, if_pos hlt]
    · intro hlt; rw [hc, if_neg hlt]
  · intro x1 x2 x3 hk1 hk2 hk3 hx1 hx2 hx3 hl1 hl2 hl3
    have hp : (2 : Int) ^ 31 ≤ 2 ^ (uintSize - 1) := by
      rcases h with h | h <;> subst h <;> norm_num
    have hN : New.cap k = 0 := by cases k <;> rfl
    obtain ⟨z1, y1, hs1, -, -, hc1, -, ha1, -, -⟩ :=
      zSorter_Sort_spec uintSize h New x1 k hk1 hx1 (Or.inl hN)
    obtain ⟨z2, y2, hs2, -, -, hc2, -, ha2, -, -⟩ :=
      zSorter_Sort_spec uintSize h z1 x2 k hk2 hx2 (Or.inr (by rw [hl2]; norm_num; omega))
    obtain ⟨z3, y3, hs3, -, -, hc3, -, ha3, -, -⟩ :=
      zSorter_Sort_spec uintSize h z2 x3 k hk3 hx3 (Or.inr (by rw [hl3]; norm_num; omega))
    have e1 : z1.cap k = 10 := by
      rw [hc1, hN, hl1, if_pos (by norm_num)]
      rfl
    have e2 : z2.cap k = 125 := by
      rw [hc2, e1, hl2, if_pos (by norm_num),
        allocSize_eq uintSize h _ _ (by norm_num) (Or.inr (by norm_num; omega))]
      norm_num
      rfl
    have e3 : z3.cap k = 125 := by
      rw [hc3, e2, hl3, if_neg (by norm_num)]
    refine ⟨z1, y1, z2, y2, z3, y3, hs1, hs2, hs3, e1, e2, e3, ?_, ?_, ?_⟩
    · rw [ha1, hN, hl1]; rfl
    · rw [ha2, e1, hl2, ha1, hN, hl1]; rfl
    · rw [ha3, e2, hl3, ha2, e1, hl2, ha1, hN, hl1]; rfl

/-- Witness of C13 (amended): three `[]uint64` slices of lengths 10, 100 and 90. -/
theorem zSorter_Sort_reallocates_iff_witness :
    ∃ z1 y1 z2 y2 z3 y3,
      New.Sort_ 64 (.uint64s (List.replicate 10 7)) = .ok (z1, y1, none) ∧
      z1.Sort_ 64 (.uint64s (List.replicate 100 7)) = .ok (z2, y2, none) ∧
      z2.Sort_ 64 (.uint64s (List.replicate 90 7)) = .ok (z3, y3, none) ∧
      z1.cap .uint64 = 10 ∧ z2.cap .uint64 = 125 ∧ z3.cap .uint64 = 125 ∧
      z1.allocs = 1 ∧ z2.allocs = 2 ∧ z3.allocs = 2 :=
  (zSorter_Sort_reallocates_iff 64 (Or.inr rfl) .uint64).2
    (.uint64s (List.replicate 10 7)) (.uint64s (List.replicate 100 7))
    (.uint64s (List.replicate 90 7)) rfl rfl rfl
    (by simp [Value.inRange]) (by simp [Value.inRange]) (by simp [Value.inRange])
    (by simp [Value.len]) (by simp [Value.len]) (by simp [Value.len])

/-- C15.  Idempotence on sorted input: for each integer kind, for every slice `x` of the kind
and every buffer with `len(buffer) >= len(x)`, `SortBYOB(x, buffer)` returns normally; when `x`
is already in non-decreasing order it leaves `x` element for element identical; hence a second
`SortBYOB` on the result of the first leaves it as it is. -/
theorem integer_SortBYOB_idempotent (uintSize : Nat) (h : uintSize = 32 ∨ uintSize = 64)
    (xu bu : List Nat) (xi bi : List Int)
    (hu : xu.length ≤ bu.length) (hi : xi.length ≤ bi.length) :
    ((∀ e ∈ xu, e < 2 ^ 64) → ∃ out, zuint64.SortBYOB xu bu = .ok out ∧
      (xu.Pairwise (fun a b => a ≤ b) → out.x = xu) ∧
      ∃ out2, zuint64.SortBYOB out.x out.buffer = .ok out2 ∧ out2.x = out.x) ∧
    ((∀ e ∈ xu, e < 2 ^ 32) → ∃ out, zuint32.SortBYOB xu bu = .ok out ∧
      (xu.Pairwise (fun a b => a ≤ b) → out.x = xu) ∧
      ∃ out2, zuint32.SortBYOB out.x out.buffer = .ok out2 ∧ out2.x = out.x) ∧
    ((∀ e ∈ xu, e < 2 ^ uintSize) → ∃ out, zuint.SortBYOB uintSize xu bu = .ok out ∧
      (xu.Pairwise (fun a b => a ≤ b) → out.x = xu) ∧
      ∃ out2, zuint.SortBYOB uintSize out.x out.buffer = .ok out2 ∧ out2.x = out.x) ∧
    ((∀ e ∈ xi, -2 ^ 31 ≤ e ∧ e < 2 ^ 31) → ∃ out, zint32.SortBYOB xi bi = .ok out ∧
      (xi.Pairwise (fun a b => a ≤ b) → out.x = xi) ∧
      ∃ out2, zint32.SortBYOB out.x out.buffer = .ok out2 ∧ out2.x = out.x) ∧
    ((∀ e ∈ xi, -2 ^ 63 ≤ e ∧ e < 2 ^ 63) → ∃ out, zint64.SortBYOB xi bi = .ok out ∧
      (xi.Pairwise (fun a b => a ≤ b) → out.x = xi) ∧
      ∃ out2, zint64.SortBYOB out.x out.buffer = .ok out2 ∧ out2.x = out.x) ∧
    ((∀ e ∈ xi, -2 ^ (uintSize - 1) ≤ e ∧ e < 2 ^ (uintSize - 1)) →
      ∃ out, zint.SortBYOB uintSize xi bi = .ok out ∧
        (xi.Pairwise (fun a b => a ≤ b) → out.x = xi) ∧
        ∃ out2, zint.SortBYOB uintSize out.x out.buffer = .ok out2 ∧ out2.x = out.x) := by
  refine ⟨fun hx => ?_, fun hx => ?_, fun hx => ?_, fun hx => ?_, fun hx => ?_, fun hx => ?_⟩
  · exact idempotent_of_spec _ xu bu (fun x1 b1 hp hl =>
      zuint64_SortBYOB_spec x1 b1 hl (fun e he => hx e (hp.subset he))) hu
  · exact idempotent_of_spec _ xu bu (fun x1 b1 hp hl =>
      zuint32_SortBYOB_spec x1 b1 hl (fun e he => hx e (hp.subset he))) hu
  · exact idempotent_of_spec _ xu bu (fun x1 b1 hp hl =>
      zuint_SortBYOB_spec uintSize h x1 b1 hl (fun e he => hx e (hp.subset he))) hu
  · exact idempotent_of_spec _ xi bi (fun x1 b1 hp hl =>
      zint32_SortBYOB_spec x1 b1 hl (fun e he => hx e (hp.subset he))) hi
  · exact idempotent_of_spec _ xi bi (fun x1 b1 hp hl =>
      zint64_SortBYOB_spec x1 b1 hl (fun e he => hx e (hp.subset he))) hi
  · exact idempotent_of_spec _ xi bi (fun x1 b1 hp hl =>
      zint_SortBYOB_spec uintSize h x1 b1 hl (fun e he => hx e (hp.subset he))) hi

/-- Witness of C15: a sorted `int32` slice with negative values and a duplicate. -/
theorem integer_SortBYOB_idempotent_witness :
    ∃ out, zint32.SortBYOB [-7, -7, 0, 300] [0, 0, 0, 0, 0] = .ok out ∧
      (([-7, -7, 0, 300] : List Int).Pairwise (fun a b => a ≤ b) → out.x = [-7, -7, 0, 300]) ∧
      ∃ out2, zint32.SortBYOB out.x out.buffer = .ok out2 ∧ out2.x = out.x :=
  (integer_SortBYOB_idempotent 64 (Or.inr rfl) [] [] [-7, -7, 0, 300] [0, 0, 0, 0, 0]
    (by decide) (by decide)).2.2.2.1 (by decide)

/-- C16.  For every non-decreasing `[]uint64` `x` and every buffer with
`len(buffer) >= len(x)`, `zuint64.SortBYOB` returns without performing any scatter, leaving
every element of `x` and of the buffer as it was (for `len(x) >= 2` by the short-circuit exit
of the first pass, and below that by the guard before the loop); so it does on the
10,000-element ascending sequence. -/
theorem zuint64_SortBYOB_sorted_no_write (x buffer : List Nat)
    (hx : x.Pairwise (fun a b => a ≤ b)) (hlen : x.length ≤ buffer.length) :
    zuint64.SortBYOB x buffer = .ok { x := x, buffer := buffer, scatters := 0 } ∧
    (2 ≤ x.length → (scan zuint64.engine 0 x).sorted = true) ∧
    (10000 ≤ buffer.length →
      zuint64.SortBYOB (List.range 10000) buffer =
        .ok { x := List.range 10000, buffer := buffer, scatters := 0 }) := by
  have key : ∀ y : List Nat, y.Pairwise (fun a b => a ≤ b) → y.length ≤ buffer.length →
      zuint64.SortBYOB y buffer = .ok { x := y, buffer := buffer, scatters := 0 } := by
    intro y hy hl
    unfold zuint64.SortBYOB Engine.SortBYOB
    rw [if_neg (by omega)]
    by_cases h2 : y.length < 2
    · rw [if_pos h2]
    · rw [if_neg h2, radixSort_first_pass _ _ _ _ (by decide)
        (scan_sorted_nat rfl rfl rfl 0 y hy)]
      rfl
  refine ⟨key x hx hlen, fun _ => scan_sorted_nat rfl rfl rfl 0 x hx, fun hl => ?_⟩
  exact key _ ((List.pairwise_lt_range 10000).imp (fun h => Nat.le_of_lt h)) (by simpa using hl)

/-- Witness of C16: an ascending slice with a repeated value, and a longer buffer. -/
theorem zuint64_SortBYOB_sorted_no_write_witness :
    zuint64.SortBYOB [1, 1, 2 ^ 40] [7, 8, 9, 10] =
      .ok { x := [1, 1, 2 ^ 40], buffer := [7, 8, 9, 10], scatters := 0 } :=
  (zuint64_SortBYOB_sorted_no_write [1, 1, 2 ^ 40] [7, 8, 9, 10] (by decide) (by decide)).1

set_option maxRecDepth 100000 in
/-- C17 (the code at the failing input).  On the ascending `[]uint32` `[1, 2]` with a buffer
`[0, 0]`, `zuint32.SortBYOB` does not take the short-circuit exit: `sorted` starts as `false`,
so the test after the first loop never holds; all four passes scatter, and the buffer ends as
`[1, 2]`. -/
theorem zuint32_SortBYOB_sorted_scatters :
    (scan zuint32.engine 0 [1, 2]).sorted = false ∧
      zuint32.SortBYOB [1, 2] [0, 0] = .ok { x := [1, 2], buffer := [1, 2], scatters := 4 } :=
  ⟨rfl, rfl⟩

/-- C18 (the code at the failing input).  The constant `minInt = -1 >> (bitSize - 1)` is `-1`,
not the minimum `int`.  On the ascending `[]int` `[-5, -3, 0]` with a buffer `[0, 0, 0]` (64-bit
platform) the first loop of the first pass compares `-5 >= -1` and does not find the slice
sorted; `zint.SortBYOB` runs all eight scatter passes and leaves the three elements in the
buffer. -/
theorem zint_SortBYOB_sorted_scatters :
    zint.minInt 64 = -1 ∧ (scan (zint.engine 64) 0 [-5, -3, 0]).sorted = false ∧
      ∃ out, zint.SortBYOB 64 [-5, -3, 0] [0, 0, 0] = .ok out ∧ out.scatters = 8 ∧
        out.x = [-5, -3, 0] ∧ out.buffer.Perm [-5, -3, 0] := by
  have hmin : zint.minInt 64 = -1 := rfl
  have hnever : ∀ k frm, frm.Perm [-5, -3, 0] → (scan (zint.engine 64) k frm).sorted = false := by
    intro k frm hp
    refine scan_not_sorted _ (zint_engine_sound 64 (Or.inr rfl)).ge_trans k frm (-5)
      (hp.symm.subset (by simp)) ?_
    show decide ((-5 : Int) ≥ zint.minInt 64) = false
    rw [hmin]
    decide
  obtain ⟨out, ho, hsc, hb⟩ := Engine.SortBYOB_never_sorted (zint.engine 64)
    (zint_engine_sound 64 (Or.inr rfl)).key_lt [-5, -3, 0] [0, 0, 0] (by decide) (by decide)
    (by decide) hnever
  obtain ⟨out1, ho1, hp1, hs1, hl1⟩ := zint_SortBYOB_spec 64 (Or.inr rfl) [-5, -3, 0] [0, 0, 0]
    (by decide) (by decide)
  have ho2 : zint.SortBYOB 64 [-5, -3, 0] [0, 0, 0] = .ok out := ho
  rw [ho2] at ho1
  cases ho1
  refine ⟨hmin, hnever 0 _ (List.Perm.refl _), out, ho2, hsc, ?_, ?_⟩
  · exact eq_of_perm_of_sorted_le hp1 hs1 (by decide)
  · have h3 : out.buffer.take 3 = out.buffer := by
      apply List.take_of_length_le
      rw [hl1]; decide
    have := hb
    simp only [List.length_cons, List.length_nil] at this
    rwa [h3] at this

/-- C19 (code bug).  `ReaderParseStrings` does not advance `offset` over an empty piece, so a
string that follows a leading or a repeated NUL byte is stored under a key that is smaller than
its offset: in the section `"\x00ab"` the string `"ab"` is at offset 1 and gets key 0, under
which the section holds `"\x00a"`; in `"a\x00\x00bc\x00"` the string `"bc"` is at offset 3 and
gets key 2. -/
theorem ReaderParseStrings_key_not_offset :
    ReaderParseStrings [0, 97, 98] = [(0, [97, 98])] ∧
      (([0, 97, 98] : List Nat).drop 0).take 2 = [0, 97] ∧
      (([0, 97, 98] : List Nat).drop 1).take 2 = [97, 98] ∧
      ReaderParseStrings [97, 0, 0, 98, 99, 0] = [(0, [97]), (2, [98, 99])] ∧
      (([97, 0, 0, 98, 99, 0] : List Nat).drop 2).take 2 = [0, 98] ∧
      (([97, 0, 0, 98, 99, 0] : List Nat).drop 3).take 2 = [98, 99] := by
  refine ⟨by decide, rfl, rfl, by decide, rfl, rfl⟩

/-- C20.  `UtilUniqueSlice(s)` is the list of the values of `s` in the order of their first
occurrence: it has no duplicates, holds exactly the values of `s`, each of them once, and is
a subsequence of `s`.  For a non-decreasing `s` it is `s` without its consecutive duplicates,
and strictly increasing. -/
theorem UtilUniqueSlice_first_occurrences (s : List Nat) :
    UtilUniqueSlice s = firstOccurrences s ∧ (UtilUniqueSlice s).Nodup ∧
      (∀ v, v ∈ UtilUniqueSlice s ↔ v ∈ s) ∧
      (∀ v ∈ s, (UtilUniqueSlice s).count v = 1) ∧
      (UtilUniqueSlice s).Sublist s ∧
      (s.Pairwise (fun a b => a ≤ b) →
        UtilUniqueSlice s = s.destutter (fun a b => a ≠ b) ∧
          (UtilUniqueSlice s).Pairwise (fun a b => a < b)) := by
  rw [UtilUniqueSlice_eq]
  refine ⟨rfl, nodup_firstOccurrences s, mem_firstOccurrences s, ?_,
    firstOccurrences_sublist s, ?_⟩
  · intro v hv
    exact List.count_eq_one_of_mem (nodup_firstOccurrences s) ((mem_firstOccurrences s v).2 hv)
  · intro hs
    refine ⟨(destutter_eq_firstOccurrences s hs).symm, ?_⟩
    have h1 : (firstOccurrences s).Pairwise (fun a b => a ≤ b) :=
      hs.sublist (firstOccurrences_sublist s)
    exact (h1.and (nodup_firstOccurrences s)).imp (fun hab => lt_of_le_of_ne hab.1 hab.2)

/-- Witness of C20: a non-decreasing slice with repeated offsets, and an unordered one. -/
theorem UtilUniqueSlice_first_occurrences_witness :
    UtilUniqueSlice [0, 0, 3, 3, 3, 8] = [0, 3, 8] ∧
      UtilUniqueSlice [0, 0, 3, 3, 3, 8] =
        ([0, 0, 3, 3, 3, 8] : List Nat).destutter (fun a b => a ≠ b) ∧
      (UtilUniqueSlice [0, 0, 3, 3, 3, 8]).Pairwise (fun a b => a < b) ∧
      UtilUniqueSlice [5, 1, 5, 2, 1] = [5, 1, 2] :=
  ⟨by decide, ((UtilUniqueSlice_first_occurrences [0, 0, 3, 3, 3, 8]).2.2.2.2.2 (by decide)).1,
    ((UtilUniqueSlice_first_occurrences [0, 0, 3, 3, 3, 8]).2.2.2.2.2 (by decide)).2,
    by decide⟩

/-- C21 (counterexample).  On the NaN-free `[]float32` `[0.0, -0.0]` the first loop of the
first pass finds the slice sorted (`-0.0 >= 0.0` holds for floats) and `SortBYOB` returns with
`x` as it was, although the key of `0.0` is above the key of `-0.0`; the same for
`float64`. -/
theorem float_SortBYOB_zeros_unordered :
    zfloat32.IsNaN 0 = false ∧ zfloat32.IsNaN 0x80000000 = false ∧
      zfloat32.SortBYOB [0, 0x80000000] [0, 0] =
        .ok { x := [0, 0x80000000], buffer := [0, 0], scatters := 0 } ∧
      zfloat32.floatFlip (zfloat32.Float32bits 0x80000000) <
        zfloat32.floatFlip (zfloat32.Float32bits 0) ∧
      zfloat64.SortBYOB [0, 0x8000000000000000] [0, 0] =
        .ok { x := [0, 0x8000000000000000], buffer := [0, 0], scatters := 0 } ∧
      zfloat64.floatFlip (zfloat64.Float64bits 0x8000000000000000) <
        zfloat64.floatFlip (zfloat64.Float64bits 0) := by
  refine ⟨by decide, by decide, rfl, by decide, rfl, by decide⟩

/-- C21 (amended).  For every NaN-free `[]float32` (resp. `[]float64`) `x` and every buffer
with `len(buffer) >= len(x)`, `SortBYOB` returns with `x` a permutation of its input that is
non-decreasing in the float comparison, and whose keys `floatFlip(bits(x[i]))` are
non-decreasing in `i` except where a `+0.0` stands before a `-0.0`. -/
theorem float_SortBYOB_keys_sorted (x buffer : List Nat) (hlen : x.length ≤ buffer.length) :
    ((∀ e ∈ x, e < 2 ^ 32 ∧ zfloat32.IsNaN e = false) →
      ∃ out, zfloat32.SortBYOB x buffer = .ok out ∧ out.x.Perm x ∧
        out.x.Pairwise (fun a b => ieee.ge 32 0x7F800000 b a = true) ∧
        out.x.Pairwise (fun a b =>
          zfloat32.floatFlip (zfloat32.Float32bits a) ≤
              zfloat32.floatFlip (zfloat32.Float32bits b) ∨
            (a = 0 ∧ b = 0x80000000))) ∧
    ((∀ e ∈ x, e < 2 ^ 64 ∧ zfloat64.IsNaN e = false) →
      ∃ out, zfloat64.SortBYOB x buffer = .ok out ∧ out.x.Perm x ∧
        out.x.Pairwise (fun a b => ieee.ge 64 0x7FF0000000000000 b a = true) ∧
        out.x.Pairwise (fun a b =>
          zfloat64.floatFlip (zfloat64.Float64bits a) ≤
              zfloat64.floatFlip (zfloat64.Float64bits b) ∨
            (a = 0 ∧ b = 0x8000000000000000))) := by
  constructor
  · intro hx
    obtain ⟨out, N, T, ho, hNT, hN, hNn, hT, hR, hp, -⟩ :=
      zfloat32_SortBYOB_spec x buffer hlen (fun e he => (hx e he).1)
    have hN0 : N = [] := by
      apply List.eq_nil_of_length_eq_zero
      rw [hN, List.countP_eq_zero]
      intro e he
      rw [(hx e he).2]
      decide
    rw [hN0, List.nil_append] at hNT
    rw [hNT] at hp
    refine ⟨out, ho, ?_, ?_, ?_⟩
    · rwa [hNT]
    · rwa [hNT]
    · rw [hNT]
      refine hR.imp_of_mem ?_
      intro a b ha hb hab
      have ha1 := (hx a (hp.subset ha)).1
      have hb1 := (hx b (hp.subset hb)).1
      simp only [ieee.ge, Bool.and_eq_true, decide_eq_true_eq] at hab
      rcases total_le_or_zeros 32 a b (Or.inl rfl) ha1 hb1 hab.2 with h1 | h1
      · left
        have e1 := floatFlip32_total a ha1
        have e2 := floatFlip32_total b hb1
        unfold zfloat32.Float32bits
        omega
      · right
        exact h1
  · intro hx
    obtain ⟨out, N, T, ho, hNT, hN, hNn, hT, hR, hp, -⟩ :=
      zfloat64_SortBYOB_spec x buffer hlen (fun e he => (hx e he).1)
    have hN0 : N = [] := by
      apply List.eq_nil_of_length_eq_zero
      rw [hN, List.countP_eq_zero]
      intro e he
      rw [(hx e he).2]
      decide
    rw [hN0, List.nil_append] at hNT
    rw [hNT] at hp
    refine ⟨out, ho, ?_, ?_, ?_⟩
    · rwa [hNT]
    · rwa [hNT]
    · rw [hNT]
      refine hR.imp_of_mem ?_
      intro a b ha hb hab
      have ha1 := (hx a (hp.subset ha)).1
      have hb1 := (hx b (hp.subset hb)).1
      simp only [ieee.ge, Bool.and_eq_true, decide_eq_true_eq] at hab
      rcases total_le_or_zeros 64 a b (Or.inr rfl) ha1 hb1 hab.2 with h1 | h1
      · left
        have e1 := floatFlip64_total a ha1
        have e2 := floatFlip64_total b hb1
        unfold zfloat64.Float64bits
        omega
      · right
        exact h1

/-- Witness of C21 (amended): `[3.5, -0.0, -2.0, 0.0]` as `float32`. -/
theorem float_SortBYOB_keys_sorted_witness :
    ∃ out, zfloat32.SortBYOB [0x40600000, 0x80000000, 0xC0000000, 0] [0, 0, 0, 0] = .ok out ∧
      out.x.Perm [0x40600000, 0x80000000, 0xC0000000, 0] ∧
      out.x.Pairwise (fun a b => ieee.ge 32 0x7F800000 b a = true) ∧
      out.x.Pairwise (fun a b =>
        zfloat32.floatFlip (zfloat32.Float32bits a) ≤
            zfloat32.floatFlip (zfloat32.Float32bits b) ∨
          (a = 0 ∧ b = 0x80000000)) :=
  (float_SortBYOB_keys_sorted [0x40600000, 0x80000000, 0xC0000000, 0] [0, 0, 0, 0]
    (by decide)).1 (by decide)

/-- C22.  `floatFlip` is a strictly monotone key transform.  For all bit patterns `a`, `b` of
`float32` values (non-NaN or not), `a` precedes `b` in the sign-magnitude order of IEEE-754, in
which `-0.0` comes before `+0.0`, if and only if `floatFlip(a) < floatFlip(b)` as unsigned
integers; a pattern that is numerically smaller has the smaller key; and `floatFlip` inverts
all bits when the sign bit is set and otherwise sets the sign bit.  The same holds for the
patterns `c`, `d` of `float64` values. -/
theorem floatFlip_strictly_monotone (a b c d : Nat) (ha : a < 2 ^ 32) (hb : b < 2 ^ 32)
    (hc : c < 2 ^ 64) (hd : d < 2 ^ 64) :
    ((ieee.total 32 a < ieee.total 32 b ↔ zfloat32.floatFlip a < zfloat32.floatFlip b) ∧
      (ieee.lt 32 0x7F800000 a b = true → zfloat32.floatFlip a < zfloat32.floatFlip b) ∧
      ieee.total 32 0x80000000 < ieee.total 32 0 ∧
      zfloat32.floatFlip a < 2 ^ 32 ∧
      (∀ i, i < 32 → (zfloat32.floatFlip a).testBit i =
        if a.testBit 31 = true then !a.testBit i else (a.testBit i || decide (i = 31)))) ∧
    ((ieee.total 64 c < ieee.total 64 d ↔ zfloat64.floatFlip c < zfloat64.floatFlip d) ∧
      (ieee.lt 64 0x7FF0000000000000 c d = true →
        zfloat64.floatFlip c < zfloat64.floatFlip d) ∧
      ieee.total 64 0x8000000000000000 < ieee.total 64 0 ∧
      zfloat64.floatFlip c < 2 ^ 64 ∧
      (∀ i, i < 64 → (zfloat64.floatFlip c).testBit i =
        if c.testBit 63 = true then !c.testBit i else (c.testBit i || decide (i = 63)))) := by
  have a1 := floatFlip32_total a ha
  have b1 := floatFlip32_total b hb
  have c1 := floatFlip64_total c hc
  have d1 := floatFlip64_total d hd
  refine ⟨⟨by omega, ?_, by decide, ?_, fun i hi => floatFlip32_testBit a i hi⟩,
    ⟨by omega, ?_, by decide, ?_, fun i hi => floatFlip64_testBit c i hi⟩⟩
  · intro h
    simp only [ieee.lt, Bool.and_eq_true, decide_eq_true_eq] at h
    have := total_lt_of_ord_lt 32 a b h.2
    omega
  · rw [floatFlip32_eq a ha]
    split <;> omega
  · intro h
    simp only [ieee.lt, Bool.and_eq_true, decide_eq_true_eq] at h
    have := total_lt_of_ord_lt 64 c d h.2
    omega
  · rw [floatFlip64_eq c hc]
    split <;> omega

/-- Witness of C22: `-2.0` and `-0.0` as `float32`, `-0.0` and `1.0` as `float64`. -/
theorem floatFlip_strictly_monotone_witness :
    zfloat32.floatFlip 0xC0000000 < zfloat32.floatFlip 0x80000000 ∧
      zfloat64.floatFlip 0x8000000000000000 < zfloat64.floatFlip 0x3FF0000000000000 :=
  (fun t => ⟨t.1.1.1 (by decide), t.2.1.1 (by decide)⟩)
    (floatFlip_strictly_monotone 0xC0000000 0x80000000 0x8000000000000000 0x3FF0000000000000
      (by decide) (by decide) (by decide) (by decide))

/-- C23.  In the final pass (`keyOffset = bitSize - radix`) of each signed engine, when the
pass is not short-circuited, the scatter runs with the offsets `off` of the signed branch, in
which the buckets 128 to 255 (sign bit set) come before the buckets 0 to 127:
`off[128] = 0`, `off[0]` is the number of elements whose top byte is in 128..255 (the negative
elements), every other bucket starts where the bucket of the byte value before it ends, bucket
255 ends where bucket 0 starts and bucket 127 ends at `len(from)`; so the 256 buckets tile
`[0, n)` in the order 128, ..., 255, 0, ..., 127. -/
theorem signed_last_pass_offsets (uintSize : Nat) (h : uintSize = 32 ∨ uintSize = 64)
    (E : Engine Int) (hE : E = zint32.engine ∨ E = zint64.engine ∨ E = zint.engine uintSize)
    (frm dst : List Int) (offset : List Nat) (hoff : offset.length = 256) (n : Nat) :
    ∀ off, off = signedOffsets (scan E (E.bitSize - radix) frm).counts offset →
      ((scan E (E.bitSize - radix) frm).sorted = false →
        ∀ offset2 dst1, scatter E (E.bitSize - radix) frm off dst = .ok (offset2, dst1) →
          passes E (n + 1) (E.bitSize - radix) frm dst offset =
            passes E n (E.bitSize - radix + radix) dst1 frm offset2) ∧
      off.getD 128 0 = 0 ∧
      off.getD 0 0 = frm.countP (fun e => decide (128 ≤ E.key (E.bitSize - radix) e)) ∧
      ((∀ e ∈ frm, -2 ^ (E.bitSize - 1) ≤ e ∧ e < 2 ^ (E.bitSize - 1)) →
        off.getD 0 0 = frm.countP (fun e => decide (e < 0))) ∧
      (∀ d, 0 < d → d < 256 → d ≠ 128 →
        off.getD d 0 =
          off.getD (d - 1) 0 + frm.countP (fun e => E.key (E.bitSize - radix) e == d - 1)) ∧
      off.getD 255 0 + frm.countP (fun e => E.key (E.bitSize - radix) e == 255) =
        off.getD 0 0 ∧
      off.getD 127 0 + frm.countP (fun e => E.key (E.bitSize - radix) e == 127) =
        frm.length := by
  intro off hoffeq
  rw [hoffeq]
  have hs : E.signed = true := by
    rcases hE with rfl | rfl | rfl <;> rfl
  have hkey : ∀ e, E.key (E.bitSize - radix) e < 256 := by
    rcases hE with rfl | rfl | rfl <;> exact fun e => signedKey_lt _ _ e
  obtain ⟨t1, t2, t3, t4, t5⟩ :=
    signedOffsets_tiling E (E.bitSize - radix) hkey frm offset hoff
  refine ⟨fun hns => (passes_last_signed E hs n frm dst offset hns).2, t1, t2, ?_, t3, t4, t5⟩
  intro hx
  rw [t2]
  apply List.countP_congr
  intro e he
  simp only [decide_eq_true_eq]
  exact signed_top_key uintSize h E hE e (hx e he).1 (hx e he).2

/-- Witness of C23: the last pass of `zint32` on `[-5, 3, -1, 0]`, where two elements are
negative. -/
theorem signed_last_pass_offsets_witness :
    (signedOffsets (scan zint32.engine 24 [-5, 3, -1, 0]).counts
        (List.replicate 256 0)).getD 128 0 = 0 ∧
      (signedOffsets (scan zint32.engine 24 [-5, 3, -1, 0]).counts
        (List.replicate 256 0)).getD 0 0 = 2 :=
  (fun t => ⟨t.2.1, t.2.2.2.1 (by decide)⟩)
    (signed_last_pass_offsets 64 (Or.inr rfl) zint32.engine (Or.inl rfl) [-5, 3, -1, 0] []
      (List.replicate 256 0) (List.length_replicate _ _) 0 _ rfl)

/-- C24.  Every pass of `zuint64.SortBYOB` that is not short-circuited is a stable counting
sort on the current byte `e / 2 ^ (8 * i) % 256`.  The scatter of pass `i` returns, the loop
goes on with the slices swapped, and the output `to` is a permutation of `from`, ordered by
the current byte; there is a position map `pos` with `to[pos j] = from[j]` under which an
element comes earlier exactly when its byte is smaller, or equal with a smaller index in
`from` (elements with the same byte keep their relative order); and if `from` was ordered by
the low `8 * i` bits, `to` is ordered by the low `8 * (i + 1)` bits.  Hence, if the first
`k + 1` passes on `x` run their scatter, the data is then ordered by the low `8 * (k + 1)`
bits. -/
theorem zuint64_pass_stable_counting_sort (i : Nat) (hi : i < 8) (frm dst : List Nat)
    (offset : List Nat) (hoff : offset.length = 256) (hlen : dst.length = frm.length)
    (hns : (scan zuint64.engine (8 * i) frm).sorted = false) (n : Nat) :
    (∀ e, zuint64.engine.key (8 * i) e = e / 2 ^ (8 * i) % 256) ∧
    (∃ offset2 dst1,
      scatter zuint64.engine (8 * i) frm
        (plainOffsets (scan zuint64.engine (8 * i) frm).counts offset) dst =
          .ok (offset2, dst1) ∧
      passes zuint64.engine (n + 1) (8 * i) frm dst offset =
        passes zuint64.engine n (8 * i + 8) dst1 frm offset2 ∧
      dst1.Perm frm ∧
      dst1.Pairwise (fun a b => a / 2 ^ (8 * i) % 256 ≤ b / 2 ^ (8 * i) % 256) ∧
      (∃ pos : Nat → Nat,
        (∀ (j : Nat) (hj : j < frm.length), dst1[pos j]? = some frm[j]) ∧
        ∀ (j j' : Nat) (hj : j < frm.length) (hj' : j' < frm.length),
          pos j < pos j' ↔
            (frm[j] / 2 ^ (8 * i) % 256 < frm[j'] / 2 ^ (8 * i) % 256 ∨
              (frm[j] / 2 ^ (8 * i) % 256 = frm[j'] / 2 ^ (8 * i) % 256 ∧ j < j'))) ∧
      (frm.Pairwise (fun a b => a % 2 ^ (8 * i) ≤ b % 2 ^ (8 * i)) →
        dst1.Pairwise (fun a b => a % 2 ^ (8 * (i + 1)) ≤ b % 2 ^ (8 * (i + 1))))) ∧
    (∀ (x buffer : List Nat) (k : Nat) (r : Loop Nat), k < 8 → (∀ e ∈ x, e < 2 ^ 64) →
      buffer.length = x.length →
      passes zuint64.engine (k + 1) 0 x buffer (List.replicate 256 0) = .ok r →
      r.swaps = k + 1 →
      r.frm.Perm x ∧
        r.frm.Pairwise (fun a b => a % 2 ^ (8 * (k + 1)) ≤ b % 2 ^ (8 * (k + 1)))) := by
  have hkey : ∀ e, zuint64.engine.key (8 * i) e = e / 2 ^ (8 * i) % 256 :=
    fun e => unsignedKey_eq 64 (8 * i) e (by omega)
  have hrk : ∀ e, zuint64.engine.rank (8 * i) (zuint64.engine.key (8 * i) e) =
      e / 2 ^ (8 * i) % 256 := by
    intro e
    rw [← hkey e]
    rfl
  refine ⟨hkey, ?_, ?_⟩
  · obtain ⟨offset2, dst1, hsc, hp, -, hst⟩ :=
      pass_stable zuint64.engine _ _ _ zuint64_engine_sound (8 * i) frm dst offset hoff hlen
        hns n
    refine ⟨offset2, dst1, hsc, hp, hst.perm, ?_, ?_, ?_⟩
    · have := hst.pairwise_rank
      simp only [hrk] at this
      exact this
    · obtain ⟨pos, h1, h2⟩ := hst.positions
      simp only [hrk] at h2
      exact ⟨pos, h1, h2⟩
    · intro hlow
      refine hst.pairwise _ _ hlow ?_ ?_
      · intro a _ b _ hab
        simp only [hrk] at hab
        exact low_le_of_digit_lt a b i hab
      · intro a _ b _ hab hl
        simp only [hrk] at hab
        exact low_le_of_digit_eq a b i hab hl
  · intro x buffer k r hk hxx hbl hr hsw
    have := passes_low zuint64.engine _ _ _ zuint64_engine_sound (k + 1) 0
      (by show 0 + (k + 1) ≤ 8; omega) x buffer (List.replicate 256 0) r
      (List.length_replicate _ _) hxx hbl
      (by simp [List.pairwise_iff_getElem, Nat.mod_one]) hr (by omega)
    simpa using this

set_option maxRecDepth 100000 in
/-- Witness of C24: the first pass on `[2, 1]`, which is not found sorted. -/
theorem zuint64_pass_stable_counting_sort_witness :
    ∃ offset2 dst1,
      scatter zuint64.engine (8 * 0) [2, 1]
        (plainOffsets (scan zuint64.engine (8 * 0) [2, 1]).counts (List.replicate 256 0))
        [0, 0] = .ok (offset2, dst1) ∧
      dst1.Perm [2, 1] ∧
      dst1.Pairwise (fun a b => a / 2 ^ (8 * 0) % 256 ≤ b / 2 ^ (8 * 0) % 256) :=
  match (zuint64_pass_stable_counting_sort 0 (by decide) [2, 1] [0, 0] (List.replicate 256 0)
    (List.length_replicate _ _) rfl rfl 0).2.1 with
  | ⟨o, d, h1, _, h3, h4, _⟩ => ⟨o, d, h1, h3, h4⟩

/-- C25.  The small-input fallback and the radix path agree: for each integer kind, for every
slice `x` of the kind, of any length, and every buffer with `len(buffer) >= len(x)`, the
kind's `Sort(x)` and `SortBYOB(x, buffer)` both return and leave the same contents in `x`;
and so does `Sort` with any other fallback that returns a sorted permutation. -/
theorem integer_Sort_agrees_with_SortBYOB (uintSize : Nat) (h : uintSize = 32 ∨ uintSize = 64)
    (xu bu : List Nat) (xi bi : List Int)
    (hu : xu.length ≤ bu.length) (hi : xi.length ≤ bi.length) :
    ((∀ e ∈ xu, e < 2 ^ 64) →
      (∃ y out, zuint64.Sort_ xu = .ok y ∧ zuint64.SortBYOB xu bu = .ok out ∧ y = out.x) ∧
      ∀ fallback : List Nat → List Nat,
        (fallback xu).Perm xu → (fallback xu).Pairwise (fun a b => a ≤ b) →
        ∃ y out, sortWith zuint64.MinSize fallback zuint64.SortBYOB 0 xu = .ok y ∧
          zuint64.SortBYOB xu bu = .ok out ∧ y = out.x) ∧
    ((∀ e ∈ xu, e < 2 ^ 32) →
      (∃ y out, zuint32.Sort_ xu = .ok y ∧ zuint32.SortBYOB xu bu = .ok out ∧ y = out.x) ∧
      ∀ fallback : List Nat → List Nat,
        (fallback xu).Perm xu → (fallback xu).Pairwise (fun a b => a ≤ b) →
        ∃ y out, sortWith zuint32.MinSize fallback zuint32.SortBYOB 0 xu = .ok y ∧
          zuint32.SortBYOB xu bu = .ok out ∧ y = out.x) ∧
    ((∀ e ∈ xu, e < 2 ^ uintSize) →
      (∃ y out, zuint.Sort_ uintSize xu = .ok y ∧ zuint.SortBYOB uintSize xu bu = .ok out ∧
        y = out.x) ∧
      ∀ fallback : List Nat → List Nat,
        (fallback xu).Perm xu → (fallback xu).Pairwise (fun a b => a ≤ b) →
        ∃ y out, sortWith zuint.MinSize fallback (zuint.SortBYOB uintSize) 0 xu = .ok y ∧
          zuint.SortBYOB uintSize xu bu = .ok out ∧ y = out.x) ∧
    ((∀ e ∈ xi, -2 ^ 31 ≤ e ∧ e < 2 ^ 31) →
      (∃ y out, zint32.Sort_ xi = .ok y ∧ zint32.SortBYOB xi bi = .ok out ∧ y = out.x) ∧
      ∀ fallback : List Int → List Int,
        (fallback xi).Perm xi → (fallback xi).Pairwise (fun a b => a ≤ b) →
        ∃ y out, sortWith zint32.MinSize fallback zint32.SortBYOB 0 xi = .ok y ∧
          zint32.SortBYOB xi bi = .ok out ∧ y = out.x) ∧
    ((∀ e ∈ xi, -2 ^ 63 ≤ e ∧ e < 2 ^ 63) →
      (∃ y out, zint64.Sort_ xi = .ok y ∧ zint64.SortBYOB xi bi = .ok out ∧ y = out.x) ∧
      ∀ fallback : List Int → List Int,
        (fallback xi).Perm xi → (fallback xi).Pairwise (fun a b => a ≤ b) →
        ∃ y out, sortWith zint64.MinSize fallback zint64.SortBYOB 0 xi = .ok y ∧
          zint64.SortBYOB xi bi = .ok out ∧ y = out.x) ∧
    ((∀ e ∈ xi, -2 ^ (uintSize - 1) ≤ e ∧ e < 2 ^ (uintSize - 1)) →
      (∃ y out, zint.Sort_ uintSize xi = .ok y ∧ zint.SortBYOB uintSize xi bi = .ok out ∧
        y = out.x) ∧
      ∀ fallback : List Int → List Int,
        (fallback xi).Perm xi → (fallback xi).Pairwise (fun a b => a ≤ b) →
        ∃ y out, sortWith zint.MinSize fallback (zint.SortBYOB uintSize) 0 xi = .ok y ∧
          zint.SortBYOB uintSize xi bi = .ok out ∧ y = out.x) := by
  refine ⟨fun hx => ?_, fun hx => ?_, fun hx => ?_, fun hx => ?_, fun hx => ?_, fun hx => ?_⟩
  · have hb : ∀ b, xu.length ≤ b.length → ∃ out, zuint64.SortBYOB xu b = .ok out ∧
        out.x.Perm xu ∧ out.x.Pairwise (fun a b => a ≤ b) := fun b hl => by
      obtain ⟨out, h1, h2, h3, _⟩ := zuint64_SortBYOB_spec xu b hl hx
      exact ⟨out, h1, h2, h3⟩
    exact ⟨sortWith_agrees _ _ _ 0 xu bu (gosort_Sort_spec xu) hb hu,
      fun f hf1 hf2 => sortWith_agrees _ f _ 0 xu bu ⟨hf1, hf2⟩ hb hu⟩
  · have hb : ∀ b, xu.length ≤ b.length → ∃ out, zuint32.SortBYOB xu b = .ok out ∧
        out.x.Perm xu ∧ out.x.Pairwise (fun a b => a ≤ b) := fun b hl => by
      obtain ⟨out, h1, h2, h3, _⟩ := zuint32_SortBYOB_spec xu b hl hx
      exact ⟨out, h1, h2, h3⟩
    exact ⟨sortWith_agrees _ _ _ 0 xu bu (gosort_Sort_spec xu) hb hu,
      fun f hf1 hf2 => sortWith_agrees _ f _ 0 xu bu ⟨hf1, hf2⟩ hb hu⟩
  · have hb : ∀ b, xu.length ≤ b.length → ∃ out, zuint.SortBYOB uintSize xu b = .ok out ∧
        out.x.Perm xu ∧ out.x.Pairwise (fun a b => a ≤ b) := fun b hl => by
      obtain ⟨out, h1, h2, h3, _⟩ := zuint_SortBYOB_spec uintSize h xu b hl hx
      exact ⟨out, h1, h2, h3⟩
    exact ⟨sortWith_agrees _ _ _ 0 xu bu (gosort_Sort_spec xu) hb hu,
      fun f hf1 hf2 => sortWith_agrees _ f _ 0 xu bu ⟨hf1, hf2⟩ hb hu⟩
  · have hb : ∀ b, xi.length ≤ b.length → ∃ out, zint32.SortBYOB xi b = .ok out ∧
        out.x.Perm xi ∧ out.x.Pairwise (fun a b => a ≤ b) := fun b hl => by
      obtain ⟨out, h1, h2, h3, _⟩ := zint32_SortBYOB_spec xi b hl hx
      exact ⟨out, h1, h2, h3⟩
    exact ⟨sortWith_agrees _ _ _ 0 xi bi (gosort_Sort_spec xi) hb hi,
      fun f hf1 hf2 => sortWith_agrees _ f _ 0 xi bi ⟨hf1, hf2⟩ hb hi⟩
  · have hb : ∀ b, xi.length ≤ b.length → ∃ out, zint64.SortBYOB xi b = .ok out ∧
        out.x.Perm xi ∧ out.x.Pairwise (fun a b => a ≤ b) := fun b hl => by
      obtain ⟨out, h1, h2, h3, _⟩ := zint64_SortBYOB_spec xi b hl hx
      exact ⟨out, h1, h2, h3⟩
    exact ⟨sortWith_agrees _ _ _ 0 xi bi (gosort_Sort_spec xi) hb hi,
      fun f hf1 hf2 => sortWith_agrees _ f _ 0 xi bi ⟨hf1, hf2⟩ hb hi⟩
  · have hb : ∀ b, xi.length ≤ b.length → ∃ out, zint.SortBYOB uintSize xi b = .ok out ∧
        out.x.Perm xi ∧ out.x.Pairwise (fun a b => a ≤ b) := fun b hl => by
      obtain ⟨out, h1, h2, h3, _⟩ := zint_SortBYOB_spec uintSize h xi b hl hx
      exact ⟨out, h1, h2, h3⟩
    exact ⟨sortWith_agrees _ _ _ 0 xi bi (gosort_Sort_spec xi) hb hi,
      fun f hf1 hf2 => sortWith_agrees _ f _ 0 xi bi ⟨hf1, hf2⟩ hb hi⟩

/-- Witness of C25: a `[]uint32` of 200 elements (the radix path of `Sort`) and a short
`[]int32` (the fallback). -/
theorem integer_Sort_agrees_with_SortBYOB_witness :
    (∃ y out, zuint32.Sort_ (List.range 200).reverse = .ok y ∧
      zuint32.SortBYOB (List.range 200).reverse (List.replicate 300 0) = .ok out ∧
      y = out.x) ∧
    (∃ y out, zint32.Sort_ [3, -1, 2] = .ok y ∧ zint32.SortBYOB [3, -1, 2] [0, 0, 0] = .ok out ∧
      y = out.x) :=
  (fun t => ⟨(t.2.1 (fun e he => by
      have := List.mem_range.1 (List.mem_reverse.1 he)
      omega)).1, (t.2.2.2.1 (by decide)).1⟩)
    (integer_Sort_agrees_with_SortBYOB 64 (Or.inr rfl) (List.range 200).reverse
      (List.replicate 300 0) [3, -1, 2] [0, 0, 0]
      (by simp only [List.length_reverse, List.length_range, List.length_replicate]; decide)
      (by decide))

/-- C26.  `Sort(x)` of a stateful sorter touches only the retained buffer of the kind of `x`.
For every sorter state `z` and every input `x`: whenever the call returns, for `x` of a numeric
kind `k` the seven buffers of the other kinds are unchanged, and for `x` of no numeric kind
(an unsupported value, a `[]string` or a `sort.Interface` value) all eight buffers are
unchanged.  The call does return for a value of no numeric kind, and for a numeric slice when
`5 * len(x)` is in the range of `int` or the buffer of the kind is still nil. -/
theorem zSorter_Sort_touches_one_buffer (uintSize : Nat) (h : uintSize = 32 ∨ uintSize = 64)
    (z : zSorter) (x : Value) (hx : x.inRange uintSize) :
    (∀ r, z.Sort_ uintSize x = .ok r →
      (∀ k, x.kind = some k → zSorter.sameExcept k z r.1) ∧
      (x.kind = none → zSorter.sameBuffers z r.1)) ∧
    (x.kind = none → ∃ y e, z.Sort_ uintSize x = .ok (z, y, e)) ∧
    (∀ k, x.kind = some k →
      (z.cap k = 0 ∨ 5 * (x.len : Int) < 2 ^ (uintSize - 1)) →
      ∃ r, z.Sort_ uintSize x = .ok r) := by
  refine ⟨fun r hr => ?_, fun hk => ?_, fun k hk hfit => ?_⟩
  · obtain ⟨h1, h2⟩ := zSorter_Sort_frame uintSize z x r hr
    refine ⟨h1, fun hk => ?_⟩
    rw [h2 hk]
    exact ⟨rfl, rfl, rfl, rfl, rfl, rfl, rfl, rfl⟩
  · obtain ⟨y, e, hs, -⟩ := zSorter_Sort_other uintSize z x hk
    exact ⟨y, e, hs⟩
  · obtain ⟨z1, y, hs, -⟩ := zSorter_Sort_spec uintSize h z x k hk hx hfit
    exact ⟨_, hs⟩

/-- Witness of C26: a `[]uint64` on a sorter that holds an `int32` buffer. -/
theorem zSorter_Sort_touches_one_buffer_witness :
    ∃ r, zSorter.Sort_ 64 { New with bufInt32 := [7, 8, 9] } (.uint64s [5, 3, 4]) = .ok r ∧
      zSorter.sameExcept .uint64 { New with bufInt32 := [7, 8, 9] } r.1 :=
  (fun t =>
    match t.2.2 .uint64 rfl (Or.inl rfl) with
    | ⟨r, hr⟩ => ⟨r, hr, (t.1 r hr).1 .uint64 rfl⟩)
    (zSorter_Sort_touches_one_buffer 64 (Or.inr rfl) { New with bufInt32 := [7, 8, 9] }
      (.uint64s [5, 3, 4]) (by simp [Value.inRange]))

/-- C27.  For every section buffer `buf`, with `nodes = ReaderParseStrings(buf)`, and for
every order `iter` in which the `range` loop over the map yields its keys, the offsets that
`ReadSection` iterates for output (the key slice built as `make([]uint64, len(nodes))` plus one
appended key per entry, sorted by `zermelo.Sort` and passed through `UtilUniqueSlice`) are
exactly the keys of `nodes`, each exactly once, in strictly increasing order; every offset
iterated is a key of `nodes`.  (The zeros that `make` puts in front add no offset, because a
non-empty `nodes` always has the key 0.) -/
theorem ReadSection_iterates_keys (uintSize : Nat) (buf : List Nat) (iter : List Nat)
    (hiter : iter.Perm ((ReaderParseStrings buf).map Prod.fst)) :
    ∃ ks, ReadSectionKeys uintSize (ReaderParseStrings buf) iter = .ok ks ∧
      ks.Pairwise (fun a b => a < b) ∧ ks.Nodup ∧
      ks.Perm ((ReaderParseStrings buf).map Prod.fst) ∧
      (∀ k, k ∈ ks ↔ k ∈ (ReaderParseStrings buf).map Prod.fst) ∧
      (∀ k ∈ ks, ∃ v, (k, v) ∈ ReaderParseStrings buf) := by
  obtain ⟨hlt, hnd, h0⟩ := ReaderParseStrings_keys buf
  obtain ⟨ks, hks, hs, hm⟩ := ReadSectionKeys_spec uintSize (ReaderParseStrings buf) iter hiter hlt
  have hmem : ∀ k, k ∈ ks ↔ k ∈ (ReaderParseStrings buf).map Prod.fst := by
    intro k
    rw [hm]
    constructor
    · rintro (⟨rfl, hne⟩ | h)
      · exact h0 hne
      · exact h
    · exact Or.inr
  have hnodup : ks.Nodup := hs.imp (fun h => Nat.ne_of_lt h)
  refine ⟨ks, hks, hs, hnodup, (List.perm_ext_iff_of_nodup hnodup hnd).2 hmem, hmem, ?_⟩
  intro k hk
  obtain ⟨e, he, rfl⟩ := List.mem_map.1 ((hmem k).1 hk)
  exact ⟨e.2, he⟩

/-- Witness of C27: a section with a leading and a repeated NUL byte, the map ranged over in
the reverse of the insertion order. -/
theorem ReadSection_iterates_keys_witness :
    ∃ ks, ReadSectionKeys 64 (ReaderParseStrings [0, 97, 98, 0, 0, 99, 0]) [3, 0] = .ok ks ∧
      ks.Pairwise (fun a b => a < b) ∧ ks.Nodup ∧
      ks.Perm ((ReaderParseStrings [0, 97, 98, 0, 0, 99, 0]).map Prod.fst) ∧
      (∀ k, k ∈ ks ↔ k ∈ (ReaderParseStrings [0, 97, 98, 0, 0, 99, 0]).map Prod.fst) ∧
      (∀ k ∈ ks, ∃ v, (k, v) ∈ ReaderParseStrings [0, 97, 98, 0, 0, 99, 0]) :=
  ReadSection_iterates_keys 64 [0, 97, 98, 0, 0, 99, 0] [3, 0] (by decide)

/-- C28.  The stateful sorter never violates the scratch-buffer precondition.  For every
sorter state `z` (so for every state reached from `New()` by any sequence of `Sort` calls) and
every slice `x` of a numeric kind `k`: no panic of `z.Sort(x)` is the `"Buffer too small"`
panic of `SortBYOB`.  For `len(x)` up to `(2 ^ uintSize - 4) / 5` (858993458 elements on a
32-bit platform; a longer slice takes more than 3.2 GiB there): whenever `prepBuffers`
returns, the retained buffer of `k` (whose length is its capacity) has at least `len(x)`
elements, the slice expression `buf[:len(x)]` is in range, the sort succeeds and `Sort`
returns; the only panic of `Sort` is that of `make` inside `prepBuffers`, when `5 * len(x)`
wraps to a negative `int`.  With `5 * len(x)` in the range of `int`, or the buffer of the
kind still nil, `prepBuffers` and `Sort` return. -/
theorem zSorter_Sort_buffer_large_enough (uintSize : Nat) (h : uintSize = 32 ∨ uintSize = 64)
    (z : zSorter) (x : Value) (k : Kind) (hk : x.kind = some k) (hx : x.inRange uintSize) :
    (∀ e, z.Sort_ uintSize x = .error e → e ≠ "Buffer too small") ∧
    (5 * (x.len : Int) + 4 ≤ 2 ^ uintSize →
      (∀ z1, z.prepBuffers uintSize x = .ok z1 →
        x.len ≤ z1.cap k ∧
          ∃ r, z1.sortSwitch uintSize x = .ok r ∧ z.Sort_ uintSize x = .ok r) ∧
      (∀ e, z.Sort_ uintSize x = .error e →
        z.prepBuffers uintSize x = .error e ∧ e = "makeslice: len out of range")) ∧
    ((z.cap k = 0 ∨ 5 * (x.len : Int) < 2 ^ (uintSize - 1)) →
      ∃ z1, z.prepBuffers uintSize x = .ok z1 ∧ x.len ≤ z1.cap k ∧
        ∃ r, z1.sortSwitch uintSize x = .ok r ∧ z.Sort_ uintSize x = .ok r) := by
  refine ⟨?_, fun hrecv => ⟨?_, ?_⟩, ?_⟩
  · intro e he
    rcases zSorter_Sort_error uintSize h z x hx e he with rfl | rfl <;> decide
  · exact fun z1 hz => zSorter_prepBuffers_recv uintSize h z x k hk hx hrecv z1 hz
  · exact fun e he => zSorter_Sort_error_recv uintSize h z x k hk hx hrecv e he
  · intro hfit
    obtain ⟨z1, h1, h2, -, r, h3, h4⟩ := zSorter_prepBuffers_spec uintSize h z x k hk hx hfit
    exact ⟨z1, h1, h2, r, h3, h4⟩

/-- Witness of C28: an `[]int64` of three elements on a sorter whose `int64` buffer has one
element. -/
theorem zSorter_Sort_buffer_large_enough_witness :
    ∃ z1, zSorter.prepBuffers 64 { New with bufInt64 := [0] } (.int64s [3, -1, 2]) = .ok z1 ∧
      (Value.int64s [3, -1, 2]).len ≤ z1.cap .int64 ∧
      ∃ r, z1.sortSwitch 64 (.int64s [3, -1, 2]) = .ok r ∧
        zSorter.Sort_ 64 { New with bufInt64 := [0] } (.int64s [3, -1, 2]) = .ok r :=
  (fun t =>
    match t.2.2 (Or.inr (by decide)) with
    | ⟨z1, hz, _⟩ => ⟨z1, hz, (t.2.1 (by decide)).1 z1 hz⟩)
    (zSorter_Sort_buffer_large_enough 64 (Or.inr rfl) { New with bufInt64 := [0] }
      (.int64s [3, -1, 2]) .int64 rfl (by simp [Value.inRange]))

/-- C29.  The sorted result does not depend on the prior contents or the extra length of the
scratch buffer: for each integer kind, for every slice `x` of the kind and any two buffers
`b1`, `b2` with `len(b1) >= len(x)` and `len(b2) >= len(x)`, `SortBYOB(x, b1)` and
`SortBYOB(x, b2)` both return and leave identical contents in `x`, and each leaves the
elements of its buffer at the indices from `len(x)` on as they were. -/
theorem integer_SortBYOB_buffer_independent (uintSize : Nat)
    (h : uintSize = 32 ∨ uintSize = 64) (xu bu1 bu2 : List Nat) (xi bi1 bi2 : List Int)
    (hu1 : xu.length ≤ bu1.length) (hu2 : xu.length ≤ bu2.length)
    (hi1 : xi.length ≤ bi1.length) (hi2 : xi.length ≤ bi2.length) :
    ((∀ e ∈ xu, e < 2 ^ 64) →
      ∃ o1 o2, zuint64.SortBYOB xu bu1 = .ok o1 ∧ zuint64.SortBYOB xu bu2 = .ok o2 ∧ o1.x = o2.x ∧
        o1.buffer.drop xu.length = bu1.drop xu.length ∧
        o2.buffer.drop xu.length = bu2.drop xu.length) ∧
    ((∀ e ∈ xu, e < 2 ^ 32) →
      ∃ o1 o2, zuint32.SortBYOB xu bu1 = .ok o1 ∧ zuint32.SortBYOB xu bu2 = .ok o2 ∧ o1.x = o2.x ∧
        o1.buffer.drop xu.length = bu1.drop xu.length ∧
        o2.buffer.drop xu.length = bu2.drop xu.length) ∧
    ((∀ e ∈ xu, e < 2 ^ uintSize) →
      ∃ o1 o2, zuint.SortBYOB uintSize xu bu1 = .ok o1 ∧ zuint.SortBYOB uintSize xu bu2 = .ok o2 ∧ o1.x = o2.x ∧
        o1.buffer.drop xu.length = bu1.drop xu.length ∧
        o2.buffer.drop xu.length = bu2.drop xu.length) ∧
    ((∀ e ∈ xi, -2 ^ 31 ≤ e ∧ e < 2 ^ 31) →
      ∃ o1 o2, zint32.SortBYOB xi bi1 = .ok o1 ∧ zint32.SortBYOB xi bi2 = .ok o2 ∧ o1.x = o2.x ∧
        o1.buffer.drop xi.length = bi1.drop xi.length ∧
        o2.buffer.drop xi.length = bi2.drop xi.length) ∧
    ((∀ e ∈ xi, -2 ^ 63 ≤ e ∧ e < 2 ^ 63) →
      ∃ o1 o2, zint64.SortBYOB xi bi1 = .ok o1 ∧ zint64.SortBYOB xi bi2 = .ok o2 ∧ o1.x = o2.x ∧
        o1.buffer.drop xi.length = bi1.drop xi.length ∧
        o2.buffer.drop xi.length = bi2.drop xi.length) ∧
    ((∀ e ∈ xi, -2 ^ (uintSize - 1) ≤ e ∧ e < 2 ^ (uintSize - 1)) →
      ∃ o1 o2, zint.SortBYOB uintSize xi bi1 = .ok o1 ∧ zint.SortBYOB uintSize xi bi2 = .ok o2 ∧ o1.x = o2.x ∧
        o1.buffer.drop xi.length = bi1.drop xi.length ∧
        o2.buffer.drop xi.length = bi2.drop xi.length) := by
  exact ⟨fun hx => Engine.SortBYOB_buffer_independent _ _ _ zuint64_engine_sound xu bu1 bu2 hu1 hu2 hx,
    fun hx => Engine.SortBYOB_buffer_independent _ _ _ zuint32_engine_sound xu bu1 bu2 hu1 hu2 hx,
    fun hx => Engine.SortBYOB_buffer_independent _ _ _ (zuint_engine_sound uintSize h) xu bu1 bu2 hu1 hu2 hx,
    fun hx => Engine.SortBYOB_buffer_independent _ _ _ zint32_engine_sound xi bi1 bi2 hi1 hi2 hx,
    fun hx => Engine.SortBYOB_buffer_independent _ _ _ zint64_engine_sound xi bi1 bi2 hi1 hi2 hx,
    fun hx => Engine.SortBYOB_buffer_independent _ _ _ (zint_engine_sound uintSize h) xi bi1 bi2 hi1 hi2 hx⟩

/-- Witness of C29: `zint64.SortBYOB` on the same slice with a zeroed buffer of its length and
with a longer buffer that holds other values. -/
theorem integer_SortBYOB_buffer_independent_witness :
    ∃ o1 o2, zint64.SortBYOB [4, -9, 4, 0] [0, 0, 0, 0] = .ok o1 ∧
      zint64.SortBYOB [4, -9, 4, 0] [11, 12, 13, 14, 15, 16] = .ok o2 ∧ o1.x = o2.x ∧
      o1.buffer.drop ([4, -9, 4, 0] : List Int).length =
        ([0, 0, 0, 0] : List Int).drop ([4, -9, 4, 0] : List Int).length ∧
      o2.buffer.drop ([4, -9, 4, 0] : List Int).length =
        ([11, 12, 13, 14, 15, 16] : List Int).drop ([4, -9, 4, 0] : List Int).length :=
  (integer_SortBYOB_buffer_independent 64 (Or.inr rfl) [] [] [] [4, -9, 4, 0] [0, 0, 0, 0]
    [11, 12, 13, 14, 15, 16] (by decide) (by decide) (by decide) (by decide)).2.2.2.2.1
    (by decide)

/-- C30.  `UtilIsNice(str)` returns true if and only if `str` has at least one byte other
than the space character and every byte of `str` is at least `0x20` or is a carriage return
or a newline; it returns false for the empty string, for a string of spaces only, and for a
string with a tab or another control byte. -/
theorem UtilIsNice_iff (str : List Nat) :
    (UtilIsNice str = true ↔
      (∃ c ∈ str, c ≠ 32) ∧ ∀ c ∈ str, 32 ≤ c ∨ c = 13 ∨ c = 10) ∧
    UtilIsNice [] = false ∧
    ((∀ c ∈ str, c = 32) → UtilIsNice str = false) ∧
    (9 ∈ str → UtilIsNice str = false) ∧
    (∀ c ∈ str, c < 32 → c ≠ 13 → c ≠ 10 → UtilIsNice str = false) := by
  have hf : ∀ s : List Nat, ¬ ((∃ c ∈ s, c ≠ 32) ∧ ∀ c ∈ s, 32 ≤ c ∨ c = 13 ∨ c = 10) →
      UtilIsNice s = false := by
    intro s hn
    cases hb : UtilIsNice s with
    | false => rfl
    | true => exact absurd ((UtilIsNice_eq s).1 hb) hn
  refine ⟨UtilIsNice_eq str, rfl, ?_, ?_, ?_⟩
  · intro hall
    apply hf
    rintro ⟨⟨c, hc, hne⟩, -⟩
    exact hne (hall c hc)
  · intro h9
    apply hf
    rintro ⟨-, hall⟩
    have := hall 9 h9
    omega
  · intro c hc h1 h2 h3
    apply hf
    rintro ⟨-, hall⟩
    have := hall c hc
    omega

/-- Witness of C30: `"hi \n"` is nice, a string of two spaces and a string with a tab are
not. -/
theorem UtilIsNice_iff_witness :
    UtilIsNice [104, 105, 32, 10] = true ∧ UtilIsNice [32, 32] = false ∧
      UtilIsNice [97, 9, 98] = false :=
  ⟨(UtilIsNice_iff [104, 105, 32, 10]).1.2 (by decide),
    (UtilIsNice_iff [32, 32]).2.2.1 (by decide),
    (UtilIsNice_iff [97, 9, 98]).2.2.2.1 (by decide)⟩

/-- C31.  `UtilConvHex` is an injective encoding of strings of bytes.  The result is the
concatenation, in input order, of one chunk per byte; the chunk of a byte `b` is a backslash,
the letter `x`, and the uppercase hexadecimal digits of `b` without zero padding (one digit
when `b < 0x10`, the two digits `b / 16` and `b % 16` otherwise), a digit `d` being the
character `'0' + d` below ten and `'A' + (d - 10)` from ten on; and
`UtilConvHex(s) = UtilConvHex(t)` implies `s = t`. -/
theorem UtilConvHex_injective (s t : List Nat) (hs : ∀ b ∈ s, b < 256)
    (ht : ∀ b ∈ t, b < 256) :
    UtilConvHex s = (s.map sprintfHex).flatten ∧
    (∀ b, sprintfHex b =
      if b < 16 then [92, 120, udigits.getD b 0]
      else [92, 120, udigits.getD (b / 16) 0, udigits.getD (b % 16) 0]) ∧
    (∀ d, d < 16 → udigits.getD d 0 = if d < 10 then 48 + d else 65 + (d - 10)) ∧
    (UtilConvHex s = UtilConvHex t → s = t) :=
  ⟨UtilConvHex_eq s, sprintfHex_eq, by decide, UtilConvHex_inj s t hs ht⟩

/-- Witness of C31: the bytes `0x01, 0x02` and the byte `0x12` have different encodings
(`\x1\x2` and `\x12`), and the encoding of `0x0A, 0xFF` is `\xA\xFF`. -/
theorem UtilConvHex_injective_witness :
    UtilConvHex [1, 2] ≠ UtilConvHex [18] ∧
      UtilConvHex [10, 255] = [92, 120, 65, 92, 120, 70, 70] :=
  ⟨fun h => absurd ((UtilConvHex_injective [1, 2] [18] (by decide) (by decide)).2.2.2 h)
    (by decide), by decide⟩

end zermelo
